import Mathlib

/-!
# ctetris: a shallow embedding of `src/main.c`

The playing field is the C array `char field[FIELD_LENGTH]`, embedded as a `List Char`.
Every array access goes through `readField` / `writeField`, which return `none` for an
index outside the array, so a result `some _` also says that every access was in bounds.
C `int` values that may be negative (positions, field indices, the counters handed to
`clearLinesFromField`) are `Int`; loop counters that start at `0` and the rotation, which
the program keeps in `0..3`, are `Nat`.  The `unsigned int` counters are `Nat` reduced
modulo `2 ^ 32`.  The loops of `clearLinesFromField` that have no counter take a fuel
argument, and fuel `17` is shown to be enough for a field of this size.

The key read by `getch()` is one of the six arms of the `switch`, and the random source is a
function `rnd` with `rnd i` the value of the call `arc4random_uniform(i + 1)`.  Drawing,
sleeping and the frame clock have no effect on the state and are left out.
-/

namespace CTetris

/-! ## Constants and tables -/

def NUM_TETROMINOES : Nat := 7
def FIELD_WIDTH : Nat := 12
def FIELD_HEIGHT : Nat := 18
def FIELD_LENGTH : Nat := FIELD_WIDTH * FIELD_HEIGHT

/-- The C `struct tetromino`; `sprite` is the string the `const char*` points to. -/
structure tetromino where
  sidelen : Nat
  x : Int
  y : Int
  rot : Nat
  sprite : List Char
deriving DecidableEq, Repr

/-- Rotation table for 3x3 shapes, indexed `[rot][y][x]`. -/
def threeRot : List (List (List Nat)) :=
  [ [[0, 1, 2], [3, 4, 5], [6, 7, 8]],
    [[6, 3, 0], [7, 4, 1], [8, 5, 2]],
    [[8, 7, 6], [5, 4, 3], [2, 1, 0]],
    [[2, 5, 8], [1, 4, 7], [0, 3, 6]] ]

/-- Rotation table for 4x4 shapes, indexed `[rot][y][x]`. -/
def fourRot : List (List (List Nat)) :=
  [ [[0, 1, 2, 3], [4, 5, 6, 7], [8, 9, 10, 11], [12, 13, 14, 15]],
    [[12, 8, 4, 0], [13, 9, 5, 1], [14, 10, 6, 2], [15, 11, 7, 3]],
    [[15, 14, 13, 12], [11, 10, 9, 8], [7, 6, 5, 4], [3, 2, 1, 0]],
    [[3, 7, 11, 15], [2, 6, 10, 14], [1, 5, 9, 13], [0, 4, 8, 12]] ]

/-- The piece sprites of `main`. -/
def tetrominoes : List (List Char) :=
  [ "    IIII        ".data,
    "ZZ  ZZ   ".data,
    " SSSS    ".data,
    "OOOO".data,
    " T TTT   ".data,
    "  LLLL   ".data,
    "J  JJJ   ".data ]

def tetrominoSideLengths : List Nat := [4, 3, 3, 2, 3, 3, 3]

/-! ## The field array -/

abbrev Field := List Char

/-- The read `field[i]`; `none` when `i` is outside the array. -/
def readField (field : Field) (i : Int) : Option Char :=
  if 0 ≤ i then field[i.toNat]? else none

/-- The write `field[i] = c`; `none` when `i` is outside the array. -/
def writeField (field : Field) (i : Int) (c : Char) : Option Field :=
  if 0 ≤ i ∧ i.toNat < field.length then some (field.set i.toNat c) else none

/-- Field initialisation loop of `main`: walls on the left, right and bottom border. -/
def initField : Field :=
  (List.range FIELD_HEIGHT).flatMap fun y =>
    (List.range FIELD_WIDTH).map fun x =>
      if x = 0 ∨ x = FIELD_WIDTH - 1 ∨ y = FIELD_HEIGHT - 1 then '#' else ' '

/-! ## Rotation geometry and collision -/

/-- The table method of `getPieceIndexForRotation`: `index` stays `0` in the `default` arm. -/
def getPieceIndexForRotation (t : tetromino) (x y : Nat) : Option Nat :=
  match t.sidelen with
  | 3 => do
    let plane ← threeRot[t.rot]?
    let row ← plane[y]?
    row[x]?
  | 4 => do
    let plane ← fourRot[t.rot]?
    let row ← plane[y]?
    row[x]?
  | _ => some 0

/-- Body of the inner loop of `pieceCanFit` at local cell `(x, y)`:
`some true` is "go on with the loop", `some false` is `return false`. -/
def pieceCanFitCell (field : Field) (t : tetromino) (y x : Nat) : Option Bool := do
  let screenRow : Int := t.y + y
  let fieldRow : Int := screenRow * FIELD_WIDTH
  let pieceIndex ← getPieceIndexForRotation t x y
  let charSprite ← t.sprite[pieceIndex]?
  if charSprite = ' ' then
    pure true
  else
    let screenCol : Int := t.x + x
    if screenCol < 1 ∨ screenCol ≥ FIELD_WIDTH ∨ screenRow ≥ FIELD_HEIGHT then
      pure false
    else do
      let c ← readField field (fieldRow + screenCol)
      if c ≠ ' ' then pure false else pure true

/-- The function `pieceCanFit`: both loops stop at the first `return false`. -/
def pieceCanFit (field : Field) (t : tetromino) : Option Bool :=
  (List.range t.sidelen).allM fun y =>
    (List.range t.sidelen).allM fun x => pieceCanFitCell field t y x

/-! ## Lock-in and line detection -/

/-- Body of the inner lock-in loop of `main` at local cell `(x, y)`. -/
def lockCell (t : tetromino) (y x : Nat) (field : Field) : Option Field := do
  let fieldYOffset : Int := (t.y + y) * FIELD_WIDTH
  let pieceIndex ← getPieceIndexForRotation t x y
  let charSprite ← t.sprite[pieceIndex]?
  if charSprite = ' ' then
    pure field
  else
    let fieldIndex : Int := fieldYOffset + (t.x + x)
    writeField field fieldIndex charSprite

/-- The loop "Add piece to field map" of `main`. -/
def lockPiece (field : Field) (t : tetromino) : Option Field :=
  (List.range t.sidelen).foldlM
    (fun field y => (List.range t.sidelen).foldlM (fun field x => lockCell t y x field) field)
    field

/-- The scan "Check whether there are any empty spaces in the line". -/
def lineIsFull (field : Field) (fieldRow : Int) : Option Bool :=
  (List.range' 1 (FIELD_WIDTH - 2)).allM fun (x : Nat) => do
    let c ← readField field (fieldRow + (x : Int))
    if c = ' ' then pure false else pure true

/-- The loop "Rewrite all the characters with '='". -/
def markLine (field : Field) (fieldRow : Int) : Option Field :=
  (List.range' 1 (FIELD_WIDTH - 2)).foldlM
    (fun field (x : Nat) => writeField field (fieldRow + (x : Int)) '=') field

/-- The loop "Check if any lines should be cleared" over the remaining values of `y`,
carrying `field`, `numLinesToClear` and `lowestLineToClear`. -/
def checkLinesLoop (t : tetromino) : List Nat → Field → Int → Int → Option (Field × Int × Int)
  | [], field, numLinesToClear, lowestLineToClear =>
    some (field, numLinesToClear, lowestLineToClear)
  | y :: ys, field, numLinesToClear, lowestLineToClear =>
    let screenRow : Int := t.y + y
    if screenRow ≥ FIELD_HEIGHT - 1 then
      some (field, numLinesToClear, lowestLineToClear)
    else do
      let fieldRow : Int := screenRow * FIELD_WIDTH
      let full ← lineIsFull field fieldRow
      if !full then
        checkLinesLoop t ys field numLinesToClear lowestLineToClear
      else do
        let field ← markLine field fieldRow
        checkLinesLoop t ys field (numLinesToClear + 1) screenRow

/-- Line detection of `main`, starting from `numLinesToClear = 0`, `lowestLineToClear = 0`. -/
def checkLines (field : Field) (t : tetromino) : Option (Field × Int × Int) :=
  checkLinesLoop t (List.range t.sidelen) field 0 0

/-! ## clearLinesFromField -/

/-- The scan `for (i = charAboveIndex; field[i] == '='; i -= FIELD_WIDTH)` counting
`numFullContiguousLines`. -/
def countContiguous (field : Field) : Nat → Int → Int → Option Int
  | 0, _, _ => none
  | fuel + 1, i, numFullContiguousLines => do
    let c ← readField field i
    if c = '=' then
      countContiguous field fuel (i - FIELD_WIDTH) (numFullContiguousLines + 1)
    else
      some numFullContiguousLines

/-- One row of "Move everything in the field array down". -/
def moveDownRow (numFullContiguousLines : Int) (y : Int) (field : Field) : Option Field :=
  (List.range' 1 (FIELD_WIDTH - 2)).foldlM
    (fun field (x : Nat) =>
      let newFieldIndex : Int := y * FIELD_WIDTH + (x : Int)
      if y ≤ numFullContiguousLines then
        writeField field newFieldIndex ' '
      else do
        let oldFieldIndex : Int := newFieldIndex - numFullContiguousLines * FIELD_WIDTH
        let c ← readField field oldFieldIndex
        writeField field newFieldIndex c)
    field

/-- The loop `for (y = lowestLineToClear; y >= 0; y--)`: `moveDown n (y + 1)` runs the
iterations `y, y - 1, ..., 0`. -/
def moveDown (numFullContiguousLines : Int) : Nat → Field → Option Field
  | 0, field => some field
  | y + 1, field => do
    let field ← moveDownRow numFullContiguousLines y field
    moveDown numFullContiguousLines y field

/-- The `do ... while (field[fieldIndex] != '=')` search for the next marked line. -/
def findNextLine (field : Field) : Nat → Int → Option Int
  | 0, _ => none
  | fuel + 1, lowestLineToClear => do
    let lowestLineToClear := lowestLineToClear - 1
    let c ← readField field (lowestLineToClear * FIELD_WIDTH + 1)
    if c ≠ '=' then findNextLine field fuel lowestLineToClear else some lowestLineToClear

/-- The `while (numLinesToClear > 0)` loop; the first argument bounds every inner scan, the
second the number of iterations of the loop itself. -/
def clearLinesLoop (fuel : Nat) : Nat → Field → Int → Int → Option Field
  | 0, field, numLinesToClear, _ => if numLinesToClear > 0 then none else some field
  | iters + 1, field, numLinesToClear, lowestLineToClear =>
    if numLinesToClear > 0 then do
      let charAboveIndex : Int := (lowestLineToClear - 1) * FIELD_WIDTH + 1
      let numFullContiguousLines ← countContiguous field fuel charAboveIndex 1
      let field ← moveDown numFullContiguousLines (lowestLineToClear + 1).toNat field
      let numLinesToClear := numLinesToClear - numFullContiguousLines
      if numLinesToClear > 0 then do
        let lowestLineToClear ← findNextLine field fuel lowestLineToClear
        clearLinesLoop fuel iters field numLinesToClear lowestLineToClear
      else
        clearLinesLoop fuel iters field numLinesToClear lowestLineToClear
    else
      some field

/-- The function `clearLinesFromField`, with `fuel` bounding each of its loops. -/
def clearLinesFromField (fuel : Nat) (field : Field) (numLinesToClear lowestLineToClear : Int) :
    Option Field :=
  clearLinesLoop fuel fuel field numLinesToClear lowestLineToClear

/-! ## The piece bag -/

/-- The loop of `shuffleArray` from index `i` down to `1`; `rnd i` is the value returned by
the call `arc4random_uniform(i + 1)`. -/
def shuffleLoop (rnd : Nat → Nat) : Nat → List Nat → Option (List Nat)
  | 0, bag => some bag
  | i + 1, bag => do
    let j := rnd (i + 1)
    let temp ← bag[i + 1]?
    let bj ← bag[j]?
    let bag := bag.set (i + 1) bj
    let bag ← if j < bag.length then some (bag.set j temp) else none
    shuffleLoop rnd i bag

/-- The function `shuffleArray`. -/
def shuffleArray (rnd : Nat → Nat) (bag : List Nat) : Option (List Nat) :=
  shuffleLoop rnd (NUM_TETROMINOES - 1) bag

/-! ## Game state and one iteration of the main loop -/

/-- The six arms of the `switch (keyInput)` of `main`. -/
inductive Key where
  | left
  | right
  | down
  | rotateCCW
  | rotateCW
  | other
deriving DecidableEq, Repr

/-- The variables of `main` that live across loop iterations. -/
structure Game where
  field : Field
  pieceBag : List Nat
  currentBagIndex : Nat
  currentPieceNum : Nat
  t : tetromino
  totalNumLinesCleared : Nat
  score : Nat
  level : Nat
  tenLineCounter : Nat
  numTicks : Int
  maxTicksPerLine : Int
  gameOver : Bool
deriving DecidableEq, Repr

/-- The piece `main` creates for kind `currentPieceNum`: spawn point `(4, 1)`, rotation `0`. -/
def spawnPiece (currentPieceNum : Nat) : Option tetromino := do
  let sidelen ← tetrominoSideLengths[currentPieceNum]?
  let sprite ← tetrominoes[currentPieceNum]?
  pure { sidelen := sidelen, x := 4, y := 1, rot := 0, sprite := sprite }

/-- The state of `main` on entry to the game loop. -/
def initGame (rnd : Nat → Nat) : Option Game := do
  let pieceBag ← shuffleArray rnd [0, 1, 2, 3, 4, 5, 6]
  let currentBagIndex := 0
  let currentPieceNum ← pieceBag[currentBagIndex]?
  let t ← spawnPiece currentPieceNum
  pure {
    field := initField
    pieceBag := pieceBag
    currentBagIndex := currentBagIndex
    currentPieceNum := currentPieceNum
    t := t
    totalNumLinesCleared := 0
    score := 0
    level := 0
    tenLineCounter := 0
    numTicks := 0
    maxTicksPerLine := 48
    gameOver := false }

/-- "Process input": the `switch` and the rotation attempt.  Returns the piece and
`shouldForceDownward`. -/
def processInput (field : Field) (t : tetromino) (shouldForceDownward : Bool) (key : Key) :
    Option (tetromino × Bool) := do
  let newRotation := t.rot
  let (t, shouldForceDownward, newRotation) ←
    (match key with
    | Key.left => do
      let t := { t with x := t.x - 1 }
      let fits ← pieceCanFit field t
      pure (if !fits then { t with x := t.x + 1 } else t, shouldForceDownward, newRotation)
    | Key.right => do
      let t := { t with x := t.x + 1 }
      let fits ← pieceCanFit field t
      pure (if !fits then { t with x := t.x - 1 } else t, shouldForceDownward, newRotation)
    | Key.down => pure (t, true, newRotation)
    | Key.rotateCCW =>
      pure (t, shouldForceDownward, if newRotation = 0 then 3 else newRotation - 1)
    | Key.rotateCW =>
      pure (t, shouldForceDownward, if newRotation = 3 then 0 else newRotation + 1)
    | Key.other => pure (t, shouldForceDownward, newRotation) : Option (tetromino × Bool × Nat))
  if newRotation ≠ t.rot then do
    let currentRotation := t.rot
    let t := { t with rot := newRotation }
    let fits ← pieceCanFit field t
    pure (if !fits then { t with rot := currentRotation } else t, shouldForceDownward)
  else
    pure (t, shouldForceDownward)

/-- The forced descent.  Returns the piece, `shouldFixInPlace` and `numTicks`. -/
def forceDownward (field : Field) (t : tetromino) (shouldForceDownward : Bool) (numTicks : Int) :
    Option (tetromino × Bool × Int) :=
  if shouldForceDownward then do
    let t := { t with y := t.y + 1 }
    let fits ← pieceCanFit field t
    if !fits then
      pure ({ t with y := t.y - 1 }, true, 0)
    else
      pure (t, false, 0)
  else
    pure (t, false, numTicks)

/-- "Update game state": advance the bag cursor, reshuffle at the end of the bag, and spawn
the next piece. -/
def nextPiece (rnd : Nat → Nat) (pieceBag : List Nat) (currentBagIndex : Nat) :
    Option (List Nat × Nat × Nat × tetromino) := do
  let currentBagIndex := currentBagIndex + 1
  let (currentBagIndex, pieceBag) ←
    (if currentBagIndex ≥ NUM_TETROMINOES then do
      let pieceBag ← shuffleArray rnd pieceBag
      pure (0, pieceBag)
    else
      pure (currentBagIndex, pieceBag) : Option (Nat × List Nat))
  let currentPieceNum ← pieceBag[currentBagIndex]?
  let t ← spawnPiece currentPieceNum
  pure (pieceBag, currentBagIndex, currentPieceNum, t)

/-- The block `if (numLinesToClear > 0)`: progress counters, score, level and gravity speed,
then `clearLinesFromField`, run with fuel `FIELD_LENGTH`.  `unsigned int` arithmetic is
modulo `2 ^ 32`; the product `40 * scoringLevel` is taken with the same wrap-around. -/
def scoreAndClear (g : Game) (numLinesToClear lowestLineToClear : Int) : Option Game :=
  if numLinesToClear > 0 then do
    let totalNumLinesCleared :=
      ((g.totalNumLinesCleared : Int) + numLinesToClear).toNat % 2 ^ 32
    let scoringLevel := (g.level + 1) % 2 ^ 32
    let score :=
      if numLinesToClear = 1 then (g.score + 40 * scoringLevel) % 2 ^ 32
      else if numLinesToClear = 2 then (g.score + 100 * scoringLevel) % 2 ^ 32
      else if numLinesToClear = 3 then (g.score + 300 * scoringLevel) % 2 ^ 32
      else if numLinesToClear = 4 then (g.score + 1200 * scoringLevel) % 2 ^ 32
      else g.score
    let tenLineCounter := ((g.tenLineCounter : Int) + numLinesToClear).toNat % 2 ^ 32
    let (level, tenLineCounter, maxTicksPerLine) :=
      if tenLineCounter ≥ 10 then
        let level := (g.level + 1) % 2 ^ 32
        let tenLineCounter := tenLineCounter - 10
        if level < 8 ∧ g.maxTicksPerLine > 5 then
          (level, tenLineCounter, g.maxTicksPerLine - 5)
        else if g.maxTicksPerLine > 1 then
          (level, tenLineCounter, g.maxTicksPerLine - 1)
        else
          (level, tenLineCounter, g.maxTicksPerLine)
      else
        (g.level, tenLineCounter, g.maxTicksPerLine)
    let field ← clearLinesFromField FIELD_LENGTH g.field numLinesToClear lowestLineToClear
    pure { g with
      field := field
      totalNumLinesCleared := totalNumLinesCleared
      score := score
      level := level
      tenLineCounter := tenLineCounter
      maxTicksPerLine := maxTicksPerLine }
  else
    pure g

/-- One iteration of the game loop of `main` for key `key`; `rnd` is the random source used
if the bag is reshuffled. -/
def tick (g : Game) (key : Key) (rnd : Nat → Nat) : Option Game := do
  let shouldForceDownward := decide (g.numTicks ≥ g.maxTicksPerLine)
  let (t, shouldForceDownward) ← processInput g.field g.t shouldForceDownward key
  let (t, shouldFixInPlace, numTicks) ← forceDownward g.field t shouldForceDownward g.numTicks
  let g := { g with t := t, numTicks := numTicks }
  let (g, numLinesToClear, lowestLineToClear) ←
    (if !shouldFixInPlace then
      pure (g, 0, 0)
    else if t.y ≤ 1 then
      pure ({ g with gameOver := true }, 0, 0)
    else do
      let field ← lockPiece g.field t
      let (field, numLinesToClear, lowestLineToClear) ← checkLines field t
      let (pieceBag, currentBagIndex, currentPieceNum, t) ←
        nextPiece rnd g.pieceBag g.currentBagIndex
      pure ({ g with
          field := field
          pieceBag := pieceBag
          currentBagIndex := currentBagIndex
          currentPieceNum := currentPieceNum
          t := t },
        numLinesToClear, lowestLineToClear) : Option (Game × Int × Int))
  let g ← scoreAndClear g numLinesToClear lowestLineToClear
  pure { g with numTicks := g.numTicks + 1 }

/-- Run the loop over a list of inputs; the loop exits once `gameOver` is set. -/
def run : Game → List (Key × (Nat → Nat)) → Option Game
  | g, [] => some g
  | g, (key, rnd) :: rest =>
    if g.gameOver then some g
    else do
      let g ← tick g key rnd
      run g rest

/-- States the game loop can be in at the top of an iteration. -/
inductive Reachable : Game → Prop where
  | init (rnd : Nat → Nat) (g : Game) : initGame rnd = some g → Reachable g
  | step (g g' : Game) (key : Key) (rnd : Nat → Nat) :
      Reachable g → g.gameOver = false → tick g key rnd = some g' → Reachable g'

/-! ## Notions used in the statements -/

/-- The sprite character under local cell `(x, y)` of the rotated piece: the read
`t.sprite[getPieceIndexForRotation(t, x, y)]`. -/
def spriteAt (t : tetromino) (x y : Nat) : Option Char := do
  let pieceIndex ← getPieceIndexForRotation t x y
  t.sprite[pieceIndex]?

/-- Local cell `(x, y)` is an occupied cell of the rotated sprite. -/
def isOccupied (t : tetromino) (x y : Nat) : Bool :=
  match spriteAt t x y with
  | some c => c != ' '
  | none => false

/-- The local cells `(y, x)` of a bounding box of side `s`, in the order the loops visit them. -/
def boxCells (s : Nat) : List (Nat × Nat) :=
  (List.range s).flatMap fun y => (List.range s).map fun x => (y, x)

/-- The occupied local cells `(y, x)` of the rotated sprite. -/
def occupiedCells (t : tetromino) : List (Nat × Nat) :=
  (boxCells t.sidelen).filter fun p => isOccupied t p.2 p.1

/-- The field index under local cell `p = (y, x)` of the piece. -/
def fieldIndex (t : tetromino) (p : Nat × Nat) : Int :=
  (t.y + p.1) * FIELD_WIDTH + (t.x + p.2)

/-- The piece is of kind `kind`: side length and sprite come from the tables of `main`, and
the rotation is one of `0..3`. -/
def IsPiece (t : tetromino) (kind : Nat) : Prop :=
  tetrominoSideLengths[kind]? = some t.sidelen ∧ tetrominoes[kind]? = some t.sprite ∧ t.rot < 4

instance (t : tetromino) (kind : Nat) : Decidable (IsPiece t kind) := by
  unfold IsPiece; infer_instance

/-- The piece of kind `kind` with the given rotation and position. -/
def pieceAt (kind rot : Nat) (x y : Int) : tetromino :=
  { sidelen := tetrominoSideLengths.getD kind 0, x := x, y := y, rot := rot,
    sprite := tetrominoes.getD kind [] }

/-- The character that fills the sprite of each kind. -/
def pieceChars : List Char := "IZSOTLJ".data

/-- Every border cell (`x = 0`, `x = 11` or `y = 17`) is the wall character. -/
def BorderIntact (field : Field) : Prop :=
  ∀ x, x < FIELD_WIDTH → ∀ y, y < FIELD_HEIGHT →
    (x = 0 ∨ x = FIELD_WIDTH - 1 ∨ y = FIELD_HEIGHT - 1) →
      field[y * FIELD_WIDTH + x]? = some '#'

instance (field : Field) : Decidable (BorderIntact field) := by
  unfold BorderIntact; infer_instance

/-- Every interior cell (`x` in `1..10`) of row `row` is non-empty. -/
def rowIsFull (field : Field) (row : Int) : Bool :=
  (List.range' 1 (FIELD_WIDTH - 2)).all fun (x : Nat) =>
    match readField field (row * FIELD_WIDTH + (x : Int)) with
    | some c => c != ' '
    | none => false

/-- The full rows among the `k` rows from `t.y + a` on that lie above the bottom wall. -/
def fullRowsFrom (field : Field) (t : tetromino) (a k : Nat) : List Int :=
  ((List.range' a k).map fun (y : Nat) => t.y + (y : Int)).filter fun r =>
    decide (r ≤ 16) && rowIsFull field r

/-- The rows `r` with `t.y ≤ r ≤ min (t.y + t.sidelen - 1) 16` that are full, top to bottom. -/
def fullRows (field : Field) (t : tetromino) : List Int :=
  fullRowsFrom field t 0 t.sidelen

/-- Index `i` is an interior cell of one of the rows `rows`. -/
def InRows (rows : List Int) (i : Int) : Prop :=
  ∃ r ∈ rows, ∃ x : Int, 1 ≤ x ∧ x ≤ 10 ∧ i = r * FIELD_WIDTH + x

/-- A field written out row by row. -/
def fieldOfRows (rows : List String) : Field :=
  rows.flatMap fun r => r.data

/-- A field just after a vertical `I` piece was locked at `x = 8`, `y = 13`: the piece
completed rows 14 and 16, row 15 has a gap. -/
def sampleLockedField : Field :=
  fieldOfRows [
    "#          #",
    "#          #",
    "#          #",
    "#          #",
    "#          #",
    "#          #",
    "#          #",
    "#          #",
    "#          #",
    "#          #",
    "#          #",
    "#          #",
    "#  LL      #",
    "#  L  J   I#",
    "#ZZLSSJJJOI#",
    "# ZZSSTTTOI#",
    "#OOZZSSTLLI#",
    "############" ]

/-- The ten interior cells (columns `1..10`) of row `y`. -/
def interiorRow (field : Field) (y : Nat) : List Char :=
  (field.drop (y * FIELD_WIDTH + 1)).take (FIELD_WIDTH - 2)

/-- The interior rows `a, ..., a + k - 1`, top to bottom. -/
def rowsFrom (field : Field) (a k : Nat) : List (List Char) :=
  (List.range' a k).map (interiorRow field)

/-- The interior rows `0, ..., n - 1`, top to bottom. -/
def interiorRows (field : Field) (n : Nat) : List (List Char) :=
  rowsFrom field 0 n

/-- An interior row of empty cells. -/
def emptyRow : List Char := List.replicate (FIELD_WIDTH - 2) ' '

/-- An interior row of clear-markers. -/
def markedRow : List Char := List.replicate (FIELD_WIDTH - 2) '='

/-- The clear-marker occurs only in fully marked interior rows. -/
def MarksAreRows (field : Field) : Prop :=
  ∀ y, y < FIELD_HEIGHT - 1 → '=' ∈ interiorRow field y → interiorRow field y = markedRow

instance (field : Field) : Decidable (MarksAreRows field) := by
  unfold MarksAreRows; infer_instance

/-- The marked rows among the interior rows `0..16`, top to bottom. -/
def markedRows (field : Field) : List Nat :=
  (List.range (FIELD_HEIGHT - 1)).filter fun y => decide (interiorRow field y = markedRow)

/-- The field `sampleLockedField` after line detection: rows 14 and 16 are marked, the row
between them is not. -/
def sampleMarkedField : Field :=
  fieldOfRows [
    "#          #",
    "#          #",
    "#          #",
    "#          #",
    "#          #",
    "#          #",
    "#          #",
    "#          #",
    "#          #",
    "#          #",
    "#          #",
    "#          #",
    "#  LL      #",
    "#  L  J   I#",
    "#==========#",
    "# ZZSSTTTOI#",
    "#==========#",
    "############" ]

/-- The invariant of the game loop: the field keeps its size and its border, the active piece
is the piece of the kind under the bag cursor, the bag is a permutation of the seven kinds,
and the active piece fits unless it still is where it was spawned. -/
structure Inv (g : Game) : Prop where
  length : g.field.length = FIELD_LENGTH
  border : BorderIntact g.field
  piece : IsPiece g.t g.currentPieceNum
  cursor : g.currentBagIndex < NUM_TETROMINOES
  bag : g.pieceBag.Perm [0, 1, 2, 3, 4, 5, 6]
  current : g.pieceBag[g.currentBagIndex]? = some g.currentPieceNum
  row : 1 ≤ g.t.y
  fits : pieceCanFit g.field g.t = some true ∨ (g.t.x = 4 ∧ g.t.y = 1 ∧ g.t.rot = 0)

/-- The second field differs from the first at most in interior cells of the rows `0..16`. -/
def Frame (f f' : Field) : Prop :=
  f'.length = f.length ∧
    ∀ i : Int, ¬ (0 ≤ i ∧ i < 17 * 12 ∧ 1 ≤ i % 12 ∧ i % 12 ≤ 10) →
      readField f' i = readField f i

/-- The shape of the field at the top of a loop iteration: no clear-marker in an interior
row, interior rows 0 and 1 empty, and no interior row with all ten cells non-empty. -/
structure Tidy (field : Field) : Prop where
  marks : ∀ y, y < FIELD_HEIGHT - 1 → '=' ∉ interiorRow field y
  top0 : interiorRow field 0 = emptyRow
  top1 : interiorRow field 1 = emptyRow
  full : ∀ y : Nat, y < FIELD_HEIGHT - 1 → rowIsFull field (y : Int) = false

/-! ## Rotation of the index grid -/

/-- The identity index grid of side `n`: the cell in column `x` of row `y` holds `y * n + x`. -/
def identityGrid (n : Nat) : List (List Nat) :=
  (List.range n).map fun y => (List.range n).map fun x => y * n + x

/-- The grid turned by 90 degrees clockwise: the rows, bottom to top, become the columns, left
to right. -/
def rotateClockwise (grid : List (List Nat)) : List (List Nat) :=
  grid.reverse.transpose

/-- The arithmetic of the commented-out "old method" of `getPieceIndexForRotation` for a piece
of side at least 3, with `t->len` the number `sidelen * sidelen` of sprite cells. -/
def oldMethodIndex (sidelen rot x y : Nat) : Int :=
  let len : Int := (sidelen : Int) * sidelen
  match rot with
  | 0 => (y : Int) * sidelen + x
  | 1 => (len - sidelen) + y - (x : Int) * sidelen
  | 2 => (len - 1) - (y : Int) * sidelen - x
  | 3 => ((sidelen : Int) - 1) - y + (x : Int) * sidelen
  | _ => 0

/-! ## Sample runs -/

/-- A random source whose every draw `arc4random_uniform(i + 1)` returns `i`: the shuffle
leaves the bag as it is. -/
def rndIdentity : Nat → Nat := fun i => i

/-- A random source that returns `0` for the draw at `i = 2` and `i` otherwise: the shuffle
swaps the bag entries `0` and `2`. -/
def rndSwap : Nat → Nat := fun i => if i = 2 then 0 else i

/-- The player presses "down" in each of `n` ticks. -/
def allDown (n : Nat) : List (Key × (Nat → Nat)) :=
  List.replicate n (Key.down, rndIdentity)

/-- The game after 71 ticks of "down" from the start with the bag in the order `0..6`: eight
pieces are stacked under the spawn point up to row 3, and the `Z` piece was just spawned. -/
def stackedGame : Game :=
  { field := fieldOfRows [
      "#          #",
      "#          #",
      "#          #",
      "#   IIII   #",
      "#   J      #",
      "#   JJJ    #",
      "#     L    #",
      "#   LLL    #",
      "#    T     #",
      "#   TTT    #",
      "#   OO     #",
      "#   OO     #",
      "#    SS    #",
      "#   SS     #",
      "#   ZZ     #",
      "#    ZZ    #",
      "#   IIII   #",
      "############" ]
    pieceBag := [0, 1, 2, 3, 4, 5, 6]
    currentBagIndex := 1
    currentPieceNum := 1
    t := pieceAt 1 0 4 1
    totalNumLinesCleared := 0
    score := 0
    level := 0
    tenLineCounter := 0
    numTicks := 1
    maxTicksPerLine := 48
    gameOver := false }

/-- The game after 71 ticks of "down" in which the reshuffle after the seventh piece put the
`S` piece first: the `S` piece locked at `y = 2` and the `Z` piece was just spawned over it. -/
def overlapGame : Game :=
  { field := fieldOfRows [
      "#          #",
      "#          #",
      "#    SS    #",
      "#   SS     #",
      "#   J      #",
      "#   JJJ    #",
      "#     L    #",
      "#   LLL    #",
      "#    T     #",
      "#   TTT    #",
      "#   OO     #",
      "#   OO     #",
      "#    SS    #",
      "#   SS     #",
      "#   ZZ     #",
      "#    ZZ    #",
      "#   IIII   #",
      "############" ]
    pieceBag := [2, 1, 0, 3, 4, 5, 6]
    currentBagIndex := 1
    currentPieceNum := 1
    t := pieceAt 1 0 4 1
    totalNumLinesCleared := 0
    score := 0
    level := 0
    tenLineCounter := 0
    numTicks := 1
    maxTicksPerLine := 48
    gameOver := false }

/-- A game in which the `O` piece rests on the floor of the empty field. -/
def restingGame : Game :=
  { field := initField
    pieceBag := [3, 1, 2, 0, 4, 5, 6]
    currentBagIndex := 0
    currentPieceNum := 3
    t := pieceAt 3 0 4 15
    totalNumLinesCleared := 0
    score := 0
    level := 0
    tenLineCounter := 0
    numTicks := 7
    maxTicksPerLine := 48
    gameOver := false }

/-- The game on entry to the loop when the first shuffle left the bag in the order `0..6`. -/
def startGame : Game :=
  { field := initField
    pieceBag := [0, 1, 2, 3, 4, 5, 6]
    currentBagIndex := 0
    currentPieceNum := 0
    t := pieceAt 0 0 4 1
    totalNumLinesCleared := 0
    score := 0
    level := 0
    tenLineCounter := 0
    numTicks := 0
    maxTicksPerLine := 48
    gameOver := false }

/-- The field `sampleMarkedField` after the collapse of its two marked rows. -/
def sampleClearedField : Field :=
  fieldOfRows [
    "#          #",
    "#          #",
    "#          #",
    "#          #",
    "#          #",
    "#          #",
    "#          #",
    "#          #",
    "#          #",
    "#          #",
    "#          #",
    "#          #",
    "#          #",
    "#          #",
    "#  LL      #",
    "#  L  J   I#",
    "# ZZSSTTTOI#",
    "############" ]

/-- A game state at the moment the block `if (numLinesToClear > 0)` is entered with two
marked rows: level 9, eight lines since the last level-up, and a score close to `2 ^ 32`. -/
def sampleClearGame : Game :=
  { field := sampleMarkedField
    pieceBag := [0, 1, 2, 3, 4, 5, 6]
    currentBagIndex := 1
    currentPieceNum := 1
    t := pieceAt 1 0 4 1
    totalNumLinesCleared := 98
    score := 4294967290
    level := 9
    tenLineCounter := 8
    numTicks := 0
    maxTicksPerLine := 8
    gameOver := false }

/-- A random source whose first shuffle of `0..6` gives the bag `[0, 5, 6, 3, 4, 1, 2]`. -/
def rndLine : Nat → Nat := fun i => if i = 6 then 2 else if i = 5 then 1 else i

/-- The keys that put the `I` piece in the bottom left corner, the `L` piece next to it and the
`J` piece over the last three columns of the bottom row. -/
def lineInputs : List (Key × (Nat → Nat)) :=
  (List.replicate 3 Key.left ++ List.replicate 15 Key.down ++
    [Key.right] ++ List.replicate 15 Key.down ++
    List.replicate 4 Key.right ++ List.replicate 14 Key.down).map fun k => (k, rndIdentity)

/-- The game after the keys `lineInputs` from the start with the random source `rndLine`: the
`J` piece rests in the last gap of the bottom row. -/
def lineGame : Game :=
  { field := fieldOfRows [
      "#          #",
      "#          #",
      "#          #",
      "#          #",
      "#          #",
      "#          #",
      "#          #",
      "#          #",
      "#          #",
      "#          #",
      "#          #",
      "#          #",
      "#          #",
      "#          #",
      "#          #",
      "#      L   #",
      "#IIIILLL   #",
      "############" ]
    pieceBag := [0, 5, 6, 3, 4, 1, 2]
    currentBagIndex := 2
    currentPieceNum := 6
    t := pieceAt 6 0 8 15
    totalNumLinesCleared := 0
    score := 0
    level := 0
    tenLineCounter := 0
    numTicks := 1
    maxTicksPerLine := 48
    gameOver := false }

/-- The field of `lineGame` after the `J` piece is locked. -/
def lineLockedField : Field :=
  fieldOfRows [
    "#          #",
    "#          #",
    "#          #",
    "#          #",
    "#          #",
    "#          #",
    "#          #",
    "#          #",
    "#          #",
    "#          #",
    "#          #",
    "#          #",
    "#          #",
    "#          #",
    "#          #",
    "#      LJ  #",
    "#IIIILLLJJJ#",
    "############" ]

/-- The field `lineLockedField` after line detection. -/
def lineMarkedField : Field :=
  fieldOfRows [
    "#          #",
    "#          #",
    "#          #",
    "#          #",
    "#          #",
    "#          #",
    "#          #",
    "#          #",
    "#          #",
    "#          #",
    "#          #",
    "#          #",
    "#          #",
    "#          #",
    "#          #",
    "#      LJ  #",
    "#==========#",
    "############" ]

end CTetris

namespace CTetris

/-! ## The shuffle permutes the bag -/

theorem swap_perm (l : List Nat) (i j : Nat) (hi : i < l.length) (hj : j < l.length) :
    ((l.set i l[j]).set j l[i]).Perm l := by
  rw [List.perm_iff_count]
  intro a
  have hj' : j < (l.set i l[j]).length := by simpa using hj
  rw [List.count_set _ _ _ _ hj', List.count_set _ _ _ _ hi]
  have h1 : (if (l[i] == a) = true then 1 else 0) ≤ l.count a := by
    split
    · rename_i h
      have : l[i] = a := by simpa using h
      subst this
      exact List.count_pos_iff.mpr (List.getElem_mem hi)
    · omega
  by_cases hij : i = j
  · subst hij
    simp only [List.getElem_set_self]
    omega
  · rw [List.getElem_set_ne hij]
    omega

theorem shuffleLoop_perm (rnd : Nat → Nat) :
    ∀ (i : Nat) (bag : List Nat), i < bag.length → (∀ k, 1 ≤ k → k ≤ i → rnd k ≤ k) →
      ∃ bag', shuffleLoop rnd i bag = some bag' ∧ bag'.Perm bag := by
  intro i
  induction i with
  | zero => intro bag _ _; exact ⟨bag, rfl, List.Perm.refl _⟩
  | succ i ih =>
    intro bag hi hr
    have hj : rnd (i + 1) < bag.length := by
      have := hr (i + 1) (by omega) (by omega); omega
    have hp := swap_perm bag (i + 1) (rnd (i + 1)) hi hj
    obtain ⟨bag', h1, h2⟩ := ih ((bag.set (i + 1) bag[rnd (i + 1)]).set (rnd (i + 1)) bag[i + 1])
      (by simp; omega) (fun k hk1 hk2 => hr k hk1 (by omega))
    refine ⟨bag', ?_, h2.trans hp⟩
    simp only [shuffleLoop, List.getElem?_eq_getElem hi, List.getElem?_eq_getElem hj,
      Option.bind_eq_bind, Option.some_bind, List.length_set, hj, if_true]
    exact h1

/-- C6: for a 7-element array and draws `j_i` with `0 ≤ j_i ≤ i` (`i = 6, ..., 1`),
`shuffleArray` returns an array that is a permutation of its input. -/
theorem shuffleArray_perm (rnd : Nat → Nat) (bag : List Nat) (hlen : bag.length = 7)
    (hr : ∀ i, 1 ≤ i → i ≤ 6 → rnd i ≤ i) :
    ∃ bag', shuffleArray rnd bag = some bag' ∧ bag'.Perm bag :=
  shuffleLoop_perm rnd 6 bag (by omega) hr

theorem shuffleArray_perm_witness :
    ([3, 1, 4, 1, 5, 9, 2] : List Nat).length = 7 ∧
    ∃ bag', shuffleArray (fun i => i / 2) [3, 1, 4, 1, 5, 9, 2] = some bag' ∧
      bag'.Perm [3, 1, 4, 1, 5, 9, 2] :=
  ⟨by decide, shuffleArray_perm (fun i => i / 2) [3, 1, 4, 1, 5, 9, 2] (by decide)
    (fun i _ _ => Nat.div_le_self i 2)⟩

end CTetris

namespace CTetris

/-! ## Reading and writing the field -/

theorem readField_eq_some_iff (field : Field) (i : Int) (c : Char) :
    readField field i = some c ↔ 0 ≤ i ∧ field[i.toNat]? = some c := by
  unfold readField
  split <;> simp [*]

theorem readField_isSome (field : Field) (i : Int) (h0 : 0 ≤ i) (h1 : i < field.length) :
    ∃ c, readField field i = some c := by
  have : i.toNat < field.length := by omega
  exact ⟨field[i.toNat], by simp [readField, h0, List.getElem?_eq_getElem this]⟩

theorem readField_lt (field : Field) (i : Int) (c : Char) (h : readField field i = some c) :
    0 ≤ i ∧ i < field.length := by
  rw [readField_eq_some_iff] at h
  obtain ⟨h0, h1⟩ := h
  have := (List.getElem?_eq_some_iff.mp h1).1
  omega

theorem writeField_eq_some (field : Field) (i : Int) (c : Char) (h0 : 0 ≤ i)
    (h1 : i < field.length) : writeField field i c = some (field.set i.toNat c) := by
  have : i.toNat < field.length := by omega
  simp [writeField, h0, this]

theorem writeField_spec (field field' : Field) (i : Int) (c : Char)
    (h : writeField field i c = some field') :
    field'.length = field.length ∧ 0 ≤ i ∧ i < field.length ∧
      ∀ j, readField field' j = if j = i then some c else readField field j := by
  unfold writeField at h
  split at h
  · rename_i hi
    obtain ⟨h0, h1⟩ := hi
    simp only [Option.some.injEq] at h
    subst h
    refine ⟨by simp, h0, by omega, ?_⟩
    intro j
    unfold readField
    by_cases hj : 0 ≤ j
    · simp only [hj, if_true, List.getElem?_set]
      by_cases hji : j = i
      · subst hji; simp [h1]
      · have : ¬ i.toNat = j.toNat := by omega
        simp [hji, this]
    · have : j ≠ i := by omega
      simp [hj, this]
  · simp at h

/-! ## Folding loops in the `Option` monad -/

theorem foldlM_nested {σ : Type} (f : Nat → Nat → σ → Option σ) (xs : List Nat) :
    ∀ (ys : List Nat) (s : σ),
      ys.foldlM (fun s y => xs.foldlM (fun s x => f y x s) s) s =
        (ys.flatMap fun y => xs.map fun x => (y, x)).foldlM (fun s p => f p.1 p.2 s) s := by
  intro ys
  induction ys with
  | nil => intro s; rfl
  | cons y ys ih =>
    intro s
    simp only [List.foldlM_cons, List.flatMap_cons, List.foldlM_append]
    have hx : ∀ (l : List Nat) (s : σ), l.foldlM (fun s x => f y x s) s =
        (l.map fun x => (y, x)).foldlM (fun s p => f p.1 p.2 s) s := by
      intro l
      induction l with
      | nil => intro s; rfl
      | cons a l ihl =>
        intro s
        simp only [List.foldlM_cons, List.map_cons]
        cases f y a s with
        | none => rfl
        | some s' => simpa using ihl s'
    rw [hx]
    cases (List.map (fun x => (y, x)) xs).foldlM (fun s p => f p.1 p.2 s) s with
    | none => rfl
    | some s' => simpa using ih s'

theorem allM_nested (f : Nat → Nat → Option Bool) (xs : List Nat) :
    ∀ (ys : List Nat),
      ys.allM (fun y => xs.allM fun x => f y x) =
        (ys.flatMap fun y => xs.map fun x => (y, x)).allM (fun p => f p.1 p.2) := by
  have happ : ∀ (l1 l2 : List (Nat × Nat)),
      (l1 ++ l2).allM (fun p => f p.1 p.2) =
        (l1.allM (fun p => f p.1 p.2)).bind fun b =>
          if b then l2.allM (fun p => f p.1 p.2) else some false := by
    intro l1 l2
    induction l1 with
    | nil => simp [List.allM]
    | cons a l1 ih =>
      simp only [List.cons_append, List.allM]
      cases f a.1 a.2 with
      | none => rfl
      | some b => cases b <;> simp [ih]
  have hx : ∀ (y : Nat) (l : List Nat), l.allM (fun x => f y x) =
      (l.map fun x => (y, x)).allM (fun p => f p.1 p.2) := by
    intro y l
    induction l with
    | nil => rfl
    | cons a l ihl =>
      simp only [List.allM, List.map_cons]
      cases f y a with
      | none => rfl
      | some b => cases b <;> simp [ihl]
  intro ys
  induction ys with
  | nil => rfl
  | cons y ys ih =>
    simp only [List.flatMap_cons, happ, List.allM]
    rw [hx y xs]
    cases (List.map (fun x => (y, x)) xs).allM (fun p => f p.1 p.2) with
    | none => rfl
    | some b => cases b <;> simp [ih]

theorem allM_eq_some_all {α : Type} (p : α → Option Bool) (q : α → Bool) :
    ∀ (l : List α), (∀ a ∈ l, p a = some (q a)) → l.allM p = some (l.all q) := by
  intro l
  induction l with
  | nil => intro _; rfl
  | cons a l ih =>
    intro h
    have ha := h a (List.mem_cons_self a l)
    simp only [List.allM, ha, List.all_cons]
    cases q a with
    | false => rfl
    | true => simpa using ih (fun b hb => h b (List.mem_cons_of_mem a hb))

end CTetris

namespace CTetris

/-! ## Facts about the seven pieces -/

theorem isPiece_eq (t : tetromino) (kind : Nat) (h : IsPiece t kind) :
    kind < 7 ∧ t = pieceAt kind t.rot t.x t.y := by
  obtain ⟨h1, h2, _⟩ := h
  have hk : kind < 7 := by
    have := (List.getElem?_eq_some_iff.mp h1).1
    simpa [tetrominoSideLengths] using this
  refine ⟨hk, ?_⟩
  obtain ⟨sl, x, y, rot, sp⟩ := t
  simp only at h1 h2
  simp [pieceAt, List.getD, h1, h2]

theorem spriteAt_pieceAt (kind rot : Nat) (x y : Int) (lx ly : Nat) :
    spriteAt (pieceAt kind rot x y) lx ly = spriteAt (pieceAt kind rot 0 0) lx ly := rfl

theorem occupiedCells_pieceAt (kind rot : Nat) (x y : Int) :
    occupiedCells (pieceAt kind rot x y) = occupiedCells (pieceAt kind rot 0 0) := rfl

theorem mem_boxCells (s : Nat) (p : Nat × Nat) : p ∈ boxCells s ↔ p.1 < s ∧ p.2 < s := by
  obtain ⟨a, b⟩ := p
  simp only [boxCells, List.mem_flatMap, List.mem_range, List.mem_map, Prod.mk.injEq]
  constructor
  · rintro ⟨y, hy, x, hx, rfl, rfl⟩; exact ⟨hy, hx⟩
  · rintro ⟨hy, hx⟩; exact ⟨a, hy, b, hx, rfl, rfl⟩

theorem spriteAt_isSome_table :
    ∀ kind, kind < 7 → ∀ rot, rot < 4 →
      ∀ p ∈ boxCells (pieceAt kind rot 0 0).sidelen,
        (spriteAt (pieceAt kind rot 0 0) p.2 p.1).isSome = true := by
  decide

theorem occupiedCells_table :
    ∀ kind, kind < 7 → ∀ rot, rot < 4 →
      (occupiedCells (pieceAt kind rot 0 0)).length = 4 ∧
      (occupiedCells (pieceAt kind rot 0 0)).Nodup ∧
      ∀ p ∈ occupiedCells (pieceAt kind rot 0 0),
        spriteAt (pieceAt kind rot 0 0) p.2 p.1 = pieceChars[kind]? ∧ p.1 < 4 ∧ p.2 < 4 := by
  decide

end CTetris

namespace CTetris

/-! ## pieceCanFit -/

theorem spriteAt_eq_some (t : tetromino) (x y : Nat) (c : Char) (h : spriteAt t x y = some c) :
    ∃ idx, getPieceIndexForRotation t x y = some idx ∧ t.sprite[idx]? = some c := by
  unfold spriteAt at h
  cases hg : getPieceIndexForRotation t x y with
  | none => simp [hg] at h
  | some idx => exact ⟨idx, rfl, by simpa [hg] using h⟩

/-- What the body of the inner loop of `pieceCanFit` computes at a cell whose sprite character
is `c`. -/
theorem pieceCanFitCell_eq (field : Field) (t : tetromino) (y x : Nat) (c : Char)
    (hs : spriteAt t x y = some c) (hlen : field.length = FIELD_LENGTH) (hy : 0 ≤ t.y) :
    pieceCanFitCell field t y x =
      some (decide (c = ' ' ∨ (1 ≤ t.x + x ∧ t.x + x < 12 ∧ t.y + y < 18 ∧
        readField field (fieldIndex t (y, x)) = some ' '))) := by
  obtain ⟨idx, h1, h2⟩ := spriteAt_eq_some t x y c hs
  unfold pieceCanFitCell
  simp only [h1, h2, Option.bind_eq_bind, Option.some_bind, Option.pure_def]
  by_cases hc : c = ' '
  · simp [hc]
  · simp only [hc, if_false, false_or]
    by_cases hin : 1 ≤ t.x + x ∧ t.x + x < 12 ∧ t.y + y < 18
    · obtain ⟨a1, a2, a3⟩ := hin
      have hif : ¬ (t.x + (x : Int) < 1 ∨ t.x + (x : Int) ≥ (FIELD_WIDTH : Nat) ∨
          t.y + (y : Int) ≥ (FIELD_HEIGHT : Nat)) := by
        simp only [FIELD_WIDTH, FIELD_HEIGHT]; push_cast; omega
      rw [if_neg hif]
      have hidx : fieldIndex t (y, x) = (t.y + y) * FIELD_WIDTH + (t.x + x) := rfl
      rw [hidx]
      obtain ⟨fc, hfc⟩ := readField_isSome field ((t.y + y) * FIELD_WIDTH + (t.x + x))
        (by simp only [FIELD_WIDTH]; push_cast; omega)
        (by rw [hlen]; simp only [FIELD_WIDTH, FIELD_LENGTH, FIELD_HEIGHT]; push_cast; omega)
      simp only [hfc, Option.some_bind, Option.some.injEq, a1, a2, a3, true_and]
      by_cases hfc2 : fc = ' ' <;> simp [hfc2]
    · have hif : (t.x + (x : Int) < 1 ∨ t.x + (x : Int) ≥ (FIELD_WIDTH : Nat) ∨
          t.y + (y : Int) ≥ (FIELD_HEIGHT : Nat)) := by
        simp only [FIELD_WIDTH, FIELD_HEIGHT]; push_cast; omega
      rw [if_pos hif]
      have : ¬ (1 ≤ t.x + ↑x ∧ t.x + ↑x < 12 ∧ t.y + ↑y < 18 ∧
        readField field (fieldIndex t (y, x)) = some ' ') := fun h => hin ⟨h.1, h.2.1, h.2.2.1⟩
      simp [this]

theorem occupied_of_mem (t : tetromino) (p : Nat × Nat) (hp : p ∈ occupiedCells t) :
    p ∈ boxCells t.sidelen ∧ ∃ c, spriteAt t p.2 p.1 = some c ∧ c ≠ ' ' := by
  unfold occupiedCells at hp
  rw [List.mem_filter] at hp
  refine ⟨hp.1, ?_⟩
  have h2 := hp.2
  unfold isOccupied at h2
  cases hs : spriteAt t p.2 p.1 with
  | none => simp [hs] at h2
  | some c => exact ⟨c, rfl, by simpa [hs] using h2⟩

theorem mem_occupied (t : tetromino) (p : Nat × Nat) (hp : p ∈ boxCells t.sidelen) (c : Char)
    (hs : spriteAt t p.2 p.1 = some c) (hc : c ≠ ' ') : p ∈ occupiedCells t := by
  unfold occupiedCells
  rw [List.mem_filter]
  exact ⟨hp, by simp [isOccupied, hs, hc]⟩

theorem spriteAt_isSome (t : tetromino) (kind : Nat) (ht : IsPiece t kind) (p : Nat × Nat)
    (hp : p ∈ boxCells t.sidelen) : ∃ c, spriteAt t p.2 p.1 = some c := by
  obtain ⟨hk, he⟩ := isPiece_eq t kind ht
  have := spriteAt_isSome_table kind hk t.rot ht.2.2 p (by rw [he] at hp; exact hp)
  rw [he, spriteAt_pieceAt]
  exact Option.isSome_iff_exists.mp this

theorem border_not_empty (field : Field) (hb : BorderIntact field) (col row : Int)
    (h1 : 0 ≤ row) (h2 : row ≤ 17) (h3 : 0 ≤ col) (h4 : col ≤ 11)
    (hr : readField field (row * FIELD_WIDTH + col) = some ' ') : 1 ≤ col ∧ col ≤ 10 ∧ row ≤ 16 := by
  by_contra hcon
  have hbd : col.toNat = 0 ∨ col.toNat = FIELD_WIDTH - 1 ∨ row.toNat = FIELD_HEIGHT - 1 := by
    simp only [FIELD_WIDTH, FIELD_HEIGHT]; omega
  have := hb col.toNat (by simp only [FIELD_WIDTH]; omega) row.toNat
    (by simp only [FIELD_HEIGHT]; omega) hbd
  rw [readField_eq_some_iff] at hr
  have he : (row * (FIELD_WIDTH : Nat) + col).toNat = row.toNat * FIELD_WIDTH + col.toNat := by
    simp only [FIELD_WIDTH]; omega
  rw [he, this] at hr
  simp at hr

/-- C2: on a field with intact border, for a piece of any of the 7 kinds, rotation in `0..3`,
any `x` and any `y ≥ 0`, `pieceCanFit` returns `true` exactly when every occupied cell of the
rotated sprite lies in a column in `[1, 10]`, a row in `[0, 17]`, over an empty field cell. -/
theorem pieceCanFit_iff (field : Field) (t : tetromino) (kind : Nat)
    (hlen : field.length = FIELD_LENGTH) (hb : BorderIntact field) (ht : IsPiece t kind)
    (hy : 0 ≤ t.y) :
    ∃ b, pieceCanFit field t = some b ∧
      (b = true ↔ ∀ p ∈ occupiedCells t,
        1 ≤ t.x + p.2 ∧ t.x + p.2 ≤ 10 ∧ 0 ≤ t.y + p.1 ∧ t.y + p.1 ≤ 17 ∧
          readField field (fieldIndex t p) = some ' ') := by
  let q : Nat × Nat → Bool := fun p =>
    match spriteAt t p.2 p.1 with
    | some c => decide (c = ' ' ∨ (1 ≤ t.x + p.2 ∧ t.x + p.2 < 12 ∧ t.y + p.1 < 18 ∧
        readField field (fieldIndex t p) = some ' '))
    | none => false
  have hq : pieceCanFit field t = some ((boxCells t.sidelen).all q) := by
    unfold pieceCanFit
    rw [allM_nested]
    apply allM_eq_some_all
    intro p hp
    obtain ⟨c, hc⟩ := spriteAt_isSome t kind ht p hp
    simp only [q, hc]
    exact pieceCanFitCell_eq field t p.1 p.2 c hc hlen hy
  refine ⟨_, hq, ?_⟩
  rw [List.all_eq_true]
  constructor
  · intro h p hp
    obtain ⟨hbox, c, hc, hne⟩ := occupied_of_mem t p hp
    have := h p hbox
    simp only [q, hc, hne, false_or, decide_eq_true_eq] at this
    obtain ⟨a1, a2, a3, a4⟩ := this
    have hrow : 0 ≤ t.y + (p.1 : Int) := by omega
    have := border_not_empty field hb (t.x + p.2) (t.y + p.1) hrow (by omega) (by omega)
      (by omega) a4
    exact ⟨a1, this.2.1, hrow, by omega, a4⟩
  · intro h p hp
    obtain ⟨c, hc⟩ := spriteAt_isSome t kind ht p hp
    simp only [q, hc, decide_eq_true_eq]
    by_cases hne : c = ' '
    · exact Or.inl hne
    · right
      obtain ⟨a1, a2, a3, a4, a5⟩ := h p (mem_occupied t p hp c hc hne)
      exact ⟨a1, by omega, by omega, a5⟩

theorem pieceCanFit_iff_witness :
    initField.length = FIELD_LENGTH ∧ BorderIntact initField ∧ IsPiece (pieceAt 4 1 9 14) 4 ∧
    ∃ b, pieceCanFit initField (pieceAt 4 1 9 14) = some b ∧
      (b = true ↔ ∀ p ∈ occupiedCells (pieceAt 4 1 9 14),
        1 ≤ (pieceAt 4 1 9 14).x + p.2 ∧ (pieceAt 4 1 9 14).x + p.2 ≤ 10 ∧
          0 ≤ (pieceAt 4 1 9 14).y + p.1 ∧ (pieceAt 4 1 9 14).y + p.1 ≤ 17 ∧
          readField initField (fieldIndex (pieceAt 4 1 9 14) p) = some ' ') :=
  ⟨by decide!, by decide!, by decide,
    pieceCanFit_iff initField (pieceAt 4 1 9 14) 4 (by decide!) (by decide!) (by decide)
      (by decide)⟩

end CTetris

namespace CTetris

/-! ## Lock-in -/

theorem allM_eq_some_true {α : Type} (p : α → Option Bool) :
    ∀ (l : List α), l.allM p = some true → ∀ a ∈ l, p a = some true := by
  intro l
  induction l with
  | nil => intro _ a ha; simp at ha
  | cons b l ih =>
    intro h a ha
    simp only [List.allM] at h
    cases hb : p b with
    | none => simp [hb] at h
    | some v =>
      cases v with
      | false => simp [hb] at h
      | true =>
        simp only [hb, Option.bind_eq_bind, Option.some_bind] at h
        rcases List.mem_cons.mp ha with rfl | ha'
        · exact hb
        · exact ih h a ha'

/-- A piece that fits has every occupied cell over an empty interior cell. -/
theorem fits_cells (field : Field) (t : tetromino)
    (hb : BorderIntact field) (hfit : pieceCanFit field t = some true) :
    ∀ p ∈ occupiedCells t,
      1 ≤ t.x + p.2 ∧ t.x + p.2 ≤ 10 ∧ 0 ≤ t.y + p.1 ∧ t.y + p.1 ≤ 16 ∧
        readField field (fieldIndex t p) = some ' ' := by
  intro p hp
  obtain ⟨hbox, c, hc, hne⟩ := occupied_of_mem t p hp
  unfold pieceCanFit at hfit
  rw [allM_nested] at hfit
  have hcell := allM_eq_some_true _ _ hfit p hbox
  obtain ⟨idx, h1, h2⟩ := spriteAt_eq_some t p.2 p.1 c hc
  unfold pieceCanFitCell at hcell
  simp only [h1, h2, Option.bind_eq_bind, Option.some_bind, Option.pure_def, hne, if_false]
    at hcell
  split at hcell
  · simp at hcell
  · rename_i hif
    have hif2 : 1 ≤ t.x + (p.2 : Int) ∧ t.x + (p.2 : Int) < 12 ∧ t.y + (p.1 : Int) < 18 := by
      simp only [FIELD_WIDTH, FIELD_HEIGHT] at hif; push_cast at hif; omega
    cases hr : readField field ((t.y + ↑p.1) * ↑FIELD_WIDTH + (t.x + ↑p.2)) with
    | none => simp [hr] at hcell
    | some fc =>
      simp only [hr, Option.some_bind] at hcell
      have hfc : fc = ' ' := by
        by_contra hcon
        simp [hcon] at hcell
      subst hfc
      have hge := (readField_lt _ _ _ hr).1
      have hrow : 0 ≤ t.y + (p.1 : Int) := by
        simp only [FIELD_WIDTH] at hge; push_cast at hge; omega
      have := border_not_empty field hb (t.x + p.2) (t.y + p.1) hrow (by omega) (by omega)
        (by omega) hr
      exact ⟨hif2.1, this.2.1, hrow, this.2.2, hr⟩

theorem foldlM_filter {σ α : Type} (g : σ → α → Option σ) (q : α → Bool) :
    ∀ (l : List α) (s : σ), (∀ a ∈ l, q a = false → ∀ s, g s a = some s) →
      l.foldlM g s = (l.filter q).foldlM g s := by
  intro l
  induction l with
  | nil => intro s _; rfl
  | cons a l ih =>
    intro s h
    have ih' := fun s => ih s (fun b hb => h b (List.mem_cons_of_mem a hb))
    cases hq : q a with
    | false =>
      simp only [List.foldlM_cons, List.filter_cons, hq, h a (List.mem_cons_self a l) hq s]
      simpa using ih' s
    | true =>
      simp only [List.foldlM_cons, List.filter_cons, hq, if_true]
      cases g s a with
      | none => rfl
      | some s' => simpa using ih' s'

/-- Writing one character at each index of a list of in-bounds indices. -/
theorem foldlM_write {α : Type} (idx : α → Int) (ch : Char) :
    ∀ (l : List α) (field : Field), (∀ a ∈ l, 0 ≤ idx a ∧ idx a < field.length) →
      ∃ field', l.foldlM (fun f a => writeField f (idx a) ch) field = some field' ∧
        field'.length = field.length ∧
        ∀ i, readField field' i = if i ∈ l.map idx then some ch else readField field i := by
  intro l
  induction l with
  | nil => intro field _; exact ⟨field, rfl, rfl, fun i => by simp⟩
  | cons a l ih =>
    intro field h
    obtain ⟨h0, h1⟩ := h a (List.mem_cons_self a l)
    have hw := writeField_eq_some field (idx a) ch h0 h1
    obtain ⟨hl1, _, _, hr1⟩ := writeField_spec _ _ _ _ hw
    obtain ⟨field', e1, e2, e3⟩ := ih (field.set (idx a).toNat ch)
      (fun b hb => by rw [hl1]; exact h b (List.mem_cons_of_mem a hb))
    refine ⟨field', ?_, by rw [e2, hl1], ?_⟩
    · simp only [List.foldlM_cons, hw, Option.bind_eq_bind, Option.some_bind]
      exact e1
    · intro i
      rw [e3, hr1]
      simp only [List.map_cons, List.mem_cons]
      by_cases hi : i ∈ l.map idx
      · simp [hi]
      · by_cases hia : i = idx a <;> simp [hi, hia]

theorem lockPiece_eq (field : Field) (t : tetromino) (kind : Nat) (ht : IsPiece t kind) :
    ∃ ch, pieceChars[kind]? = some ch ∧
      lockPiece field t =
        (occupiedCells t).foldlM (fun f p => writeField f (fieldIndex t p) ch) field := by
  obtain ⟨hk, he⟩ := isPiece_eq t kind ht
  have hch : ∃ ch, pieceChars[kind]? = some ch := by
    have : kind < pieceChars.length := by simpa [pieceChars] using hk
    exact ⟨pieceChars[kind], List.getElem?_eq_getElem this⟩
  obtain ⟨ch, hch⟩ := hch
  refine ⟨ch, hch, ?_⟩
  have htab := (occupiedCells_table kind hk t.rot ht.2.2).2.2
  unfold lockPiece
  rw [foldlM_nested]
  have hstep : ∀ p ∈ boxCells t.sidelen, ∀ f,
      lockCell t p.1 p.2 f =
        if isOccupied t p.2 p.1 then writeField f (fieldIndex t p) ch else some f := by
    intro p hp f
    obtain ⟨c, hc⟩ := spriteAt_isSome t kind ht p hp
    obtain ⟨idx, h1, h2⟩ := spriteAt_eq_some t p.2 p.1 c hc
    unfold lockCell
    simp only [h1, h2, Option.bind_eq_bind, Option.some_bind, Option.pure_def, isOccupied, hc]
    by_cases hsp : c = ' '
    · simp [hsp]
    · have hocc : p ∈ occupiedCells t := mem_occupied t p hp c hc hsp
      have h3 := (htab p (by rw [he, occupiedCells_pieceAt] at hocc; exact hocc)).1
      rw [← spriteAt_pieceAt kind t.rot t.x t.y, ← he, hc, hch] at h3
      simp only [Option.some.injEq] at h3
      subst h3
      simp [hsp, fieldIndex]
  have hfold : ∀ (l : List (Nat × Nat)), (∀ p ∈ l, p ∈ boxCells t.sidelen) → ∀ f,
      l.foldlM (fun s p => lockCell t p.1 p.2 s) f =
        l.foldlM (fun s p =>
          if isOccupied t p.2 p.1 then writeField s (fieldIndex t p) ch else some s) f := by
    intro l
    induction l with
    | nil => intro _ f; rfl
    | cons a l ih =>
      intro h f
      simp only [List.foldlM_cons, hstep a (h a (List.mem_cons_self a l))]
      congr 1
      funext f'
      exact ih (fun b hb => h b (List.mem_cons_of_mem a hb)) f'
  show (boxCells t.sidelen).foldlM (fun s p => lockCell t p.1 p.2 s) field = _
  rw [hfold _ (fun p hp => hp)]
  rw [foldlM_filter _ (fun p => isOccupied t p.2 p.1)]
  · unfold occupiedCells
    generalize (boxCells t.sidelen) = l
    induction l generalizing field with
    | nil => rfl
    | cons a l ih =>
      by_cases hq : isOccupied t a.2 a.1
      · simp only [List.filter_cons, hq, if_true, List.foldlM_cons]
        congr 1
        funext f'
        exact ih f'
      · simp only [List.filter_cons, hq]
        exact ih field
  · intro a _ hq s
    simp [hq]

theorem fieldIndex_inj (t : tetromino) (p q : Nat × Nat)
    (hp : 1 ≤ t.x + p.2 ∧ t.x + p.2 ≤ 10) (hq : 1 ≤ t.x + q.2 ∧ t.x + q.2 ≤ 10)
    (h : fieldIndex t p = fieldIndex t q) : p = q := by
  unfold fieldIndex at h
  simp only [FIELD_WIDTH] at h
  push_cast at h
  have h1 : (p.1 : Int) = q.1 := by omega
  have h2 : (p.2 : Int) = q.2 := by omega
  exact Prod.ext (by exact_mod_cast h1) (by exact_mod_cast h2)

/-- Lock-in of a fitting piece writes the kind character under each occupied sprite cell and
nothing else. -/
theorem lockPiece_write (field : Field) (t : tetromino) (kind : Nat)
    (hlen : field.length = FIELD_LENGTH) (hb : BorderIntact field) (ht : IsPiece t kind)
    (hfit : pieceCanFit field t = some true) :
    ∃ field' ch, lockPiece field t = some field' ∧ pieceChars[kind]? = some ch ∧
      field'.length = FIELD_LENGTH ∧
      ∀ i, readField field' i =
        if i ∈ (occupiedCells t).map (fieldIndex t) then some ch else readField field i := by
  obtain ⟨ch, hch, hlock⟩ := lockPiece_eq field t kind ht
  have hcells := fits_cells field t hb hfit
  have hbounds : ∀ p ∈ occupiedCells t,
      0 ≤ fieldIndex t p ∧ fieldIndex t p < field.length := by
    intro p hp
    obtain ⟨a1, a2, a3, a4, _⟩ := hcells p hp
    rw [hlen]
    unfold fieldIndex
    simp only [FIELD_WIDTH, FIELD_LENGTH, FIELD_HEIGHT]
    push_cast
    omega
  obtain ⟨field', e1, e2, e3⟩ := foldlM_write (fieldIndex t) ch (occupiedCells t) field hbounds
  exact ⟨field', ch, hlock.trans e1, hch, by rw [e2, hlen], e3⟩

/-- C4: for each of the 7 kinds, each rotation in `0..3` and each position at which
`pieceCanFit` holds on a border-intact field, lock-in changes exactly four field cells, the
cells under the occupied positions of the rotated sprite, which were all empty interior cells,
to the character of the piece's kind, and leaves every other cell unchanged. -/
theorem lockPiece_spec (field : Field) (t : tetromino) (kind : Nat)
    (hlen : field.length = FIELD_LENGTH) (hb : BorderIntact field) (ht : IsPiece t kind)
    (hfit : pieceCanFit field t = some true) :
    ∃ field' ch, lockPiece field t = some field' ∧ pieceChars[kind]? = some ch ∧
      field'.length = FIELD_LENGTH ∧
      ((occupiedCells t).map (fieldIndex t)).length = 4 ∧
      ((occupiedCells t).map (fieldIndex t)).Nodup ∧
      (∀ p ∈ occupiedCells t,
        1 ≤ t.x + p.2 ∧ t.x + p.2 ≤ 10 ∧ 0 ≤ t.y + p.1 ∧ t.y + p.1 ≤ 16 ∧
          readField field (fieldIndex t p) = some ' ') ∧
      ∀ i, readField field' i =
        if i ∈ (occupiedCells t).map (fieldIndex t) then some ch else readField field i := by
  obtain ⟨hk, he⟩ := isPiece_eq t kind ht
  obtain ⟨field', ch, hlock, hch, hlen', hpt⟩ := lockPiece_write field t kind hlen hb ht hfit
  have hcells := fits_cells field t hb hfit
  have htab := occupiedCells_table kind hk t.rot ht.2.2
  have hocc : occupiedCells t = occupiedCells (pieceAt kind t.rot 0 0) := by
    rw [he]; rfl
  refine ⟨field', ch, hlock, hch, hlen', ?_, ?_, hcells, hpt⟩
  · rw [List.length_map, hocc]; exact htab.1
  · apply List.Nodup.map_on
    · intro p hp q hq hpq
      exact fieldIndex_inj t p q ⟨(hcells p hp).1, (hcells p hp).2.1⟩
        ⟨(hcells q hq).1, (hcells q hq).2.1⟩ hpq
    · rw [hocc]; exact htab.2.1

theorem lockPiece_spec_witness :
    initField.length = FIELD_LENGTH ∧ BorderIntact initField ∧ IsPiece (pieceAt 5 3 3 14) 5 ∧
    pieceCanFit initField (pieceAt 5 3 3 14) = some true ∧
    ∃ field' ch, lockPiece initField (pieceAt 5 3 3 14) = some field' ∧
      pieceChars[5]? = some ch ∧ field'.length = FIELD_LENGTH ∧
      ((occupiedCells (pieceAt 5 3 3 14)).map (fieldIndex (pieceAt 5 3 3 14))).length = 4 ∧
      ((occupiedCells (pieceAt 5 3 3 14)).map (fieldIndex (pieceAt 5 3 3 14))).Nodup ∧
      (∀ p ∈ occupiedCells (pieceAt 5 3 3 14),
        1 ≤ (pieceAt 5 3 3 14).x + p.2 ∧ (pieceAt 5 3 3 14).x + p.2 ≤ 10 ∧
          0 ≤ (pieceAt 5 3 3 14).y + p.1 ∧ (pieceAt 5 3 3 14).y + p.1 ≤ 16 ∧
          readField initField (fieldIndex (pieceAt 5 3 3 14) p) = some ' ') ∧
      ∀ i, readField field' i =
        if i ∈ (occupiedCells (pieceAt 5 3 3 14)).map (fieldIndex (pieceAt 5 3 3 14))
        then some ch else readField initField i :=
  ⟨by decide!, by decide!, by decide, by decide!,
    lockPiece_spec initField (pieceAt 5 3 3 14) 5 (by decide!) (by decide!) (by decide)
      (by decide!)⟩

end CTetris

namespace CTetris

/-! ## Line detection -/

theorem lineIsFull_eq (field : Field) (row : Int) (hlen : field.length = FIELD_LENGTH)
    (h0 : 0 ≤ row) (h1 : row ≤ 17) :
    lineIsFull field (row * FIELD_WIDTH) = some (rowIsFull field row) := by
  unfold lineIsFull rowIsFull
  apply allM_eq_some_all
  intro x hx
  rw [List.mem_range'_1] at hx
  simp only [FIELD_WIDTH] at hx
  obtain ⟨c, hc⟩ := readField_isSome field (row * FIELD_WIDTH + x)
    (by simp only [FIELD_WIDTH]; push_cast; omega)
    (by rw [hlen]; simp only [FIELD_WIDTH, FIELD_LENGTH, FIELD_HEIGHT]; push_cast; omega)
  simp only [hc, Option.bind_eq_bind, Option.some_bind, Option.pure_def]
  by_cases h : c = ' ' <;> simp [h]

theorem markLine_spec (field : Field) (row : Int) (hlen : field.length = FIELD_LENGTH)
    (h0 : 0 ≤ row) (h1 : row ≤ 17) :
    ∃ field', markLine field (row * FIELD_WIDTH) = some field' ∧
      field'.length = FIELD_LENGTH ∧
      (∀ x : Int, 1 ≤ x → x ≤ 10 → readField field' (row * FIELD_WIDTH + x) = some '=') ∧
      (∀ i, (¬ ∃ x : Int, 1 ≤ x ∧ x ≤ 10 ∧ i = row * FIELD_WIDTH + x) →
        readField field' i = readField field i) := by
  obtain ⟨field', e1, e2, e3⟩ := foldlM_write (fun x : Nat => row * (FIELD_WIDTH : Int) + x) '='
    (List.range' 1 (FIELD_WIDTH - 2)) field (by
      intro x hx
      rw [List.mem_range'_1] at hx
      simp only [FIELD_WIDTH] at hx
      rw [hlen]
      simp only [FIELD_WIDTH, FIELD_LENGTH, FIELD_HEIGHT]
      push_cast
      omega)
  have hiff : ∀ i, i ∈ (List.range' 1 (FIELD_WIDTH - 2)).map
        (fun x : Nat => row * (FIELD_WIDTH : Int) + x)
      ↔ ∃ x : Int, 1 ≤ x ∧ x ≤ 10 ∧ i = row * FIELD_WIDTH + x := by
    intro i
    simp only [List.mem_map, List.mem_range'_1, FIELD_WIDTH]
    constructor
    · rintro ⟨x, hx, rfl⟩
      exact ⟨x, by omega, by omega, rfl⟩
    · rintro ⟨x, hx1, hx2, rfl⟩
      exact ⟨x.toNat, by omega, by omega⟩
  refine ⟨field', e1, by rw [e2, hlen], ?_, ?_⟩
  · intro x hx1 hx2
    rw [e3, if_pos ((hiff _).mpr ⟨x, hx1, hx2, rfl⟩)]
  · intro i hi
    rw [e3, if_neg (fun h' => hi ((hiff i).mp h'))]

theorem rowIsFull_congr (field field' : Field) (row : Int)
    (h : ∀ x : Int, 1 ≤ x → x ≤ 10 →
      readField field' (row * FIELD_WIDTH + x) = readField field (row * FIELD_WIDTH + x)) :
    rowIsFull field' row = rowIsFull field row := by
  unfold rowIsFull
  rw [Bool.eq_iff_iff, List.all_eq_true, List.all_eq_true]
  have hx : ∀ x ∈ List.range' 1 (FIELD_WIDTH - 2),
      readField field' (row * FIELD_WIDTH + (x : Int)) =
        readField field (row * FIELD_WIDTH + (x : Int)) := by
    intro x hx
    rw [List.mem_range'_1] at hx
    simp only [FIELD_WIDTH] at hx
    exact h x (by omega) (by omega)
  constructor
  · intro h2 x hxm
    rw [← hx x hxm]; exact h2 x hxm
  · intro h2 x hxm
    rw [hx x hxm]; exact h2 x hxm

theorem rowIsFull_iff (field : Field) (row : Int) :
    rowIsFull field row = true ↔
      ∀ x : Int, 1 ≤ x → x ≤ 10 →
        ∃ c, readField field (row * FIELD_WIDTH + x) = some c ∧ c ≠ ' ' := by
  unfold rowIsFull
  rw [List.all_eq_true]
  constructor
  · intro h x hx1 hx2
    have := h x.toNat (by rw [List.mem_range'_1]; simp only [FIELD_WIDTH]; omega)
    have hxx : ((x.toNat : Nat) : Int) = x := by omega
    rw [hxx] at this
    cases hr : readField field (row * FIELD_WIDTH + x) with
    | none => simp [hr] at this
    | some c => exact ⟨c, rfl, by simpa [hr] using this⟩
  · intro h x hx
    rw [List.mem_range'_1] at hx
    simp only [FIELD_WIDTH] at hx
    obtain ⟨c, hc, hne⟩ := h x (by omega) (by omega)
    simp [hc, hne]

theorem mem_fullRowsFrom (field : Field) (t : tetromino) (a k : Nat) (r : Int) :
    r ∈ fullRowsFrom field t a k ↔
      t.y + a ≤ r ∧ r < t.y + a + k ∧ r ≤ 16 ∧ rowIsFull field r = true := by
  unfold fullRowsFrom
  simp only [List.mem_filter, List.mem_map, List.mem_range'_1, Bool.and_eq_true,
    decide_eq_true_eq]
  constructor
  · rintro ⟨⟨y, hy, rfl⟩, h1, h2⟩
    exact ⟨by omega, by omega, h1, h2⟩
  · rintro ⟨h1, h2, h3, h4⟩
    exact ⟨⟨(r - t.y).toNat, by omega, by omega⟩, h3, h4⟩

theorem fullRowsFrom_succ (field : Field) (t : tetromino) (a k : Nat) :
    fullRowsFrom field t a (k + 1) =
      (if (decide (t.y + (a : Int) ≤ 16) && rowIsFull field (t.y + a)) = true
        then [t.y + (a : Int)] else []) ++ fullRowsFrom field t (a + 1) k := by
  unfold fullRowsFrom
  rw [List.range'_succ, List.map_cons, List.filter_cons]
  split <;> simp

theorem fullRowsFrom_congr (field field' : Field) (t : tetromino) (a k : Nat)
    (h : ∀ i, (t.y + a) * FIELD_WIDTH ≤ i → readField field' i = readField field i) :
    fullRowsFrom field' t a k = fullRowsFrom field t a k := by
  unfold fullRowsFrom
  apply List.filter_congr
  intro r hr
  simp only [List.mem_map, List.mem_range'_1] at hr
  obtain ⟨y, hy, rfl⟩ := hr
  rw [rowIsFull_congr field field']
  intro x hx1 hx2
  apply h
  simp only [FIELD_WIDTH]
  push_cast
  omega

/-- The detection loop over the rows `t.y + a, ..., t.y + a + k - 1`. -/
theorem checkLinesLoop_spec (t : tetromino) (hy : 0 ≤ t.y) :
    ∀ (k a : Nat) (field : Field) (n L : Int), field.length = FIELD_LENGTH →
      ∃ field' L', checkLinesLoop t (List.range' a k) field n L =
          some (field', n + (fullRowsFrom field t a k).length, L') ∧
        field'.length = FIELD_LENGTH ∧
        (fullRowsFrom field t a k = [] → L' = L) ∧
        (fullRowsFrom field t a k ≠ [] →
          L' ∈ fullRowsFrom field t a k ∧ ∀ r ∈ fullRowsFrom field t a k, r ≤ L') ∧
        (∀ i, InRows (fullRowsFrom field t a k) i → readField field' i = some '=') ∧
        (∀ i, ¬ InRows (fullRowsFrom field t a k) i → readField field' i = readField field i) := by
  intro k
  induction k with
  | zero =>
    intro a field n L hlen
    refine ⟨field, L, ?_, hlen, fun _ => rfl, ?_, ?_, fun _ _ => rfl⟩
    · simp [checkLinesLoop, fullRowsFrom]
    · intro h; simp [fullRowsFrom] at h
    · intro i hi
      obtain ⟨r, hr, _⟩ := hi
      simp [fullRowsFrom] at hr
  | succ k ih =>
    intro a field n L hlen
    rw [List.range'_succ]
    unfold checkLinesLoop
    by_cases hbrk : t.y + (a : Int) ≥ (FIELD_HEIGHT : Int) - 1
    · have hempty : fullRowsFrom field t a (k + 1) = [] := by
        rw [List.eq_nil_iff_forall_not_mem]
        intro r hr
        rw [mem_fullRowsFrom] at hr
        simp only [FIELD_HEIGHT] at hbrk
        omega
      simp only [hbrk, if_true, hempty, List.length_nil, Int.natCast_zero, add_zero]
      exact ⟨field, L, rfl, hlen, fun _ => rfl, fun h => absurd rfl h,
        fun i hi => by obtain ⟨r, hr, _⟩ := hi; simp at hr, fun _ _ => rfl⟩
    · have hrow : t.y + (a : Int) ≤ 16 := by simp only [FIELD_HEIGHT] at hbrk; omega
      have hfull := lineIsFull_eq field (t.y + a) hlen (by omega) (by omega)
      simp only [hbrk, if_false, hfull, Option.bind_eq_bind, Option.some_bind]
      rw [fullRowsFrom_succ]
      cases hf : rowIsFull field (t.y + a) with
      | false =>
        simp only [Bool.not_false, if_true, Bool.and_false, Bool.false_eq_true, if_false,
          List.nil_append]
        exact ih (a + 1) field n L hlen
      | true =>
        obtain ⟨field1, m1, m2, m3, m4⟩ :=
          markLine_spec field (t.y + a) hlen (by omega) (by omega)
        have hcongr : fullRowsFrom field1 t (a + 1) k = fullRowsFrom field t (a + 1) k := by
          apply fullRowsFrom_congr
          intro i hi
          apply m4
          rintro ⟨x, hx1, hx2, rfl⟩
          simp only [FIELD_WIDTH] at hi
          push_cast at hi
          omega
        obtain ⟨field', L', e1, e2, e3, e4, e5, e6⟩ := ih (a + 1) field1 (n + 1) (t.y + a) m2
        rw [hcongr] at e1 e3 e4 e5 e6
        have hdec : (decide (t.y + (a : Int) ≤ 16) && true) = true := by simp [hrow]
        simp only [Bool.not_true, Bool.false_eq_true, if_false, m1, Option.some_bind, hdec,
          if_true]
        refine ⟨field', L', ?_, e2, ?_, ?_, ?_, ?_⟩
        · rw [e1]
          simp only [List.singleton_append, List.length_cons]
          push_cast
          congr 3
          omega
        · intro h; simp at h
        · intro _
          by_cases hs : fullRowsFrom field t (a + 1) k = []
          · rw [e3 hs, hs]
            simp
          · obtain ⟨h1, h2⟩ := e4 hs
            refine ⟨by simp [h1], ?_⟩
            intro r hr
            simp only [List.singleton_append, List.mem_cons] at hr
            rcases hr with rfl | hr
            · have := (mem_fullRowsFrom field t (a + 1) k L').mp h1
              push_cast at this
              omega
            · exact h2 r hr
        · intro i hi
          by_cases hi2 : InRows (fullRowsFrom field t (a + 1) k) i
          · exact e5 i hi2
          · rw [e6 i hi2]
            obtain ⟨r, hr, x, hx1, hx2, rfl⟩ := hi
            simp only [List.singleton_append, List.mem_cons] at hr
            rcases hr with rfl | hr
            · exact m3 x hx1 hx2
            · exact absurd ⟨r, hr, x, hx1, hx2, rfl⟩ hi2
        · intro i hi
          have hi2 : ¬ InRows (fullRowsFrom field t (a + 1) k) i := by
            rintro ⟨r, hr, hx⟩
            exact hi ⟨r, by simp [hr], hx⟩
          rw [e6 i hi2]
          apply m4
          rintro ⟨x, hx1, hx2, rfl⟩
          exact hi ⟨t.y + a, by simp, x, hx1, hx2, rfl⟩

/-- C3: for a field and a just-locked piece at row `y` with side length `s`, the detection
pass marks exactly the rows `r` with `y ≤ r ≤ min (y + s - 1) 16` whose ten interior cells are
all non-empty: their interior cells become `'='`, every other cell is unchanged, the returned
count is the number of such rows and, when it is positive, the returned row is the largest
such row. -/
theorem checkLines_spec (field : Field) (t : tetromino) (hlen : field.length = FIELD_LENGTH)
    (hy : 0 ≤ t.y) :
    ∃ field' n L, checkLines field t = some (field', n, L) ∧
      field'.length = FIELD_LENGTH ∧
      (∀ r, r ∈ fullRows field t ↔
        t.y ≤ r ∧ r ≤ t.y + t.sidelen - 1 ∧ r ≤ 16 ∧
          ∀ x : Int, 1 ≤ x → x ≤ 10 →
            ∃ c, readField field (r * FIELD_WIDTH + x) = some c ∧ c ≠ ' ') ∧
      (fullRows field t).Nodup ∧
      n = (fullRows field t).length ∧
      (0 < n → L ∈ fullRows field t ∧ ∀ r ∈ fullRows field t, r ≤ L) ∧
      (∀ i, InRows (fullRows field t) i → readField field' i = some '=') ∧
      (∀ i, ¬ InRows (fullRows field t) i → readField field' i = readField field i) := by
  obtain ⟨field', L', e1, e2, _, e4, e5, e6⟩ :=
    checkLinesLoop_spec t hy t.sidelen 0 field 0 0 hlen
  refine ⟨field', ((fullRows field t).length : Int), L', ?_, e2, ?_, ?_, rfl, ?_, e5, e6⟩
  · unfold checkLines
    rw [List.range_eq_range', e1]
    simp [fullRows]
  · intro r
    unfold fullRows
    rw [mem_fullRowsFrom, rowIsFull_iff]
    push_cast
    constructor
    · rintro ⟨h1, h2, h3, h4⟩; exact ⟨by omega, by omega, h3, h4⟩
    · rintro ⟨h1, h2, h3, h4⟩; exact ⟨by omega, by omega, h3, h4⟩
  · unfold fullRows fullRowsFrom
    apply List.Nodup.filter
    apply List.Nodup.map
    · intro a b hab
      simp only at hab
      omega
    · exact List.nodup_range' 0 t.sidelen
  · intro hn
    apply e4
    intro hnil
    unfold fullRows at hn
    rw [hnil] at hn
    simp at hn

theorem checkLines_spec_witness :
    sampleLockedField.length = FIELD_LENGTH ∧ (0 : Int) ≤ (pieceAt 0 1 8 13).y ∧
    checkLines sampleLockedField (pieceAt 0 1 8 13) =
      some (fieldOfRows [
        "#          #",
        "#          #",
        "#          #",
        "#          #",
        "#          #",
        "#          #",
        "#          #",
        "#          #",
        "#          #",
        "#          #",
        "#          #",
        "#          #",
        "#  LL      #",
        "#  L  J   I#",
        "#==========#",
        "# ZZSSTTTOI#",
        "#==========#",
        "############" ], 2, 16) ∧
    ∃ field' n L, checkLines sampleLockedField (pieceAt 0 1 8 13) = some (field', n, L) ∧
      field'.length = FIELD_LENGTH ∧
      (∀ r, r ∈ fullRows sampleLockedField (pieceAt 0 1 8 13) ↔
        (pieceAt 0 1 8 13).y ≤ r ∧
          r ≤ (pieceAt 0 1 8 13).y + (pieceAt 0 1 8 13).sidelen - 1 ∧ r ≤ 16 ∧
          ∀ x : Int, 1 ≤ x → x ≤ 10 →
            ∃ c, readField sampleLockedField (r * FIELD_WIDTH + x) = some c ∧ c ≠ ' ') ∧
      (fullRows sampleLockedField (pieceAt 0 1 8 13)).Nodup ∧
      n = (fullRows sampleLockedField (pieceAt 0 1 8 13)).length ∧
      (0 < n → L ∈ fullRows sampleLockedField (pieceAt 0 1 8 13) ∧
        ∀ r ∈ fullRows sampleLockedField (pieceAt 0 1 8 13), r ≤ L) ∧
      (∀ i, InRows (fullRows sampleLockedField (pieceAt 0 1 8 13)) i →
        readField field' i = some '=') ∧
      (∀ i, ¬ InRows (fullRows sampleLockedField (pieceAt 0 1 8 13)) i →
        readField field' i = readField sampleLockedField i) :=
  ⟨by decide!, by decide, by decide!,
    checkLines_spec sampleLockedField (pieceAt 0 1 8 13) (by decide!) (by decide)⟩

end CTetris

namespace CTetris

/-! ## The loops of clearLinesFromField -/

/-- The upward scan for contiguous marked lines starting at row `r`, column 1. -/
theorem countContiguous_spec (field : Field) (hlen : field.length = FIELD_LENGTH)
    (h0 : readField field 1 ≠ some '=') :
    ∀ (r : Nat), r ≤ 17 → ∀ (fuel : Nat) (c : Int), r < fuel →
      ∃ r' : Nat, r' ≤ r ∧
        countContiguous field fuel ((r : Int) * FIELD_WIDTH + 1) c = some (c + (r - r')) ∧
        readField field ((r' : Int) * FIELD_WIDTH + 1) ≠ some '=' ∧
        ∀ y : Nat, r' < y → y ≤ r → readField field ((y : Int) * FIELD_WIDTH + 1) = some '=' := by
  intro r
  induction r with
  | zero =>
    intro _ fuel c hf
    obtain ⟨f, rfl⟩ : ∃ f, fuel = f + 1 := ⟨fuel - 1, by omega⟩
    obtain ⟨ch, hch⟩ := readField_isSome field 1 (by omega) (by rw [hlen]; decide)
    refine ⟨0, le_refl _, ?_, by simpa using h0, fun y h1 h2 => by omega⟩
    have hne : ch ≠ '=' := by
      intro h; rw [h] at hch; exact h0 hch
    simp [countContiguous, hch, hne]
  | succ r ih =>
    intro hr fuel c hf
    obtain ⟨f, rfl⟩ : ∃ f, fuel = f + 1 := ⟨fuel - 1, by omega⟩
    obtain ⟨ch, hch⟩ := readField_isSome field (((r + 1 : Nat) : Int) * FIELD_WIDTH + 1)
      (by simp only [FIELD_WIDTH]; push_cast; omega)
      (by rw [hlen]; simp only [FIELD_WIDTH, FIELD_LENGTH, FIELD_HEIGHT]; push_cast; omega)
    by_cases hm : ch = '='
    · subst hm
      obtain ⟨r', h1, h2, h3, h4⟩ := ih (by omega) f (c + 1) (by omega)
      refine ⟨r', by omega, ?_, h3, ?_⟩
      · unfold countContiguous
        simp only [hch, Option.bind_eq_bind, Option.some_bind, if_true]
        have : ((r + 1 : Nat) : Int) * FIELD_WIDTH + 1 - FIELD_WIDTH = (r : Int) * FIELD_WIDTH + 1 := by
          push_cast; ring
        rw [this, h2]
        congr 1
        push_cast
        ring
      · intro y hy1 hy2
        by_cases hy : y = r + 1
        · subst hy; exact hch
        · exact h4 y hy1 (by omega)
    · refine ⟨r + 1, le_refl _, ?_, ?_, fun y h1 h2 => by omega⟩
      · unfold countContiguous
        simp only [hch, Option.bind_eq_bind, Option.some_bind, hm, if_false]
        simp
      · rw [hch]; simpa using hm

/-- The downward search for the next marked line below row `L`. -/
theorem findNextLine_spec (field : Field) (hlen : field.length = FIELD_LENGTH) :
    ∀ (L : Nat), L ≤ 18 → ∀ (fuel : Nat), L ≤ fuel →
      (∃ r : Nat, r < L ∧ readField field ((r : Int) * FIELD_WIDTH + 1) = some '=') →
      ∃ L1 : Nat, L1 < L ∧ findNextLine field fuel L = some (L1 : Int) ∧
        readField field ((L1 : Int) * FIELD_WIDTH + 1) = some '=' ∧
        ∀ y : Nat, L1 < y → y < L → readField field ((y : Int) * FIELD_WIDTH + 1) ≠ some '=' := by
  intro L
  induction L with
  | zero => rintro _ _ _ ⟨r, hr, _⟩; omega
  | succ L ih =>
    intro hL fuel hf hex
    obtain ⟨f, rfl⟩ : ∃ f, fuel = f + 1 := ⟨fuel - 1, by omega⟩
    obtain ⟨ch, hch⟩ := readField_isSome field ((L : Int) * FIELD_WIDTH + 1)
      (by simp only [FIELD_WIDTH]; push_cast; omega)
      (by rw [hlen]; simp only [FIELD_WIDTH, FIELD_LENGTH, FIELD_HEIGHT]; push_cast; omega)
    have hsub : ((L + 1 : Nat) : Int) - 1 = (L : Int) := by push_cast; ring
    by_cases hm : ch = '='
    · subst hm
      refine ⟨L, by omega, ?_, hch, fun y h1 h2 => by omega⟩
      unfold findNextLine
      simp [hsub, hch]
    · obtain ⟨r, hr1, hr2⟩ := hex
      have hrL : r ≠ L := by
        rintro rfl
        rw [hch] at hr2
        exact hm (by simpa using hr2)
      obtain ⟨L1, h1, h2, h3, h4⟩ := ih (by omega) f (by omega) ⟨r, by omega, hr2⟩
      refine ⟨L1, by omega, ?_, h3, ?_⟩
      · unfold findNextLine
        simp only [hsub, hch, Option.bind_eq_bind, Option.some_bind, ne_eq, hm, not_false_eq_true,
          if_true]
        exact h2
      · intro y hy1 hy2
        by_cases hy : y = L
        · subst hy; rw [hch]; simpa using hm
        · exact h4 y hy1 (by omega)

theorem writeField_ok (field : Field) (i : Int) (c : Char) (h0 : 0 ≤ i)
    (h1 : i < field.length) :
    ∃ field1, writeField field i c = some field1 ∧ field1.length = field.length ∧
      ∀ j, readField field1 j = if j = i then some c else readField field j := by
  have hw := writeField_eq_some field i c h0 h1
  obtain ⟨hl1, _, _, hr1⟩ := writeField_spec _ _ _ _ hw
  exact ⟨_, hw, hl1, hr1⟩

/-- The cells `a, ..., a + k - 1` of one row of the move-down loop. -/
theorem moveDownRow_loop (n y : Nat) (hn : 1 ≤ n) (hy : y ≤ 17) :
    ∀ (k a : Nat) (field : Field), field.length = FIELD_LENGTH → 1 ≤ a → a + k ≤ 11 →
      ∃ field', (List.range' a k).foldlM
          (fun field (x : Nat) =>
            let newFieldIndex : Int := (y : Int) * FIELD_WIDTH + (x : Int)
            if (y : Int) ≤ (n : Int) then
              writeField field newFieldIndex ' '
            else do
              let oldFieldIndex : Int := newFieldIndex - (n : Int) * FIELD_WIDTH
              let c ← readField field oldFieldIndex
              writeField field newFieldIndex c)
          field = some field' ∧
        field'.length = FIELD_LENGTH ∧
        ∀ i : Int, readField field' i =
          if (y : Int) * 12 + a ≤ i ∧ i < (y : Int) * 12 + a + k then
            (if y ≤ n then some ' ' else readField field (i - (n : Int) * 12))
          else readField field i := by
  intro k
  induction k with
  | zero =>
    intro a field hlen _ _
    refine ⟨field, rfl, hlen, ?_⟩
    intro i
    rw [if_neg]
    push_cast
    omega
  | succ k ih =>
    intro a field hlen ha hak
    rw [List.range'_succ, List.foldlM_cons]
    have hW : ((FIELD_WIDTH : Nat) : Int) = 12 := rfl
    simp only [hW] at ih ⊢
    have hidx0 : (0 : Int) ≤ (y : Int) * 12 + (a : Int) := by omega
    have hidx1 : (y : Int) * 12 + (a : Int) < field.length := by
      rw [hlen]; simp only [FIELD_WIDTH, FIELD_LENGTH, FIELD_HEIGHT]; push_cast; omega
    by_cases hyn : y ≤ n
    · have hyn' : (y : Int) ≤ (n : Int) := by exact_mod_cast hyn
      obtain ⟨field1, hw, hl1, hr1⟩ := writeField_ok field ((y : Int) * 12 + (a : Int)) ' '
        hidx0 hidx1
      obtain ⟨field', e1, e2, e3⟩ := ih (a + 1) field1 (hl1.trans hlen) (by omega) (by omega)
      refine ⟨field', ?_, e2, ?_⟩
      · simp only [hyn', if_true, hw, Option.bind_eq_bind, Option.some_bind]
        simpa only [hyn', if_true] using e1
      · intro i
        rw [e3, hr1 i]
        simp only [if_pos hyn]
        by_cases hA : (y : Int) * 12 + ((a + 1 : Nat) : Int) ≤ i ∧
            i < (y : Int) * 12 + ((a + 1 : Nat) : Int) + (k : Int)
        · have hB : (y : Int) * 12 + (a : Int) ≤ i ∧
              i < (y : Int) * 12 + (a : Int) + ((k + 1 : Nat) : Int) := by
            push_cast at hA ⊢; omega
          rw [if_pos hA, if_pos hB]
        · by_cases hi : i = (y : Int) * 12 + (a : Int)
          · have hB : (y : Int) * 12 + (a : Int) ≤ i ∧
                i < (y : Int) * 12 + (a : Int) + ((k + 1 : Nat) : Int) := by
              push_cast; omega
            rw [if_neg hA, if_pos hB, if_pos hi]
          · have hB : ¬ ((y : Int) * 12 + (a : Int) ≤ i ∧
                i < (y : Int) * 12 + (a : Int) + ((k + 1 : Nat) : Int)) := by
              push_cast at hA ⊢; omega
            rw [if_neg hA, if_neg hB, if_neg hi]
    · have hyn' : ¬ (y : Int) ≤ (n : Int) := by exact_mod_cast hyn
      obtain ⟨c, hc⟩ := readField_isSome field
        ((y : Int) * 12 + (a : Int) - (n : Int) * 12)
        (by omega)
        (by rw [hlen]; simp only [FIELD_WIDTH, FIELD_LENGTH, FIELD_HEIGHT]; push_cast; omega)
      obtain ⟨field1, hw, hl1, hr1⟩ := writeField_ok field ((y : Int) * 12 + (a : Int)) c
        hidx0 hidx1
      obtain ⟨field', e1, e2, e3⟩ := ih (a + 1) field1 (hl1.trans hlen) (by omega) (by omega)
      refine ⟨field', ?_, e2, ?_⟩
      · simp only [hyn', if_false, hc, hw, Option.bind_eq_bind, Option.some_bind]
        simpa only [hyn', if_false] using e1
      · intro i
        rw [e3, hr1 i, hr1 (i - (n : Int) * 12)]
        simp only [if_neg hyn]
        by_cases hA : (y : Int) * 12 + ((a + 1 : Nat) : Int) ≤ i ∧
            i < (y : Int) * 12 + ((a + 1 : Nat) : Int) + (k : Int)
        · have hB : (y : Int) * 12 + (a : Int) ≤ i ∧
              i < (y : Int) * 12 + (a : Int) + ((k + 1 : Nat) : Int) := by
            push_cast at hA ⊢; omega
          have hC : ¬ (i - (n : Int) * 12 = (y : Int) * 12 + (a : Int)) := by
            push_cast at hA; omega
          rw [if_pos hA, if_pos hB, if_neg hC]
        · by_cases hi : i = (y : Int) * 12 + (a : Int)
          · have hB : (y : Int) * 12 + (a : Int) ≤ i ∧
                i < (y : Int) * 12 + (a : Int) + ((k + 1 : Nat) : Int) := by
              push_cast; omega
            rw [if_neg hA, if_pos hB, if_pos hi, hi, hc]
          · have hB : ¬ ((y : Int) * 12 + (a : Int) ≤ i ∧
                i < (y : Int) * 12 + (a : Int) + ((k + 1 : Nat) : Int)) := by
              push_cast at hA ⊢; omega
            rw [if_neg hA, if_neg hB, if_neg hi]

/-- One row of the move-down loop. -/
theorem moveDownRow_spec (n y : Nat) (hn : 1 ≤ n) (hy : y ≤ 17) (field : Field)
    (hlen : field.length = FIELD_LENGTH) :
    ∃ field', moveDownRow (n : Int) (y : Int) field = some field' ∧
      field'.length = FIELD_LENGTH ∧
      ∀ i : Int, readField field' i =
        if (y : Int) * 12 + 1 ≤ i ∧ i ≤ (y : Int) * 12 + 10 then
          (if y ≤ n then some ' ' else readField field (i - (n : Int) * 12))
        else readField field i := by
  obtain ⟨field', e1, e2, e3⟩ := moveDownRow_loop n y hn hy 10 1 field hlen (by omega) (by omega)
  refine ⟨field', e1, e2, ?_⟩
  intro i
  rw [e3]
  by_cases h : (y : Int) * 12 + 1 ≤ i ∧ i ≤ (y : Int) * 12 + 10
  · rw [if_pos h, if_pos (by push_cast; omega)]
  · rw [if_neg h, if_neg (by push_cast; omega)]

/-- Index `i` is an interior cell (column `1..10`) of one of the rows `0, ..., m - 1`. -/
theorem moveDown_spec (n : Nat) (hn : 1 ≤ n) :
    ∀ (m : Nat), m ≤ 18 → ∀ (field : Field), field.length = FIELD_LENGTH →
      ∃ field', moveDown (n : Int) m field = some field' ∧
        field'.length = FIELD_LENGTH ∧
        ∀ i : Int, readField field' i =
          if 0 ≤ i ∧ i < (m : Int) * 12 ∧ 1 ≤ i % 12 ∧ i % 12 ≤ 10 then
            (if i / 12 ≤ (n : Int) then some ' ' else readField field (i - (n : Int) * 12))
          else readField field i := by
  intro m
  induction m with
  | zero =>
    intro _ field hlen
    refine ⟨field, rfl, hlen, ?_⟩
    intro i
    rw [if_neg]
    push_cast
    omega
  | succ m ih =>
    intro hm field hlen
    obtain ⟨field1, r1, r2, r3⟩ := moveDownRow_spec n m hn (by omega) field hlen
    obtain ⟨field', e1, e2, e3⟩ := ih (by omega) field1 r2
    refine ⟨field', ?_, e2, ?_⟩
    · unfold moveDown
      simp only [r1, Option.bind_eq_bind, Option.some_bind]
      exact e1
    · intro i
      rw [e3, r3 i, r3 (i - (n : Int) * 12)]
      by_cases hA : 0 ≤ i ∧ i < (m : Int) * 12 ∧ 1 ≤ i % 12 ∧ i % 12 ≤ 10
      · have hB : 0 ≤ i ∧ i < ((m + 1 : Nat) : Int) * 12 ∧ 1 ≤ i % 12 ∧ i % 12 ≤ 10 := by
          push_cast; omega
        have hC : ¬ ((m : Int) * 12 + 1 ≤ i - (n : Int) * 12 ∧
            i - (n : Int) * 12 ≤ (m : Int) * 12 + 10) := by omega
        rw [if_pos hA, if_pos hB, if_neg hC]
      · by_cases hR : (m : Int) * 12 + 1 ≤ i ∧ i ≤ (m : Int) * 12 + 10
        · have hB : 0 ≤ i ∧ i < ((m + 1 : Nat) : Int) * 12 ∧ 1 ≤ i % 12 ∧ i % 12 ≤ 10 := by
            push_cast; omega
          have hD : i / 12 = (m : Int) := by omega
          rw [if_neg hA, if_pos hR, if_pos hB, hD]
          by_cases hmn : m ≤ n
          · have hmn' : (m : Int) ≤ (n : Int) := by exact_mod_cast hmn
            rw [if_pos hmn, if_pos hmn']
          · have hmn' : ¬ (m : Int) ≤ (n : Int) := by exact_mod_cast hmn
            rw [if_neg hmn, if_neg hmn']
        · have hB : ¬ (0 ≤ i ∧ i < ((m + 1 : Nat) : Int) * 12 ∧ 1 ≤ i % 12 ∧ i % 12 ≤ 10) := by
            push_cast; omega
          rw [if_neg hA, if_neg hR, if_neg hB]

end CTetris

namespace CTetris

/-! ## Interior rows as lists -/

theorem readField_natCast (field : Field) (i : Nat) : readField field (i : Int) = field[i]? := by
  simp [readField]

theorem interiorRow_getElem? (field : Field) (y j : Nat) :
    (interiorRow field y)[j]? = if j < 10 then field[y * 12 + 1 + j]? else none := by
  unfold interiorRow
  simp only [FIELD_WIDTH, List.getElem?_take, List.getElem?_drop]

theorem interiorRow_congr (f g : Field) (y y' : Nat)
    (h : ∀ x : Int, 1 ≤ x → x ≤ 10 →
      readField f ((y : Int) * 12 + x) = readField g ((y' : Int) * 12 + x)) :
    interiorRow f y = interiorRow g y' := by
  apply List.ext_getElem?
  intro j
  rw [interiorRow_getElem?, interiorRow_getElem?]
  split
  · rename_i hj
    have := h ((j : Int) + 1) (by omega) (by omega)
    have e1 : (y : Int) * 12 + ((j : Int) + 1) = ((y * 12 + 1 + j : Nat) : Int) := by
      push_cast; ring
    have e2 : (y' : Int) * 12 + ((j : Int) + 1) = ((y' * 12 + 1 + j : Nat) : Int) := by
      push_cast; ring
    rw [e1, e2, readField_natCast, readField_natCast] at this
    exact this
  · rfl

theorem interiorRow_read (field : Field) (y : Nat) (x : Int) (hx1 : 1 ≤ x) (hx2 : x ≤ 10) :
    readField field ((y : Int) * 12 + x) = (interiorRow field y)[(x - 1).toNat]? := by
  rw [interiorRow_getElem?, if_pos (by omega)]
  have e1 : (y : Int) * 12 + x = ((y * 12 + 1 + (x - 1).toNat : Nat) : Int) := by
    push_cast; omega
  rw [e1, readField_natCast]

theorem interiorRow_eq_replicate (field : Field) (y : Nat) (c : Char)
    (h : ∀ x : Int, 1 ≤ x → x ≤ 10 → readField field ((y : Int) * 12 + x) = some c) :
    interiorRow field y = List.replicate (FIELD_WIDTH - 2) c := by
  apply List.ext_getElem?
  intro j
  rw [interiorRow_getElem?]
  simp only [FIELD_WIDTH, List.getElem?_replicate]
  split
  · rename_i hj
    have := h ((j : Int) + 1) (by omega) (by omega)
    have e1 : (y : Int) * 12 + ((j : Int) + 1) = ((y * 12 + 1 + j : Nat) : Int) := by
      push_cast; ring
    rw [e1, readField_natCast] at this
    exact this
  · rfl

theorem read_of_interiorRow_eq_replicate (field : Field) (y : Nat) (c : Char)
    (h : interiorRow field y = List.replicate (FIELD_WIDTH - 2) c) (x : Int) (hx1 : 1 ≤ x)
    (hx2 : x ≤ 10) : readField field ((y : Int) * 12 + x) = some c := by
  rw [interiorRow_read field y x hx1 hx2, h]
  simp only [FIELD_WIDTH, List.getElem?_replicate]
  rw [if_pos (by omega)]

theorem mem_interiorRow (field : Field) (y : Nat) (c : Char) (h : c ∈ interiorRow field y) :
    ∃ x : Int, 1 ≤ x ∧ x ≤ 10 ∧ readField field ((y : Int) * 12 + x) = some c := by
  obtain ⟨j, hj⟩ := List.mem_iff_getElem?.mp h
  rw [interiorRow_getElem?] at hj
  split at hj
  · rename_i hlt
    refine ⟨(j : Int) + 1, by omega, by omega, ?_⟩
    have e1 : (y : Int) * 12 + ((j : Int) + 1) = ((y * 12 + 1 + j : Nat) : Int) := by
      push_cast; ring
    rw [e1, readField_natCast]
    exact hj
  · simp at hj

theorem emptyRow_ne_markedRow : emptyRow ≠ markedRow := by decide

/-- In a field whose markers fill whole rows, the test of column 1 decides whether a row is
marked. -/
theorem col1_marked_iff (field : Field) (hm : MarksAreRows field) (y : Nat) (hy : y ≤ 16) :
    readField field ((y : Int) * FIELD_WIDTH + 1) = some '=' ↔ interiorRow field y = markedRow := by
  have hW : ((FIELD_WIDTH : Nat) : Int) = 12 := rfl
  rw [hW]
  constructor
  · intro h
    apply hm y (by simp only [FIELD_HEIGHT]; omega)
    rw [interiorRow_read field y 1 (by omega) (by omega)] at h
    exact List.getElem?_mem h
  · intro h
    exact read_of_interiorRow_eq_replicate field y '=' h 1 (by omega) (by omega)

theorem rowsFrom_append (field : Field) (a b c : Nat) :
    rowsFrom field a (b + c) = rowsFrom field a b ++ rowsFrom field (a + b) c := by
  unfold rowsFrom
  rw [← List.map_append, List.range'_append_1, Nat.add_comm c b]

theorem rowsFrom_length (field : Field) (a k : Nat) : (rowsFrom field a k).length = k := by
  simp [rowsFrom]

theorem rowsFrom_shift (f g : Field) (a b k : Nat)
    (h : ∀ j, j < k → interiorRow f (a + j) = interiorRow g (b + j)) :
    rowsFrom f a k = rowsFrom g b k := by
  induction k generalizing a b with
  | zero => rfl
  | succ k ih =>
    unfold rowsFrom at ih ⊢
    rw [List.range'_succ, List.range'_succ, List.map_cons, List.map_cons]
    have h0 := h 0 (by omega)
    simp only [add_zero] at h0
    rw [h0, ih (a + 1) (b + 1)]
    intro j hj
    have := h (j + 1) (by omega)
    rw [show a + 1 + j = a + (j + 1) by ring, show b + 1 + j = b + (j + 1) by ring]
    exact this

theorem rowsFrom_const (f : Field) (a k : Nat) (r : List Char)
    (h : ∀ j, j < k → interiorRow f (a + j) = r) :
    rowsFrom f a k = List.replicate k r := by
  induction k generalizing a with
  | zero => rfl
  | succ k ih =>
    unfold rowsFrom at ih ⊢
    rw [List.range'_succ, List.map_cons, List.replicate_succ]
    have h0 := h 0 (by omega)
    simp only [add_zero] at h0
    rw [h0, ih (a + 1)]
    intro j hj
    have := h (j + 1) (by omega)
    rw [show a + 1 + j = a + (j + 1) by ring]
    exact this

theorem mem_rowsFrom (f : Field) (a k : Nat) (r : List Char) :
    r ∈ rowsFrom f a k ↔ ∃ y, a ≤ y ∧ y < a + k ∧ interiorRow f y = r := by
  unfold rowsFrom
  simp only [List.mem_map, List.mem_range'_1]
  constructor
  · rintro ⟨y, ⟨h1, h2⟩, h3⟩; exact ⟨y, h1, h2, h3⟩
  · rintro ⟨y, h1, h2, h3⟩; exact ⟨y, ⟨h1, h2⟩, h3⟩

end CTetris

namespace CTetris

/-! ## clearLinesFromField removes the marked rows -/

theorem clearLinesLoop_done (fuel iters : Nat) (field : Field) (k L : Int) (hk : ¬ k > 0) :
    clearLinesLoop fuel iters field k L = some field := by
  cases iters <;> simp [clearLinesLoop, hk]

/-- The rows of the field after one move-down by `n` rows over the rows `0..L`. -/
theorem moveDown_rows (field : Field) (n L : Nat) (hn : 1 ≤ n) (hL : L ≤ 16)
    (hlen : field.length = FIELD_LENGTH) (h0 : interiorRow field 0 = emptyRow) :
    ∃ field1, moveDown (n : Int) (L + 1) field = some field1 ∧
      field1.length = FIELD_LENGTH ∧
      (∀ y, y ≤ L → y < n → interiorRow field1 y = emptyRow) ∧
      (∀ y, y ≤ L → n ≤ y → interiorRow field1 y = interiorRow field (y - n)) ∧
      (∀ y, L < y → interiorRow field1 y = interiorRow field y) ∧
      (∀ i : Int, ¬ (0 ≤ i ∧ i < ((L : Int) + 1) * 12 ∧ 1 ≤ i % 12 ∧ i % 12 ≤ 10) →
        readField field1 i = readField field i) := by
  obtain ⟨field1, e1, e2, e3⟩ := moveDown_spec n hn (L + 1) (by omega) field hlen
  have hblank : ∀ y, y ≤ L → y ≤ n → interiorRow field1 y = emptyRow := by
    intro y hy hyn
    apply interiorRow_eq_replicate
    intro x hx1 hx2
    rw [e3, if_pos (by push_cast; omega), if_pos (by omega)]
  refine ⟨field1, e1, e2, fun y hy hyn => hblank y hy (by omega), ?_, ?_, ?_⟩
  · intro y hy hyn
    by_cases hyn2 : y = n
    · rw [hblank y hy (by omega), hyn2, Nat.sub_self, h0]
    · apply interiorRow_congr
      intro x hx1 hx2
      rw [e3, if_pos (by push_cast; omega), if_neg (by omega)]
      congr 1
      push_cast [Nat.cast_sub hyn]
      ring
  · intro y hy
    apply interiorRow_congr
    intro x hx1 hx2
    rw [e3, if_neg (by push_cast; omega)]
  · intro i hi
    rw [e3, if_neg (by push_cast; exact hi)]

theorem countP_replicate_marked (n : Nat) :
    (List.replicate n markedRow).countP (fun r => r == markedRow) = n := by
  induction n with
  | zero => rfl
  | succ n ih => rw [List.replicate_succ, List.countP_cons_of_pos _ _ (by simp), ih]

theorem countP_replicate_empty (n : Nat) :
    (List.replicate n emptyRow).countP (fun r => r == markedRow) = 0 := by
  rw [List.countP_eq_zero]
  intro r hr
  rw [List.eq_of_mem_replicate hr]
  simpa using emptyRow_ne_markedRow

theorem filter_replicate_marked (n : Nat) :
    (List.replicate n markedRow).filter (fun r => r != markedRow) = [] := by
  rw [List.filter_eq_nil_iff]
  intro r hr
  rw [List.eq_of_mem_replicate hr]
  simp

theorem filter_replicate_empty (n : Nat) :
    (List.replicate n emptyRow).filter (fun r => r != markedRow) = List.replicate n emptyRow := by
  rw [List.filter_eq_self]
  intro r hr
  rw [List.eq_of_mem_replicate hr]
  simpa using emptyRow_ne_markedRow

theorem filter_of_countP_zero (l : List (List Char))
    (h : l.countP (fun r => r == markedRow) = 0) :
    l.filter (fun r => r != markedRow) = l := by
  rw [List.filter_eq_self]
  intro r hr
  rw [List.countP_eq_zero] at h
  have := h r hr
  simpa using this

end CTetris

namespace CTetris

theorem interiorRows_split (field : Field) (a c : Nat) :
    interiorRows field (a + c) = interiorRows field a ++ rowsFrom field a c := by
  unfold interiorRows
  rw [rowsFrom_append, Nat.zero_add]

/-- The loop of `clearLinesFromField` started at a marked row `L` with `numLinesToClear` the
number of marked rows among the rows `0..L`: it returns, the rows `0..L` become that many
empty rows followed by the unmarked rows in their order, and nothing else changes. -/
theorem clearLinesLoop_spec (fuel : Nat) (hfuel : 17 ≤ fuel) :
    ∀ (iters : Nat) (field : Field) (L : Nat),
      field.length = FIELD_LENGTH → interiorRow field 0 = emptyRow → MarksAreRows field →
      L ≤ 16 → interiorRow field L = markedRow →
      (interiorRows field (L + 1)).countP (fun r => r == markedRow) ≤ iters →
      ∃ field',
        clearLinesLoop fuel iters field
          (((interiorRows field (L + 1)).countP (fun r => r == markedRow) : Nat) : Int)
          (L : Int) = some field' ∧
        field'.length = FIELD_LENGTH ∧
        interiorRows field' (L + 1) =
          List.replicate ((interiorRows field (L + 1)).countP (fun r => r == markedRow)) emptyRow
            ++ (interiorRows field (L + 1)).filter (fun r => r != markedRow) ∧
        (∀ i : Int, ¬ (0 ≤ i ∧ i < ((L : Int) + 1) * 12 ∧ 1 ≤ i % 12 ∧ i % 12 ≤ 10) →
          readField field' i = readField field i) := by
  intro iters
  induction iters with
  | zero =>
    intro field L _ _ _ _ hmark hk
    exfalso
    have hmem : interiorRow field L ∈ interiorRows field (L + 1) := by
      unfold interiorRows
      rw [mem_rowsFrom]
      exact ⟨L, by omega, by omega, rfl⟩
    have hpos : 0 < (interiorRows field (L + 1)).countP (fun r => r == markedRow) :=
      List.countP_pos_iff.mpr ⟨_, hmem, by simp [hmark]⟩
    omega
  | succ m ih =>
    intro field L hlen h0 hm hL hmark hk
    have hW : ((FIELD_WIDTH : Nat) : Int) = 12 := rfl
    -- row 0 is not marked, so `L ≥ 1`
    have hL1 : 1 ≤ L := by
      by_contra hcon
      have : L = 0 := by omega
      rw [this, h0] at hmark
      exact emptyRow_ne_markedRow hmark
    have h01 : readField field 1 ≠ some '=' := by
      have := read_of_interiorRow_eq_replicate field 0 ' ' h0 1 (by omega) (by omega)
      simp only [Nat.cast_zero, zero_mul, zero_add] at this
      rw [this]; decide
    -- the scan for contiguous marked rows
    obtain ⟨r', hr', hcc, hstop, hrun⟩ :=
      countContiguous_spec field hlen h01 (L - 1) (by omega) fuel 1 (by omega)
    have hrun' : ∀ y, r' < y → y ≤ L → interiorRow field y = markedRow := by
      intro y hy1 hy2
      by_cases hyL : y = L
      · rw [hyL]; exact hmark
      · exact (col1_marked_iff field hm y (by omega)).mp (hrun y hy1 (by omega))
    have hstop' : interiorRow field r' ≠ markedRow := fun h =>
      hstop ((col1_marked_iff field hm r' (by omega)).mpr h)
    obtain ⟨n, hn⟩ : ∃ n : Nat, n = L - r' := ⟨_, rfl⟩
    have hn1 : 1 ≤ n := by omega
    have hLn : L + 1 = (r' + 1) + n := by omega
    have hLn' : L + 1 = n + (r' + 1) := by omega
    have hcc' : countContiguous field fuel (((L : Int) - 1) * FIELD_WIDTH + 1) 1 = some (n : Int) := by
      have e1 : ((L - 1 : Nat) : Int) = (L : Int) - 1 := by omega
      rw [e1] at hcc
      rw [hcc]
      congr 1
      omega
    -- the move-down
    obtain ⟨field1, hmd, hlen1, hR1, hR2, hR3, hR4⟩ := moveDown_rows field n L hn1 hL hlen h0
    -- the rows before and after
    have hsplit : interiorRows field (L + 1) =
        rowsFrom field 0 (r' + 1) ++ List.replicate n markedRow := by
      unfold interiorRows
      rw [hLn, rowsFrom_append, Nat.zero_add]
      congr 1
      apply rowsFrom_const
      intro j hj
      exact hrun' _ (by omega) (by omega)
    have hrows1 : interiorRows field1 (L + 1) =
        List.replicate n emptyRow ++ rowsFrom field 0 (r' + 1) := by
      unfold interiorRows
      rw [hLn', rowsFrom_append, Nat.zero_add]
      congr 1
      · apply rowsFrom_const
        intro j hj
        exact hR1 _ (by omega) (by omega)
      · apply rowsFrom_shift
        intro j hj
        rw [hR2 (n + j) (by omega) (by omega)]
        congr 1
        omega
    obtain ⟨k0, hk0⟩ : ∃ k0 : Nat, k0 = (rowsFrom field 0 (r' + 1)).countP (fun r => r == markedRow) :=
      ⟨_, rfl⟩
    have hkn : (interiorRows field (L + 1)).countP (fun r => r == markedRow) = k0 + n := by
      rw [hsplit, List.countP_append, countP_replicate_marked, hk0]
    have hk1 : (interiorRows field1 (L + 1)).countP (fun r => r == markedRow) = k0 := by
      rw [hrows1, List.countP_append, countP_replicate_empty, hk0, Nat.zero_add]
    rw [hkn] at hk ⊢
    have hpos : ((k0 + n : Nat) : Int) > 0 := by omega
    have hsubk : ((k0 + n : Nat) : Int) - (n : Int) = (k0 : Int) := by push_cast; ring
    have htoNat : ((L : Int) + 1).toNat = L + 1 := by omega
    unfold clearLinesLoop
    simp only [hpos, if_true, hcc', Option.bind_eq_bind, Option.some_bind, htoNat, hmd, hsubk]
    by_cases hk0z : k0 = 0
    · -- all marked rows were in this run
      have hnot : ¬ ((k0 : Int) > 0) := by omega
      rw [if_neg hnot, clearLinesLoop_done _ _ _ _ _ hnot]
      refine ⟨field1, rfl, hlen1, ?_, hR4⟩
      rw [hrows1, hsplit, List.filter_append, filter_replicate_marked, List.append_nil,
        filter_of_countP_zero _ (by rw [← hk0, hk0z]), hk0z, Nat.zero_add]
    · have hgt : (k0 : Int) > 0 := by omega
      rw [if_pos hgt]
      -- markers still fill whole rows
      have hm1 : MarksAreRows field1 := by
        intro y hy hmem
        simp only [FIELD_HEIGHT] at hy
        by_cases hyL : y ≤ L
        · by_cases hyn : y < n
          · rw [hR1 y hyL hyn] at hmem
            exact absurd hmem (by decide)
          · rw [hR2 y hyL (by omega)] at hmem ⊢
            exact hm _ (by simp only [FIELD_HEIGHT]; omega) hmem
        · rw [hR3 y (by omega)] at hmem ⊢
          exact hm _ (by simp only [FIELD_HEIGHT]; omega) hmem
      -- a marked row remains below `L`
      have hex : ∃ r : Nat, r < L ∧ readField field1 ((r : Int) * FIELD_WIDTH + 1) = some '=' := by
        have hp : 0 < (rowsFrom field 0 (r' + 1)).countP (fun r => r == markedRow) := by omega
        obtain ⟨a, ha, hae⟩ := List.countP_pos_iff.mp hp
        rw [mem_rowsFrom] at ha
        obtain ⟨y0, _, hy0, hy0r⟩ := ha
        have hae' : a = markedRow := by simpa using hae
        have hy0ne : y0 ≠ r' := by
          rintro rfl
          exact hstop' (hy0r.trans hae')
        refine ⟨y0 + n, by omega, ?_⟩
        rw [col1_marked_iff field1 hm1 (y0 + n) (by omega), hR2 (y0 + n) (by omega) (by omega)]
        rw [show y0 + n - n = y0 by omega, hy0r, hae']
      obtain ⟨L1, hL1L, hfind, hL1m, hgap⟩ :=
        findNextLine_spec field1 hlen1 L (by omega) fuel (by omega) hex
      have hL1m' : interiorRow field1 L1 = markedRow :=
        (col1_marked_iff field1 hm1 L1 (by omega)).mp hL1m
      -- the rows between `L1` and `L` are not marked
      have hB : (rowsFrom field1 (L1 + 1) (L - L1)).countP (fun r => r == markedRow) = 0 := by
        rw [List.countP_eq_zero]
        intro r hr
        rw [mem_rowsFrom] at hr
        obtain ⟨y, hy1, hy2, rfl⟩ := hr
        have : interiorRow field1 y ≠ markedRow := by
          by_cases hyL : y = L
          · rw [hyL, hR2 L (by omega) (by omega), show L - n = r' by omega]
            exact hstop'
          · exact fun h => hgap y (by omega) (by omega)
              ((col1_marked_iff field1 hm1 y (by omega)).mpr h)
        simpa using this
      have hsplit1 : interiorRows field1 (L + 1) =
          interiorRows field1 (L1 + 1) ++ rowsFrom field1 (L1 + 1) (L - L1) := by
        rw [show L + 1 = (L1 + 1) + (L - L1) by omega]
        exact interiorRows_split _ _ _
      have hkA : (interiorRows field1 (L1 + 1)).countP (fun r => r == markedRow) = k0 := by
        have := hk1
        rw [hsplit1, List.countP_append, hB, Nat.add_zero] at this
        exact this
      obtain ⟨field', e1, e2, e3, e4⟩ := ih field1 L1 hlen1 (hR1 0 (by omega) (by omega)) hm1
        (by omega) hL1m' (by omega)
      rw [hkA] at e1 e3
      rw [hfind]
      simp only [Option.some_bind]
      refine ⟨field', e1, e2, ?_, ?_⟩
      · have hframe : rowsFrom field' (L1 + 1) (L - L1) = rowsFrom field1 (L1 + 1) (L - L1) := by
          apply rowsFrom_shift
          intro j hj
          apply interiorRow_congr
          intro x hx1 hx2
          apply e4
          push_cast
          omega
        have hsplit' : interiorRows field' (L + 1) =
            interiorRows field' (L1 + 1) ++ rowsFrom field' (L1 + 1) (L - L1) := by
          rw [show L + 1 = (L1 + 1) + (L - L1) by omega]
          exact interiorRows_split _ _ _
        rw [hsplit', e3, hframe, List.append_assoc,
          ← filter_of_countP_zero (rowsFrom field1 (L1 + 1) (L - L1)) hB, ← List.filter_append,
          ← hsplit1, hrows1, hsplit, List.filter_append, List.filter_append,
          filter_replicate_empty, filter_replicate_marked, List.append_nil, ← List.append_assoc,
          ← List.replicate_add]
      · intro i hi
        rw [e4 i (by omega), hR4 i hi]

end CTetris

namespace CTetris

theorem mem_markedRows (field : Field) (y : Nat) :
    y ∈ markedRows field ↔ y ≤ 16 ∧ interiorRow field y = markedRow := by
  unfold markedRows
  simp only [List.mem_filter, List.mem_range, decide_eq_true_eq, FIELD_HEIGHT]
  constructor
  · rintro ⟨h1, h2⟩; exact ⟨by omega, h2⟩
  · rintro ⟨h1, h2⟩; exact ⟨by omega, h2⟩

theorem markedRows_length (field : Field) (L : Nat) (hL : L ≤ 16)
    (hmax : ∀ y ∈ markedRows field, y ≤ L) :
    (markedRows field).length =
      (interiorRows field (L + 1)).countP (fun r => r == markedRow) := by
  unfold markedRows interiorRows rowsFrom
  rw [List.countP_map, List.countP_eq_length_filter]
  have h17 : FIELD_HEIGHT - 1 = (16 - L) + (L + 1) := by simp only [FIELD_HEIGHT]; omega
  have hsplit : List.range' 0 ((16 - L) + (L + 1)) =
      List.range' 0 (L + 1) ++ List.range' (0 + (L + 1)) (16 - L) :=
    (List.range'_append_1 0 (L + 1) (16 - L)).symm
  rw [h17, List.range_eq_range', hsplit, List.filter_append]
  have hnil : (List.range' (0 + (L + 1)) (16 - L)).filter
      (fun y => decide (interiorRow field y = markedRow)) = [] := by
    rw [List.filter_eq_nil_iff]
    intro y hy hdec
    rw [List.mem_range'_1] at hy
    have := hmax y ((mem_markedRows field y).mpr ⟨by omega, by simpa using hdec⟩)
    omega
  rw [hnil, List.append_nil]
  congr 1
  apply List.filter_congr
  intro y _
  exact (Bool.beq_eq_decide_eq _ _).symm

/-- C1: for a field with intact border whose interior row 0 is empty, in which `'='` occurs
only in fully marked interior rows, and whose non-empty set `M` of marked rows lies in rows
`2..16`, `clearLinesFromField(field, |M|, max M)` returns a field whose interior rows
`0..max M` are `|M|` empty rows followed by the original unmarked rows `0..max M` in their
original order, with no `'='` left, and with every row below `max M` and every border cell
unchanged.  `M` may consist of several contiguous runs. -/
theorem clearLinesFromField_spec (field : Field) (hlen : field.length = FIELD_LENGTH)
    (hb : BorderIntact field) (h0 : interiorRow field 0 = emptyRow) (hm : MarksAreRows field)
    (hrange : ∀ y ∈ markedRows field, 2 ≤ y ∧ y ≤ 16)
    (L : Nat) (hL : L ∈ markedRows field) (hmax : ∀ y ∈ markedRows field, y ≤ L)
    (fuel : Nat) (hfuel : 17 ≤ fuel) :
    ∃ field', clearLinesFromField fuel field ((markedRows field).length : Int) (L : Int) =
        some field' ∧
      field'.length = FIELD_LENGTH ∧
      interiorRows field' (L + 1) =
        List.replicate (markedRows field).length emptyRow ++
          (interiorRows field (L + 1)).filter (fun r => r != markedRow) ∧
      '=' ∉ field' ∧
      ∀ x y : Nat, x < 12 → y < 18 → (L < y ∨ x = 0 ∨ x = 11 ∨ y = 17) →
        field'[y * 12 + x]? = field[y * 12 + x]? := by
  have hL16 : L ≤ 16 := (hrange L hL).2
  have hLm : interiorRow field L = markedRow := ((mem_markedRows field L).mp hL).2
  have hcount := markedRows_length field L hL16 hmax
  have hle : (interiorRows field (L + 1)).countP (fun r => r == markedRow) ≤ fuel := by
    have := List.countP_le_length (fun r => r == markedRow) (l := interiorRows field (L + 1))
    unfold interiorRows at this
    rw [rowsFrom_length] at this
    unfold interiorRows
    omega
  obtain ⟨field', e1, e2, e3, e4⟩ :=
    clearLinesLoop_spec fuel hfuel fuel field L hlen h0 hm hL16 hLm hle
  have hframe : ∀ x y : Nat, x < 12 → y < 18 → (L < y ∨ x = 0 ∨ x = 11 ∨ y = 17) →
      field'[y * 12 + x]? = field[y * 12 + x]? := by
    intro x y hx hy hout
    have := e4 ((y * 12 + x : Nat) : Int) (by push_cast; omega)
    rw [readField_natCast, readField_natCast] at this
    exact this
  rw [← hcount] at e1 e3
  refine ⟨field', e1, e2, e3, ?_, hframe⟩
  intro hmem
  obtain ⟨i, hi⟩ := List.mem_iff_getElem?.mp hmem
  have hi216 : i < 216 := by
    have := (List.getElem?_eq_some_iff.mp hi).1
    rw [e2] at this
    simpa [FIELD_LENGTH, FIELD_WIDTH, FIELD_HEIGHT] using this
  obtain ⟨x, y, hx, hy, rfl⟩ : ∃ x y : Nat, x < 12 ∧ y < 18 ∧ i = y * 12 + x :=
    ⟨i % 12, i / 12, by omega, by omega, by omega⟩
  by_cases hbd : x = 0 ∨ x = 11 ∨ y = 17
  · rw [hframe x y hx hy (Or.inr hbd)] at hi
    have := hb x (by simp only [FIELD_WIDTH]; omega) y (by simp only [FIELD_HEIGHT]; omega)
      (by simp only [FIELD_WIDTH, FIELD_HEIGHT]; omega)
    simp only [FIELD_WIDTH] at this
    rw [this] at hi
    simp at hi
  · have hrd : readField field' ((y : Int) * 12 + (x : Int)) = some '=' := by
      have : (y : Int) * 12 + (x : Int) = ((y * 12 + x : Nat) : Int) := by push_cast; ring
      rw [this, readField_natCast]; exact hi
    rw [interiorRow_read field' y x (by omega) (by omega)] at hrd
    have hin : '=' ∈ interiorRow field' y := List.getElem?_mem hrd
    have hunmarked : ∀ r, r ∈ interiorRows field (L + 1) → r ≠ markedRow → '=' ∉ r := by
      intro r hr hne hmr
      unfold interiorRows at hr
      rw [mem_rowsFrom] at hr
      obtain ⟨y', _, hy', rfl⟩ := hr
      exact hne (hm y' (by simp only [FIELD_HEIGHT]; omega) hmr)
    by_cases hyL : y ≤ L
    · have hrow : interiorRow field' y ∈ interiorRows field' (L + 1) := by
        unfold interiorRows
        rw [mem_rowsFrom]
        exact ⟨y, by omega, by omega, rfl⟩
      rw [e3, List.mem_append] at hrow
      rcases hrow with h1 | h1
      · rw [List.eq_of_mem_replicate h1] at hin
        exact absurd hin (by decide)
      · rw [List.mem_filter] at h1
        exact hunmarked _ h1.1 (by simpa using h1.2) hin
    · have hsame : interiorRow field' y = interiorRow field y := by
        apply interiorRow_congr
        intro x' hx1 hx2
        apply e4
        omega
      rw [hsame] at hin
      have := hm y (by simp only [FIELD_HEIGHT]; omega) hin
      have := hmax y ((mem_markedRows field y).mpr ⟨by omega, this⟩)
      omega

theorem clearLinesFromField_spec_witness :
    sampleMarkedField.length = FIELD_LENGTH ∧ BorderIntact sampleMarkedField ∧
    interiorRow sampleMarkedField 0 = emptyRow ∧ MarksAreRows sampleMarkedField ∧
    markedRows sampleMarkedField = [14, 16] ∧
    clearLinesFromField 17 sampleMarkedField 2 16 =
      some (fieldOfRows [
        "#          #",
        "#          #",
        "#          #",
        "#          #",
        "#          #",
        "#          #",
        "#          #",
        "#          #",
        "#          #",
        "#          #",
        "#          #",
        "#          #",
        "#          #",
        "#          #",
        "#  LL      #",
        "#  L  J   I#",
        "# ZZSSTTTOI#",
        "############" ]) ∧
    ∃ field', clearLinesFromField 17 sampleMarkedField
        ((markedRows sampleMarkedField).length : Int) ((16 : Nat) : Int) = some field' ∧
      field'.length = FIELD_LENGTH ∧
      interiorRows field' (16 + 1) =
        List.replicate (markedRows sampleMarkedField).length emptyRow ++
          (interiorRows sampleMarkedField (16 + 1)).filter (fun r => r != markedRow) ∧
      '=' ∉ field' ∧
      ∀ x y : Nat, x < 12 → y < 18 → (16 < y ∨ x = 0 ∨ x = 11 ∨ y = 17) →
        field'[y * 12 + x]? = sampleMarkedField[y * 12 + x]? :=
  ⟨by decide!, by decide!, by decide!, by decide!, by decide!, by decide!,
    clearLinesFromField_spec sampleMarkedField (by decide!) (by decide!) (by decide!)
      (by decide!) (by decide!) 16 (by decide!) (by decide!) 17 (by decide)⟩

end CTetris

namespace CTetris

/-! ## One iteration of the game loop -/

theorem scoreAndClear_zero (g : Game) (L : Int) : scoreAndClear g 0 L = some g := by
  simp [scoreAndClear]

/-- The forced descent, case by case. -/
theorem forceDownward_cases (field : Field) (t : tetromino) (force : Bool) (numTicks : Int)
    (t2 : tetromino) (fix : Bool) (nt : Int)
    (h : forceDownward field t force numTicks = some (t2, fix, nt)) :
    (force = false ∧ t2 = t ∧ fix = false ∧ nt = numTicks) ∨
    (force = true ∧ pieceCanFit field { t with y := t.y + 1 } = some true ∧
      t2 = { t with y := t.y + 1 } ∧ fix = false ∧ nt = 0) ∨
    (force = true ∧ pieceCanFit field { t with y := t.y + 1 } = some false ∧
      t2 = t ∧ fix = true ∧ nt = 0) := by
  unfold forceDownward at h
  cases force with
  | false =>
    simp only [Bool.false_eq_true, if_false, Option.pure_def, Option.some.injEq,
      Prod.mk.injEq] at h
    exact Or.inl ⟨rfl, h.1.symm, h.2.1.symm, h.2.2.symm⟩
  | true =>
    simp only [if_true, Option.bind_eq_bind] at h
    cases hf : pieceCanFit field { t with y := t.y + 1 } with
    | none => simp [hf] at h
    | some b =>
      cases b with
      | true =>
        simp only [hf, Option.some_bind, Bool.not_true, Bool.false_eq_true, if_false,
          Option.pure_def, Option.some.injEq, Prod.mk.injEq] at h
        exact Or.inr (Or.inl ⟨rfl, rfl, h.1.symm, h.2.1.symm, h.2.2.symm⟩)
      | false =>
        simp only [hf, Option.some_bind, Bool.not_false, if_true,
          Option.pure_def, Option.some.injEq, Prod.mk.injEq] at h
        refine Or.inr (Or.inr ⟨rfl, rfl, ?_, h.2.1.symm, h.2.2.symm⟩)
        rw [← h.1]
        cases t
        simp

/-- What `scoreAndClear` changes. -/
theorem scoreAndClear_cases (g g' : Game) (n L : Int) (h : scoreAndClear g n L = some g') :
    (¬ n > 0 ∧ g' = g) ∨
    (n > 0 ∧ clearLinesFromField FIELD_LENGTH g.field n L = some g'.field ∧ g'.t = g.t ∧
      g'.pieceBag = g.pieceBag ∧ g'.currentBagIndex = g.currentBagIndex ∧
      g'.currentPieceNum = g.currentPieceNum ∧ g'.gameOver = g.gameOver ∧
      g'.numTicks = g.numTicks) := by
  unfold scoreAndClear at h
  by_cases hn : n > 0
  · right
    simp only [hn, if_true, Option.bind_eq_bind, Option.pure_def] at h
    cases hc : clearLinesFromField FIELD_LENGTH g.field n L with
    | none => simp [hc] at h
    | some field' =>
      simp only [hc, Option.some_bind, Option.some.injEq] at h
      subst h
      exact ⟨hn, rfl, rfl, rfl, rfl, rfl, rfl, rfl⟩
  · left
    simp only [hn, if_false, Option.pure_def, Option.some.injEq] at h
    exact ⟨hn, h.symm⟩

/-- The paths through one iteration of the game loop. -/
theorem tick_cases (g g' : Game) (key : Key) (rnd : Nat → Nat) (h : tick g key rnd = some g') :
    ∃ t1 force t2 fix nt,
      processInput g.field g.t (decide (g.numTicks ≥ g.maxTicksPerLine)) key =
        some (t1, force) ∧
      forceDownward g.field t1 force g.numTicks = some (t2, fix, nt) ∧
      ((fix = false ∧ g' = { g with t := t2, numTicks := nt + 1 }) ∨
       (fix = true ∧ t2.y ≤ 1 ∧ g' = { g with t := t2, numTicks := nt + 1, gameOver := true }) ∨
       (fix = true ∧ ¬ t2.y ≤ 1 ∧
         ∃ field1 field2 n L pieceBag currentBagIndex currentPieceNum tnew gmid,
           lockPiece g.field t2 = some field1 ∧
           checkLines field1 t2 = some (field2, n, L) ∧
           nextPiece rnd g.pieceBag g.currentBagIndex =
             some (pieceBag, currentBagIndex, currentPieceNum, tnew) ∧
           scoreAndClear { g with
               t := tnew, numTicks := nt, field := field2, pieceBag := pieceBag,
               currentBagIndex := currentBagIndex, currentPieceNum := currentPieceNum }
             n L = some gmid ∧
           g' = { gmid with numTicks := gmid.numTicks + 1 })) := by
  unfold tick at h
  simp only [Option.bind_eq_bind] at h
  cases hpi : processInput g.field g.t (decide (g.numTicks ≥ g.maxTicksPerLine)) key with
  | none => simp [hpi] at h
  | some r1 =>
    obtain ⟨t1, force⟩ := r1
    simp only [hpi, Option.some_bind] at h
    cases hfd : forceDownward g.field t1 force g.numTicks with
    | none => simp [hfd] at h
    | some r2 =>
      obtain ⟨t2, fix, nt⟩ := r2
      simp only [hfd, Option.some_bind] at h
      refine ⟨t1, force, t2, fix, nt, rfl, hfd, ?_⟩
      cases fix with
      | false =>
        left
        simp only [Bool.not_false, if_true, Option.pure_def, Option.some_bind,
          scoreAndClear_zero, Option.some.injEq] at h
        exact ⟨rfl, h.symm⟩
      | true =>
        right
        by_cases hy : t2.y ≤ 1
        · left
          simp only [Bool.not_true, Bool.false_eq_true, if_false, hy, if_true, Option.pure_def,
            Option.some_bind, scoreAndClear_zero, Option.some.injEq] at h
          exact ⟨rfl, hy, h.symm⟩
        · right
          simp only [Bool.not_true, Bool.false_eq_true, if_false, hy, Option.pure_def] at h
          cases hl : lockPiece g.field t2 with
          | none => simp [hl] at h
          | some field1 =>
            simp only [hl, Option.some_bind] at h
            cases hc : checkLines field1 t2 with
            | none => simp [hc] at h
            | some r3 =>
              obtain ⟨field2, n, L⟩ := r3
              simp only [hc, Option.some_bind] at h
              cases hnp : nextPiece rnd g.pieceBag g.currentBagIndex with
              | none => simp [hnp] at h
              | some r4 =>
                obtain ⟨pieceBag, currentBagIndex, currentPieceNum, tnew⟩ := r4
                simp only [hnp, Option.some_bind] at h
                cases hsc : scoreAndClear { g with
                    t := tnew, numTicks := nt, field := field2, pieceBag := pieceBag,
                    currentBagIndex := currentBagIndex, currentPieceNum := currentPieceNum }
                  n L with
                | none => simp [hsc] at h
                | some gmid =>
                  simp only [hsc, Option.some_bind, Option.some.injEq] at h
                  exact ⟨rfl, hy, field1, field2, n, L, pieceBag, currentBagIndex,
                    currentPieceNum, tnew, gmid, rfl, hc, rfl, hsc, h.symm⟩

/-- C9: when a forced descent is attempted and fails `pieceCanFit`, and the piece's `y` after
the revert is `≤ 1`, the tick sets game-over and leaves the field unchanged, and score, lines
cleared, level, the bag and its cursor are unchanged too; when such a failed descent happens
with `y ≥ 2` the tick does not set game-over. -/
theorem tick_failed_descent (g : Game) (key : Key) (rnd : Nat → Nat) (t1 : tetromino)
    (hpi : processInput g.field g.t (decide (g.numTicks ≥ g.maxTicksPerLine)) key =
      some (t1, true))
    (hfail : pieceCanFit g.field { t1 with y := t1.y + 1 } = some false) :
    (t1.y ≤ 1 →
      ∃ g', tick g key rnd = some g' ∧ g'.gameOver = true ∧ g'.field = g.field ∧
        g'.t = t1 ∧ g'.score = g.score ∧
        g'.totalNumLinesCleared = g.totalNumLinesCleared ∧ g'.level = g.level ∧
        g'.pieceBag = g.pieceBag ∧ g'.currentBagIndex = g.currentBagIndex) ∧
    (2 ≤ t1.y → ∀ g', tick g key rnd = some g' → g'.gameOver = g.gameOver) := by
  have hrevert : ({ t1 with y := t1.y + 1 - 1 } : tetromino) = t1 := by
    cases t1; simp
  have hfd : forceDownward g.field t1 true g.numTicks = some (t1, true, 0) := by
    simp [forceDownward, hfail, hrevert]
  constructor
  · intro hy
    refine ⟨{ g with t := t1, numTicks := 0 + 1, gameOver := true }, ?_, rfl, rfl, rfl, rfl,
      rfl, rfl, rfl, rfl⟩
    simp [tick, hpi, hfd, hy, scoreAndClear_zero]
  · intro hy g' hg'
    obtain ⟨t1', force, t2, fix, nt, h1, h2, h3⟩ := tick_cases g g' key rnd hg'
    rw [hpi] at h1
    simp only [Option.some.injEq, Prod.mk.injEq] at h1
    obtain ⟨rfl, rfl⟩ := h1
    rw [hfd] at h2
    simp only [Option.some.injEq, Prod.mk.injEq] at h2
    obtain ⟨rfl, rfl, rfl⟩ := h2
    rcases h3 with ⟨hfix, _⟩ | ⟨_, hy1, _⟩ | ⟨_, _, field1, field2, n, L, bag, idx, num, tnew,
      gmid, _, _, _, hsc, rfl⟩
    · simp at hfix
    · omega
    · rcases scoreAndClear_cases _ _ _ _ hsc with ⟨_, rfl⟩ | ⟨_, _, _, _, _, _, hgo, _⟩
      · rfl
      · exact hgo

end CTetris

namespace CTetris

/-! ## Frames: what the loop may write -/

theorem Frame.refl (f : Field) : Frame f f := ⟨rfl, fun _ _ => rfl⟩

theorem Frame.trans {f g h : Field} (h1 : Frame f g) (h2 : Frame g h) : Frame f h :=
  ⟨h2.1.trans h1.1, fun i hi => (h2.2 i hi).trans (h1.2 i hi)⟩

theorem Frame.border {f f' : Field} (h : Frame f f') (hb : BorderIntact f) : BorderIntact f' := by
  intro x hx y hy hxy
  simp only [FIELD_WIDTH, FIELD_HEIGHT] at hx hy hxy ⊢
  have := h.2 ((y * 12 + x : Nat) : Int) (by push_cast; omega)
  rw [readField_natCast, readField_natCast] at this
  rw [this]
  exact hb x (by simp only [FIELD_WIDTH]; omega) y (by simp only [FIELD_HEIGHT]; omega)
    (by simp only [FIELD_WIDTH, FIELD_HEIGHT]; omega)

theorem Frame.write (f f' : Field) (i : Int) (c : Char) (h : writeField f i c = some f')
    (hi : 0 ≤ i ∧ i < 17 * 12 ∧ 1 ≤ i % 12 ∧ i % 12 ≤ 10) : Frame f f' := by
  obtain ⟨h1, _, _, h4⟩ := writeField_spec f f' i c h
  refine ⟨h1, fun j hj => ?_⟩
  rw [h4, if_neg]
  rintro rfl
  exact hj hi

theorem Frame.foldlM {α : Type} (step : Field → α → Option Field) :
    ∀ (l : List α) (f f' : Field), (∀ a ∈ l, ∀ s s', step s a = some s' → Frame s s') →
      l.foldlM step f = some f' → Frame f f' := by
  intro l
  induction l with
  | nil =>
    intro f f' _ h
    simp only [List.foldlM_nil, Option.pure_def, Option.some.injEq] at h
    subst h
    exact Frame.refl f
  | cons a l ih =>
    intro f f' hstep h
    simp only [List.foldlM_cons, Option.bind_eq_bind] at h
    cases hs : step f a with
    | none => simp [hs] at h
    | some f1 =>
      simp only [hs, Option.some_bind] at h
      exact (hstep a (List.mem_cons_self a l) f f1 hs).trans
        (ih f1 f' (fun b hb => hstep b (List.mem_cons_of_mem a hb)) h)

theorem moveDownRow_frame (n : Int) (y : Nat) (hy : y ≤ 16) (f f' : Field)
    (h : moveDownRow n (y : Int) f = some f') : Frame f f' := by
  unfold moveDownRow at h
  apply Frame.foldlM _ _ f f' _ h
  intro x hx s s' hs
  rw [List.mem_range'_1] at hx
  simp only [FIELD_WIDTH] at hx
  have hidx : 0 ≤ (y : Int) * (FIELD_WIDTH : Nat) + (x : Int) ∧
      (y : Int) * (FIELD_WIDTH : Nat) + (x : Int) < 17 * 12 ∧
      1 ≤ ((y : Int) * (FIELD_WIDTH : Nat) + (x : Int)) % 12 ∧
      ((y : Int) * (FIELD_WIDTH : Nat) + (x : Int)) % 12 ≤ 10 := by
    simp only [FIELD_WIDTH]; push_cast; omega
  simp only at hs
  split at hs
  · exact Frame.write _ _ _ _ hs hidx
  · simp only [Option.bind_eq_bind] at hs
    cases hr : readField s ((y : Int) * (FIELD_WIDTH : Nat) + (x : Int) - n * (FIELD_WIDTH : Nat)) with
    | none => simp [hr] at hs
    | some c =>
      simp only [hr, Option.some_bind] at hs
      exact Frame.write _ _ _ _ hs hidx

theorem moveDown_frame (n : Int) :
    ∀ (m : Nat), m ≤ 17 → ∀ (f f' : Field), moveDown n m f = some f' → Frame f f' := by
  intro m
  induction m with
  | zero =>
    intro _ f f' h
    simp only [moveDown, Option.some.injEq] at h
    subst h
    exact Frame.refl f
  | succ m ih =>
    intro hm f f' h
    simp only [moveDown, Option.bind_eq_bind] at h
    cases hr : moveDownRow n (m : Int) f with
    | none => simp [hr] at h
    | some f1 =>
      simp only [hr, Option.some_bind] at h
      exact (moveDownRow_frame n m (by omega) f f1 hr).trans (ih (by omega) f1 f' h)

theorem findNextLine_lt (field : Field) :
    ∀ (fuel : Nat) (L L1 : Int), findNextLine field fuel L = some L1 → L1 < L := by
  intro fuel
  induction fuel with
  | zero => intro L L1 h; simp [findNextLine] at h
  | succ fuel ih =>
    intro L L1 h
    simp only [findNextLine, Option.bind_eq_bind] at h
    cases hr : readField field ((L - 1) * (FIELD_WIDTH : Nat) + 1) with
    | none => simp [hr] at h
    | some c =>
      simp only [hr, Option.some_bind] at h
      split at h
      · have := ih _ _ h; omega
      · simp only [Option.some.injEq] at h; omega

theorem clearLinesLoop_frame (fuel : Nat) :
    ∀ (iters : Nat) (f f' : Field) (k L : Int), L ≤ 16 →
      clearLinesLoop fuel iters f k L = some f' → Frame f f' := by
  intro iters
  induction iters with
  | zero =>
    intro f f' k L _ h
    simp only [clearLinesLoop] at h
    split at h
    · simp at h
    · simp only [Option.some.injEq] at h
      subst h
      exact Frame.refl f
  | succ iters ih =>
    intro f f' k L hL h
    simp only [clearLinesLoop] at h
    split at h
    · simp only [Option.bind_eq_bind] at h
      cases hc : countContiguous f fuel ((L - 1) * (FIELD_WIDTH : Nat) + 1) 1 with
      | none => simp [hc] at h
      | some n =>
        simp only [hc, Option.some_bind] at h
        cases hmd : moveDown n (L + 1).toNat f with
        | none => simp [hmd] at h
        | some f1 =>
          simp only [hmd, Option.some_bind] at h
          have hf1 := moveDown_frame n (L + 1).toNat (by omega) f f1 hmd
          split at h
          · cases hfn : findNextLine f1 fuel L with
            | none => simp [hfn] at h
            | some L1 =>
              simp only [hfn, Option.some_bind] at h
              have := findNextLine_lt f1 fuel L L1 hfn
              exact hf1.trans (ih f1 f' _ L1 (by omega) h)
          · exact hf1.trans (ih f1 f' _ L hL h)
    · simp only [Option.some.injEq] at h
      subst h
      exact Frame.refl f

end CTetris

namespace CTetris

/-! ## The invariant of the game loop -/

/-- The input step keeps the piece's kind and row, and commits a move only if the piece fits. -/
theorem processInput_spec (field : Field) (t t1 : tetromino) (force f1 : Bool) (key : Key)
    (kind : Nat) (ht : IsPiece t kind) (h : processInput field t force key = some (t1, f1)) :
    IsPiece t1 kind ∧ t1.y = t.y ∧ (t1 = t ∨ pieceCanFit field t1 = some true) := by
  obtain ⟨hs1, hs2, hrot⟩ := ht
  have hxl : ({ t with x := t.x - 1 + 1 } : tetromino) = t := by
    cases t; simp
  have hxr : ({ t with x := t.x + 1 - 1 } : tetromino) = t := by
    cases t; simp
  unfold processInput at h
  cases key with
  | left =>
    simp only [Option.bind_eq_bind, Option.pure_def] at h
    cases hf : pieceCanFit field { t with x := t.x - 1 } with
    | none => simp [hf] at h
    | some b =>
      cases b with
      | true =>
        simp [hf] at h
        obtain ⟨rfl, _⟩ := h
        exact ⟨⟨hs1, hs2, hrot⟩, rfl, Or.inr hf⟩
      | false =>
        simp [hf, hxl] at h
        obtain ⟨rfl, _⟩ := h
        exact ⟨⟨hs1, hs2, hrot⟩, rfl, Or.inl rfl⟩
  | right =>
    simp only [Option.bind_eq_bind, Option.pure_def] at h
    cases hf : pieceCanFit field { t with x := t.x + 1 } with
    | none => simp [hf] at h
    | some b =>
      cases b with
      | true =>
        simp [hf] at h
        obtain ⟨rfl, _⟩ := h
        exact ⟨⟨hs1, hs2, hrot⟩, rfl, Or.inr hf⟩
      | false =>
        simp [hf, hxr] at h
        obtain ⟨rfl, _⟩ := h
        exact ⟨⟨hs1, hs2, hrot⟩, rfl, Or.inl rfl⟩
  | down =>
    simp at h
    obtain ⟨rfl, _⟩ := h
    exact ⟨⟨hs1, hs2, hrot⟩, rfl, Or.inl rfl⟩
  | other =>
    simp at h
    obtain ⟨rfl, _⟩ := h
    exact ⟨⟨hs1, hs2, hrot⟩, rfl, Or.inl rfl⟩
  | rotateCCW =>
    have hne : (if t.rot = 0 then 3 else t.rot - 1) ≠ t.rot := by split <;> omega
    have hlt : (if t.rot = 0 then 3 else t.rot - 1) < 4 := by split <;> omega
    simp only [Option.bind_eq_bind, Option.pure_def, Option.some_bind, ne_eq, hne,
      not_false_eq_true, if_true] at h
    cases hf : pieceCanFit field { t with rot := if t.rot = 0 then 3 else t.rot - 1 } with
    | none => simp [hf] at h
    | some b =>
      cases b with
      | true =>
        simp [hf] at h
        obtain ⟨rfl, _⟩ := h
        exact ⟨⟨hs1, hs2, hlt⟩, rfl, Or.inr hf⟩
      | false =>
        simp [hf] at h
        obtain ⟨rfl, _⟩ := h
        exact ⟨⟨hs1, hs2, hrot⟩, rfl, Or.inl rfl⟩
  | rotateCW =>
    have hne : (if t.rot = 3 then 0 else t.rot + 1) ≠ t.rot := by split <;> omega
    have hlt : (if t.rot = 3 then 0 else t.rot + 1) < 4 := by split <;> omega
    simp only [Option.bind_eq_bind, Option.pure_def, Option.some_bind, ne_eq, hne,
      not_false_eq_true, if_true] at h
    cases hf : pieceCanFit field { t with rot := if t.rot = 3 then 0 else t.rot + 1 } with
    | none => simp [hf] at h
    | some b =>
      cases b with
      | true =>
        simp [hf] at h
        obtain ⟨rfl, _⟩ := h
        exact ⟨⟨hs1, hs2, hlt⟩, rfl, Or.inr hf⟩
      | false =>
        simp [hf] at h
        obtain ⟨rfl, _⟩ := h
        exact ⟨⟨hs1, hs2, hrot⟩, rfl, Or.inl rfl⟩

end CTetris

namespace CTetris

theorem shuffleLoop_perm_of_some (rnd : Nat → Nat) :
    ∀ (i : Nat) (bag bag' : List Nat), shuffleLoop rnd i bag = some bag' → bag'.Perm bag := by
  intro i
  induction i with
  | zero =>
    intro bag bag' h
    simp only [shuffleLoop, Option.some.injEq] at h
    subst h
    exact List.Perm.refl _
  | succ i ih =>
    intro bag bag' h
    simp only [shuffleLoop, Option.bind_eq_bind] at h
    cases h1 : bag[i + 1]? with
    | none => simp [h1] at h
    | some temp =>
      cases h2 : bag[rnd (i + 1)]? with
      | none => simp [h1, h2] at h
      | some bj =>
        obtain ⟨hi, rfl⟩ := List.getElem?_eq_some_iff.mp h1
        obtain ⟨hj, rfl⟩ := List.getElem?_eq_some_iff.mp h2
        simp only [h1, h2, Option.some_bind, List.length_set, hj, if_true] at h
        exact (ih _ _ h).trans (swap_perm bag (i + 1) (rnd (i + 1)) hi hj)

theorem spawnPiece_spec (num : Nat) (t : tetromino) (h : spawnPiece num = some t) :
    IsPiece t num ∧ t.x = 4 ∧ t.y = 1 ∧ t.rot = 0 := by
  unfold spawnPiece at h
  simp only [Option.bind_eq_bind, Option.pure_def] at h
  cases h1 : tetrominoSideLengths[num]? with
  | none => simp [h1] at h
  | some sl =>
    cases h2 : tetrominoes[num]? with
    | none => simp [h1, h2] at h
    | some sp =>
      simp only [h1, h2, Option.some_bind, Option.some.injEq] at h
      subst h
      exact ⟨⟨h1, h2, Nat.zero_lt_succ 3⟩, rfl, rfl, rfl⟩

/-- The bag step: the bag stays a permutation of itself, the cursor advances by one or wraps
to `0` with a reshuffle, and the next piece is the one under the cursor. -/
theorem nextPiece_spec (rnd : Nat → Nat) (bag bag' : List Nat) (idx idx' num : Nat)
    (t : tetromino) (h : nextPiece rnd bag idx = some (bag', idx', num, t)) :
    bag'.Perm bag ∧ bag'[idx']? = some num ∧ spawnPiece num = some t ∧
      ((idx + 1 < NUM_TETROMINOES ∧ bag' = bag ∧ idx' = idx + 1) ∨
        (NUM_TETROMINOES ≤ idx + 1 ∧ shuffleArray rnd bag = some bag' ∧ idx' = 0)) := by
  unfold nextPiece at h
  simp only [Option.bind_eq_bind, Option.pure_def] at h
  by_cases hge : idx + 1 ≥ NUM_TETROMINOES
  · simp only [hge, if_true] at h
    cases hs : shuffleArray rnd bag with
    | none => simp [hs] at h
    | some bag2 =>
      simp only [hs, Option.some_bind] at h
      cases h1 : bag2[0]? with
      | none => simp [h1] at h
      | some n1 =>
        simp only [h1, Option.some_bind] at h
        cases h2 : spawnPiece n1 with
        | none => simp [h2] at h
        | some t1 =>
          simp only [h2, Option.some_bind, Option.some.injEq, Prod.mk.injEq] at h
          obtain ⟨rfl, rfl, rfl, rfl⟩ := h
          exact ⟨shuffleLoop_perm_of_some rnd _ _ _ hs, h1, h2, Or.inr ⟨hge, rfl, rfl⟩⟩
  · simp only [hge, if_false, Option.some_bind] at h
    cases h1 : bag[idx + 1]? with
    | none => simp [h1] at h
    | some n1 =>
      simp only [h1, Option.some_bind] at h
      cases h2 : spawnPiece n1 with
      | none => simp [h2] at h
      | some t1 =>
        simp only [h2, Option.some_bind, Option.some.injEq, Prod.mk.injEq] at h
        obtain ⟨rfl, rfl, rfl, rfl⟩ := h
        exact ⟨List.Perm.refl _, h1, h2, Or.inl ⟨by omega, rfl, rfl⟩⟩

theorem lockPiece_frame (field field1 : Field) (t : tetromino) (kind : Nat)
    (hlen : field.length = FIELD_LENGTH) (hb : BorderIntact field) (ht : IsPiece t kind)
    (hfit : pieceCanFit field t = some true) (h : lockPiece field t = some field1) :
    Frame field field1 := by
  obtain ⟨field', ch, e1, _, e3, e7⟩ := lockPiece_write field t kind hlen hb ht hfit
  have e6 := fits_cells field t hb hfit
  rw [h] at e1
  simp only [Option.some.injEq] at e1
  subst e1
  refine ⟨e3.trans hlen.symm, fun i hi => ?_⟩
  rw [e7, if_neg]
  intro hmem
  rw [List.mem_map] at hmem
  obtain ⟨p, hp, rfl⟩ := hmem
  obtain ⟨a1, a2, a3, a4, _⟩ := e6 p hp
  apply hi
  unfold fieldIndex
  simp only [FIELD_WIDTH]
  push_cast
  omega

theorem checkLines_frame (field field2 : Field) (t : tetromino) (n L : Int)
    (hlen : field.length = FIELD_LENGTH) (hy : 0 ≤ t.y)
    (h : checkLines field t = some (field2, n, L)) :
    Frame field field2 ∧ (0 < n → L ≤ 16) := by
  obtain ⟨field', L', e1, e2, _, e4, _, e6⟩ :=
    checkLinesLoop_spec t hy t.sidelen 0 field 0 0 hlen
  unfold checkLines at h
  rw [List.range_eq_range', e1] at h
  simp only [Option.some.injEq, Prod.mk.injEq] at h
  obtain ⟨rfl, rfl, rfl⟩ := h
  refine ⟨⟨e2.trans hlen.symm, fun i hi => ?_⟩, fun hn => ?_⟩
  · apply e6
    rintro ⟨r, hr, x, hx1, hx2, rfl⟩
    have := (mem_fullRowsFrom field t 0 t.sidelen r).mp hr
    apply hi
    simp only [FIELD_WIDTH]
    push_cast at this ⊢
    omega
  · have hne : fullRowsFrom field t 0 t.sidelen ≠ [] := by
      intro hnil
      rw [hnil] at hn
      simp at hn
    exact ((mem_fullRowsFrom field t 0 t.sidelen L').mp (e4 hne).1).2.2.1

/-- One iteration of the game loop preserves the invariant. -/
theorem tick_inv (g g' : Game) (key : Key) (rnd : Nat → Nat) (hinv : Inv g)
    (h : tick g key rnd = some g') : Inv g' := by
  obtain ⟨t1, force, t2, fix, nt, hpi, hfd, hcases⟩ := tick_cases g g' key rnd h
  obtain ⟨hp1, hy1, hsame⟩ := processInput_spec _ _ _ _ _ _ _ hinv.piece hpi
  have hfit1 : pieceCanFit g.field t1 = some true ∨ (t1.x = 4 ∧ t1.y = 1 ∧ t1.rot = 0) := by
    rcases hsame with rfl | hf
    · exact hinv.fits
    · exact Or.inl hf
  have hrow1 : 1 ≤ t1.y := by rw [hy1]; exact hinv.row
  have ht2 : IsPiece t2 g.currentPieceNum ∧ 1 ≤ t2.y ∧
      (pieceCanFit g.field t2 = some true ∨ (t2.x = 4 ∧ t2.y = 1 ∧ t2.rot = 0)) ∧
      (fix = true → t2 = t1) := by
    rcases forceDownward_cases _ _ _ _ _ _ _ hfd with ⟨_, rfl, rfl, _⟩ | ⟨_, hf, rfl, rfl, _⟩ |
      ⟨_, _, rfl, _, _⟩
    · exact ⟨hp1, hrow1, hfit1, fun h => by simp at h⟩
    · exact ⟨hp1, by simp only; omega, Or.inl hf, fun h => by simp at h⟩
    · exact ⟨hp1, hrow1, hfit1, fun _ => rfl⟩
  obtain ⟨hp2, hrow2, hfit2, _⟩ := ht2
  rcases hcases with ⟨_, rfl⟩ | ⟨_, _, rfl⟩ |
    ⟨_, hy2, field1, field2, n, L, bag, idx, num, tnew, gmid, hlock, hcheck, hnext, hsc, rfl⟩
  · exact ⟨hinv.length, hinv.border, hp2, hinv.cursor, hinv.bag, hinv.current, hrow2, hfit2⟩
  · exact ⟨hinv.length, hinv.border, hp2, hinv.cursor, hinv.bag, hinv.current, hrow2, hfit2⟩
  · have hfit : pieceCanFit g.field t2 = some true := by
      rcases hfit2 with hf | ⟨_, hy, _⟩
      · exact hf
      · omega
    have hF1 := lockPiece_frame g.field field1 t2 _ hinv.length hinv.border hp2 hfit hlock
    have hlen1 : field1.length = FIELD_LENGTH := hF1.1.trans hinv.length
    obtain ⟨hF2, hL⟩ := checkLines_frame field1 field2 t2 n L hlen1 (by omega) hcheck
    obtain ⟨hperm, hcur, hspawn, hidx⟩ := nextPiece_spec _ _ _ _ _ _ _ hnext
    obtain ⟨hpn, hx, hy, hr⟩ := spawnPiece_spec _ _ hspawn
    have hcursor : idx < NUM_TETROMINOES := by
      rcases hidx with ⟨h1, _, rfl⟩ | ⟨_, _, rfl⟩
      · exact h1
      · decide
    have hF : Frame g.field gmid.field ∧ gmid.t = tnew ∧ gmid.pieceBag = bag ∧
        gmid.currentBagIndex = idx ∧ gmid.currentPieceNum = num := by
      rcases scoreAndClear_cases _ _ _ _ hsc with ⟨_, rfl⟩ |
        ⟨hn, hclear, e1, e2, e3, e4, _, _⟩
      · exact ⟨hF1.trans hF2, rfl, rfl, rfl, rfl⟩
      · exact ⟨(hF1.trans hF2).trans
          (clearLinesLoop_frame _ _ _ _ _ _ (hL hn) hclear), e1, e2, e3, e4⟩
    obtain ⟨hFr, e1, e2, e3, e4⟩ := hF
    refine ⟨hFr.1.trans hinv.length, hFr.border hinv.border, ?_, ?_, ?_, ?_, ?_, ?_⟩
    · simp only [e1, e4]; exact hpn
    · simp only [e3]; exact hcursor
    · simp only [e2]; exact hperm.trans hinv.bag
    · simp only [e2, e3, e4]; exact hcur
    · simp only [e1]; omega
    · simp only [e1]; exact Or.inr ⟨hx, hy, hr⟩

theorem initField_length : initField.length = FIELD_LENGTH := by decide!

theorem initField_border : BorderIntact initField := by decide!

/-- The initial state satisfies the invariant. -/
theorem initGame_inv (rnd : Nat → Nat) (g : Game) (h : initGame rnd = some g) : Inv g := by
  unfold initGame at h
  simp only [Option.bind_eq_bind, Option.pure_def] at h
  cases hs : shuffleArray rnd [0, 1, 2, 3, 4, 5, 6] with
  | none => simp [hs] at h
  | some bag =>
    simp only [hs, Option.some_bind] at h
    cases h1 : bag[0]? with
    | none => simp [h1] at h
    | some num =>
      simp only [h1, Option.some_bind] at h
      cases h2 : spawnPiece num with
      | none => simp [h2] at h
      | some t =>
        simp only [h2, Option.some_bind, Option.some.injEq] at h
        subst h
        obtain ⟨hpn, hx, hy, hr⟩ := spawnPiece_spec _ _ h2
        exact ⟨initField_length, initField_border, hpn, Nat.zero_lt_succ 6,
          shuffleLoop_perm_of_some rnd _ _ _ hs, h1, by simp only [hy]; omega,
          Or.inr ⟨hx, hy, hr⟩⟩

theorem reachable_inv (g : Game) (h : Reachable g) : Inv g := by
  induction h with
  | init rnd g h => exact initGame_inv rnd g h
  | step g g' key rnd _ _ ht ih => exact tick_inv g g' key rnd ih ht

theorem run_reachable :
    ∀ (inputs : List (Key × (Nat → Nat))) (g g' : Game), Reachable g →
      run g inputs = some g' → Reachable g' := by
  intro inputs
  induction inputs with
  | nil =>
    intro g g' hr h
    simp only [run, Option.some.injEq] at h
    subst h
    exact hr
  | cons a inputs ih =>
    intro g g' hr h
    obtain ⟨key, rnd⟩ := a
    simp only [run] at h
    cases hgo : g.gameOver with
    | true =>
      simp only [hgo, if_true, Option.some.injEq] at h
      subst h
      exact hr
    | false =>
      simp only [hgo, Bool.false_eq_true, if_false, Option.bind_eq_bind] at h
      cases ht : tick g key rnd with
      | none => simp [ht] at h
      | some g1 =>
        simp only [ht, Option.some_bind] at h
        exact ih g1 g' (Reachable.step g g1 key rnd hr hgo ht) h

end CTetris

namespace CTetris

/-! ## Reachable states -/

theorem startGame_reachable : Reachable startGame :=
  Reachable.init rndIdentity startGame (by decide!)

theorem stackedGame_reachable : Reachable stackedGame :=
  run_reachable (allDown 71) startGame stackedGame startGame_reachable (by decide!)

theorem overlapGame_reachable : Reachable overlapGame :=
  run_reachable (allDown 68 ++ (Key.down, rndSwap) :: allDown 2) startGame overlapGame
    startGame_reachable (by decide!)

/-- What one iteration does to the field and the bag, from a state satisfying the
invariant. -/
theorem tick_frame_bag (g g' : Game) (key : Key) (rnd : Nat → Nat) (hinv : Inv g)
    (h : tick g key rnd = some g') :
    Frame g.field g'.field ∧
    ((g'.pieceBag = g.pieceBag ∧
        (g'.currentBagIndex = g.currentBagIndex ∨
          g'.currentBagIndex = g.currentBagIndex + 1)) ∨
      (g.currentBagIndex = 6 ∧ g'.currentBagIndex = 0 ∧
        shuffleArray rnd g.pieceBag = some g'.pieceBag)) := by
  obtain ⟨t1, force, t2, fix, nt, hpi, hfd, hcases⟩ := tick_cases g g' key rnd h
  rcases hcases with ⟨_, rfl⟩ | ⟨_, _, rfl⟩ |
    ⟨hfix, hy2, field1, field2, n, L, bag, idx, num, tnew, gmid, hlock, hcheck, hnext, hsc, rfl⟩
  · exact ⟨Frame.refl _, Or.inl ⟨rfl, Or.inl rfl⟩⟩
  · exact ⟨Frame.refl _, Or.inl ⟨rfl, Or.inl rfl⟩⟩
  · obtain ⟨hp1, hy1, hsame⟩ := processInput_spec _ _ _ _ _ _ _ hinv.piece hpi
    have ht21 : t2 = t1 := by
      rcases forceDownward_cases _ _ _ _ _ _ _ hfd with ⟨_, _, hf, _⟩ | ⟨_, _, _, hf, _⟩ |
        ⟨_, _, ht, _, _⟩
      · rw [hfix] at hf; simp at hf
      · rw [hfix] at hf; simp at hf
      · exact ht
    subst ht21
    have hfit : pieceCanFit g.field t2 = some true := by
      rcases hsame with rfl | hf
      · rcases hinv.fits with hf | ⟨_, hy, _⟩
        · exact hf
        · omega
      · exact hf
    have hF1 := lockPiece_frame g.field field1 t2 _ hinv.length hinv.border hp1 hfit hlock
    have hlen1 : field1.length = FIELD_LENGTH := hF1.1.trans hinv.length
    have hrow : 0 ≤ t2.y := by have := hinv.row; omega
    obtain ⟨hF2, hL⟩ := checkLines_frame field1 field2 t2 n L hlen1 hrow hcheck
    obtain ⟨_, _, _, hidx⟩ := nextPiece_spec _ _ _ _ _ _ _ hnext
    have hcur := hinv.cursor
    simp only [NUM_TETROMINOES] at hidx hcur
    have hbag : (bag = g.pieceBag ∧ (idx = g.currentBagIndex ∨ idx = g.currentBagIndex + 1)) ∨
        (g.currentBagIndex = 6 ∧ idx = 0 ∧ shuffleArray rnd g.pieceBag = some bag) := by
      rcases hidx with ⟨_, h1, h2⟩ | ⟨h1, h2, h3⟩
      · exact Or.inl ⟨h1, Or.inr h2⟩
      · exact Or.inr ⟨by omega, h3, h2⟩
    rcases scoreAndClear_cases _ _ _ _ hsc with ⟨_, rfl⟩ | ⟨hn, hclear, _, e2, e3, _, _, _⟩
    · exact ⟨hF1.trans hF2, hbag⟩
    · refine ⟨(hF1.trans hF2).trans (clearLinesLoop_frame _ _ _ _ _ _ (hL hn) hclear), ?_⟩
      simp only [e2, e3]
      exact hbag

/-- C5: in every run of the game, whatever the random source returns, the bag is a
permutation of the seven kinds `0..6`, so each kind is under exactly one cursor position, the
cursor stays in `0..6`, the active piece is the piece of the kind under the cursor, and a tick
leaves the bag alone and moves the cursor by at most one, or wraps the cursor from `6` to `0`
and reshuffles: the seven pieces taken from cursor `0` up to the next reshuffle are each of
the seven kinds exactly once. -/
theorem bag_invariant (g : Game) (h : Reachable g) :
    g.pieceBag.Perm [0, 1, 2, 3, 4, 5, 6] ∧
    g.currentBagIndex < 7 ∧
    g.pieceBag[g.currentBagIndex]? = some g.currentPieceNum ∧
    IsPiece g.t g.currentPieceNum ∧
    (∀ kind, kind < 7 → ∃ c, c < 7 ∧ g.pieceBag[c]? = some kind ∧
      ∀ c', g.pieceBag[c']? = some kind → c' = c) ∧
    ∀ key rnd g', tick g key rnd = some g' →
      (g'.pieceBag = g.pieceBag ∧
        (g'.currentBagIndex = g.currentBagIndex ∨
          g'.currentBagIndex = g.currentBagIndex + 1)) ∨
      (g.currentBagIndex = 6 ∧ g'.currentBagIndex = 0 ∧
        shuffleArray rnd g.pieceBag = some g'.pieceBag) := by
  have hinv := reachable_inv g h
  refine ⟨hinv.bag, hinv.cursor, hinv.current, hinv.piece, ?_,
    fun key rnd g' ht => (tick_frame_bag g g' key rnd hinv ht).2⟩
  intro kind hk
  have hlen : g.pieceBag.length = 7 := by simpa using hinv.bag.length_eq
  have hnd : g.pieceBag.Nodup := hinv.bag.nodup_iff.mpr (by decide)
  have hmem : kind ∈ g.pieceBag := hinv.bag.mem_iff.mpr (by
    simp only [List.mem_cons, List.mem_singleton, List.not_mem_nil, or_false]; omega)
  obtain ⟨c, hc⟩ := List.mem_iff_getElem?.mp hmem
  obtain ⟨hc1, hc2⟩ := List.getElem?_eq_some_iff.mp hc
  refine ⟨c, by omega, hc, ?_⟩
  intro c' hc'
  obtain ⟨hc1', hc2'⟩ := List.getElem?_eq_some_iff.mp hc'
  exact (List.Nodup.getElem_inj_iff hnd).mp (hc2'.trans hc2.symm)

theorem bag_invariant_witness :
    Reachable stackedGame ∧
    stackedGame.pieceBag.Perm [0, 1, 2, 3, 4, 5, 6] ∧
    stackedGame.currentBagIndex < 7 ∧
    stackedGame.pieceBag[stackedGame.currentBagIndex]? = some stackedGame.currentPieceNum ∧
    IsPiece stackedGame.t stackedGame.currentPieceNum ∧
    (∀ kind, kind < 7 → ∃ c, c < 7 ∧ stackedGame.pieceBag[c]? = some kind ∧
      ∀ c', stackedGame.pieceBag[c']? = some kind → c' = c) ∧
    ∀ key rnd g', tick stackedGame key rnd = some g' →
      (g'.pieceBag = stackedGame.pieceBag ∧
        (g'.currentBagIndex = stackedGame.currentBagIndex ∨
          g'.currentBagIndex = stackedGame.currentBagIndex + 1)) ∨
      (stackedGame.currentBagIndex = 6 ∧ g'.currentBagIndex = 0 ∧
        shuffleArray rnd stackedGame.pieceBag = some g'.pieceBag) :=
  ⟨stackedGame_reachable, bag_invariant stackedGame stackedGame_reachable⟩

/-- C7: in every state reachable from the initial field by any sequence of ticks, every
border cell (`x = 0`, `x = 11` or `y = 17`) is the wall character, and a tick changes the
field at most in interior cells of the rows `0..16`: no tick writes a border cell. -/
theorem border_invariant (g : Game) (h : Reachable g) :
    BorderIntact g.field ∧ g.field.length = FIELD_LENGTH ∧
    ∀ key rnd g', tick g key rnd = some g' → Frame g.field g'.field :=
  ⟨(reachable_inv g h).border, (reachable_inv g h).length,
    fun key rnd g' ht => (tick_frame_bag g g' key rnd (reachable_inv g h) ht).1⟩

theorem border_invariant_witness :
    Reachable overlapGame ∧
    BorderIntact overlapGame.field ∧ overlapGame.field.length = FIELD_LENGTH ∧
    ∀ key rnd g', tick overlapGame key rnd = some g' → Frame overlapGame.field g'.field :=
  ⟨overlapGame_reachable, border_invariant overlapGame overlapGame_reachable⟩

end CTetris

namespace CTetris

/-! ## Spawning and game over -/

theorem spawn_fits_initField :
    ∀ kind, kind < 7 → pieceCanFit initField (pieceAt kind 0 4 1) = some true := by
  decide!

/-- C8, as stated, fails: after 71 ticks of "down" the `S` piece has locked at `y = 2` and the
`Z` piece was spawned over it; the game is not over and the active piece does not fit. -/
theorem spawn_overlap_counterexample :
    Reachable overlapGame ∧ overlapGame.gameOver = false ∧
      overlapGame.t = pieceAt 1 0 4 1 ∧
      pieceCanFit overlapGame.field overlapGame.t = some false :=
  ⟨overlapGame_reachable, by decide!, by decide!, by decide!⟩

/-- C8, amended: in every reachable state the active piece is on row `y ≥ 1` and satisfies
`pieceCanFit` on the current field at the tick boundary unless it still is at the spawn
placement (`x = 4`, `y = 1`, rotation `0`), where it was placed without a check; the first
piece of the game does fit. -/
theorem piece_fits_or_at_spawn (g : Game) (h : Reachable g) :
    1 ≤ g.t.y ∧
    (pieceCanFit g.field g.t = some true ∨ (g.t.x = 4 ∧ g.t.y = 1 ∧ g.t.rot = 0)) ∧
    ∀ rnd g0, initGame rnd = some g0 → pieceCanFit g0.field g0.t = some true := by
  refine ⟨(reachable_inv g h).row, (reachable_inv g h).fits, ?_⟩
  intro rnd g0 h0
  have hinv := initGame_inv rnd g0 h0
  obtain ⟨hk, he⟩ := isPiece_eq g0.t g0.currentPieceNum hinv.piece
  have hfield : g0.field = initField ∧ g0.t.x = 4 ∧ g0.t.y = 1 ∧ g0.t.rot = 0 := by
    unfold initGame at h0
    simp only [Option.bind_eq_bind, Option.pure_def] at h0
    cases hs : shuffleArray rnd [0, 1, 2, 3, 4, 5, 6] with
    | none => simp [hs] at h0
    | some bag =>
      simp only [hs, Option.some_bind] at h0
      cases h1 : bag[0]? with
      | none => simp [h1] at h0
      | some num =>
        simp only [h1, Option.some_bind] at h0
        cases h2 : spawnPiece num with
        | none => simp [h2] at h0
        | some t =>
          simp only [h2, Option.some_bind, Option.some.injEq] at h0
          subst h0
          obtain ⟨_, hx, hy, hr⟩ := spawnPiece_spec _ _ h2
          exact ⟨rfl, hx, hy, hr⟩
  obtain ⟨hf, hx, hy, hr⟩ := hfield
  rw [he, hf, hx, hy, hr]
  exact spawn_fits_initField _ hk

theorem piece_fits_or_at_spawn_witness :
    Reachable stackedGame ∧
    1 ≤ stackedGame.t.y ∧
    (pieceCanFit stackedGame.field stackedGame.t = some true ∨
      (stackedGame.t.x = 4 ∧ stackedGame.t.y = 1 ∧ stackedGame.t.rot = 0)) ∧
    ∀ rnd g0, initGame rnd = some g0 → pieceCanFit g0.field g0.t = some true :=
  ⟨stackedGame_reachable, piece_fits_or_at_spawn stackedGame stackedGame_reachable⟩

theorem tick_failed_descent_witness :
    processInput stackedGame.field stackedGame.t
        (decide (stackedGame.numTicks ≥ stackedGame.maxTicksPerLine)) Key.down =
      some (stackedGame.t, true) ∧
    pieceCanFit stackedGame.field { stackedGame.t with y := stackedGame.t.y + 1 } = some false ∧
    stackedGame.t.y ≤ 1 ∧
    processInput restingGame.field restingGame.t
        (decide (restingGame.numTicks ≥ restingGame.maxTicksPerLine)) Key.down =
      some (restingGame.t, true) ∧
    pieceCanFit restingGame.field { restingGame.t with y := restingGame.t.y + 1 } = some false ∧
    2 ≤ restingGame.t.y ∧
    (tick restingGame Key.down rndIdentity).map (fun g' => g'.gameOver) = some false ∧
    ((stackedGame.t.y ≤ 1 →
      ∃ g', tick stackedGame Key.down rndIdentity = some g' ∧ g'.gameOver = true ∧
        g'.field = stackedGame.field ∧ g'.t = stackedGame.t ∧ g'.score = stackedGame.score ∧
        g'.totalNumLinesCleared = stackedGame.totalNumLinesCleared ∧
        g'.level = stackedGame.level ∧ g'.pieceBag = stackedGame.pieceBag ∧
        g'.currentBagIndex = stackedGame.currentBagIndex) ∧
     (2 ≤ stackedGame.t.y →
      ∀ g', tick stackedGame Key.down rndIdentity = some g' →
        g'.gameOver = stackedGame.gameOver)) ∧
    ((restingGame.t.y ≤ 1 →
      ∃ g', tick restingGame Key.down rndIdentity = some g' ∧ g'.gameOver = true ∧
        g'.field = restingGame.field ∧ g'.t = restingGame.t ∧ g'.score = restingGame.score ∧
        g'.totalNumLinesCleared = restingGame.totalNumLinesCleared ∧
        g'.level = restingGame.level ∧ g'.pieceBag = restingGame.pieceBag ∧
        g'.currentBagIndex = restingGame.currentBagIndex) ∧
     (2 ≤ restingGame.t.y →
      ∀ g', tick restingGame Key.down rndIdentity = some g' →
        g'.gameOver = restingGame.gameOver)) :=
  ⟨by decide!, by decide!, by decide!, by decide!, by decide!, by decide!,
    by decide!,
    tick_failed_descent stackedGame Key.down rndIdentity stackedGame.t (by decide!)
      (by decide!),
    tick_failed_descent restingGame Key.down rndIdentity restingGame.t (by decide!)
      (by decide!)⟩

/-- C10, as stated, fails: in the reachable state `stackedGame` the `Z` piece is at its spawn
placement and fits there, yet it cannot move down, so the tick sets game-over. -/
theorem gameOver_counterexample :
    Reachable stackedGame ∧ stackedGame.gameOver = false ∧
      (∃ g', tick stackedGame Key.down rndIdentity = some g' ∧ g'.gameOver = true) ∧
      pieceCanFit stackedGame.field { stackedGame.t with x := 4, y := 1, rot := 0 } =
        some true :=
  ⟨stackedGame_reachable, by decide!,
    ⟨{ stackedGame with gameOver := true }, by decide!, rfl⟩, by decide!⟩

/-- C10, amended: game-over is reached exclusively through a failed forced descent on the
spawn row: if a tick of a running game sets game-over, then a forced descent was attempted in
this tick, the active piece (after the tick's input) fails `pieceCanFit` one row lower, its
`y` is `≤ 1`, and the field is left as it was. -/
theorem gameOver_only_from_failed_descent (g g' : Game) (key : Key) (rnd : Nat → Nat)
    (hrun : g.gameOver = false) (h : tick g key rnd = some g') (hover : g'.gameOver = true) :
    ∃ t1, processInput g.field g.t (decide (g.numTicks ≥ g.maxTicksPerLine)) key =
        some (t1, true) ∧
      pieceCanFit g.field { t1 with y := t1.y + 1 } = some false ∧ t1.y ≤ 1 ∧
      g'.t = t1 ∧ g'.field = g.field := by
  obtain ⟨t1, force, t2, fix, nt, hpi, hfd, hcases⟩ := tick_cases g g' key rnd h
  rcases hcases with ⟨_, rfl⟩ | ⟨hfix, hy, rfl⟩ |
    ⟨_, _, field1, field2, n, L, bag, idx, num, tnew, gmid, _, _, _, hsc, rfl⟩
  · simp only at hover
    rw [hrun] at hover
    simp at hover
  · rcases forceDownward_cases _ _ _ _ _ _ _ hfd with ⟨_, _, hf, _⟩ | ⟨_, _, _, hf, _⟩ |
      ⟨hforce, hfail, ht, _, _⟩
    · rw [hfix] at hf; simp at hf
    · rw [hfix] at hf; simp at hf
    · subst ht hforce
      exact ⟨t2, hpi, hfail, hy, rfl, rfl⟩
  · exfalso
    have : gmid.gameOver = false := by
      rcases scoreAndClear_cases _ _ _ _ hsc with ⟨_, rfl⟩ | ⟨_, _, _, _, _, _, hgo, _⟩
      · exact hrun
      · rw [hgo]; exact hrun
    simp only at hover
    rw [this] at hover
    simp at hover

theorem gameOver_only_from_failed_descent_witness :
    stackedGame.gameOver = false ∧
    tick stackedGame Key.down rndIdentity =
      some { stackedGame with gameOver := true } ∧
    ∃ t1, processInput stackedGame.field stackedGame.t
          (decide (stackedGame.numTicks ≥ stackedGame.maxTicksPerLine)) Key.down =
        some (t1, true) ∧
      pieceCanFit stackedGame.field { t1 with y := t1.y + 1 } = some false ∧ t1.y ≤ 1 ∧
      ({ stackedGame with gameOver := true } : Game).t = t1 ∧
      ({ stackedGame with gameOver := true } : Game).field = stackedGame.field :=
  ⟨by decide!, by decide!,
    gameOver_only_from_failed_descent stackedGame { stackedGame with gameOver := true }
      Key.down rndIdentity (by decide!) (by decide!) (by decide!)⟩

end CTetris

namespace CTetris

/-! ## Rotation geometry -/

theorem getPieceIndexForRotation_congr (t : tetromino) (x y : Nat) :
    getPieceIndexForRotation t x y =
      getPieceIndexForRotation
        { sidelen := t.sidelen, x := 0, y := 0, rot := t.rot, sprite := [] } x y := rfl

theorem rotation_table_3 :
    ∀ r, r < 4 → ∀ x, x < 3 → ∀ y, y < 3 →
      getPieceIndexForRotation { sidelen := 3, x := 0, y := 0, rot := r, sprite := [] } x y =
          ((rotateClockwise^[r] (identityGrid 3))[y]?.bind fun row => row[x]?) ∧
        (getPieceIndexForRotation
            { sidelen := 3, x := 0, y := 0, rot := r, sprite := [] } x y).map Int.ofNat =
          some (oldMethodIndex 3 r x y) ∧
        getPieceIndexForRotation
            { sidelen := 3, x := 0, y := 0, rot := (r + 1) % 4, sprite := [] } x y =
          getPieceIndexForRotation
            { sidelen := 3, x := 0, y := 0, rot := r, sprite := [] } y (3 - 1 - x) := by
  decide

theorem rotation_full_turn_3 : rotateClockwise^[4] (identityGrid 3) = identityGrid 3 := by
  decide

theorem rotation_table_4 :
    ∀ r, r < 4 → ∀ x, x < 4 → ∀ y, y < 4 →
      getPieceIndexForRotation { sidelen := 4, x := 0, y := 0, rot := r, sprite := [] } x y =
          ((rotateClockwise^[r] (identityGrid 4))[y]?.bind fun row => row[x]?) ∧
        (getPieceIndexForRotation
            { sidelen := 4, x := 0, y := 0, rot := r, sprite := [] } x y).map Int.ofNat =
          some (oldMethodIndex 4 r x y) ∧
        getPieceIndexForRotation
            { sidelen := 4, x := 0, y := 0, rot := (r + 1) % 4, sprite := [] } x y =
          getPieceIndexForRotation
            { sidelen := 4, x := 0, y := 0, rot := r, sprite := [] } y (4 - 1 - x) := by
  decide

theorem rotation_full_turn_4 : rotateClockwise^[4] (identityGrid 4) = identityGrid 4 := by
  decide

theorem rotation_table :
    ∀ n, (n = 3 ∨ n = 4) → ∀ r, r < 4 → ∀ x, x < n → ∀ y, y < n →
      getPieceIndexForRotation { sidelen := n, x := 0, y := 0, rot := r, sprite := [] } x y =
          ((rotateClockwise^[r] (identityGrid n))[y]?.bind fun row => row[x]?) ∧
        (getPieceIndexForRotation
            { sidelen := n, x := 0, y := 0, rot := r, sprite := [] } x y).map Int.ofNat =
          some (oldMethodIndex n r x y) ∧
        getPieceIndexForRotation
            { sidelen := n, x := 0, y := 0, rot := (r + 1) % 4, sprite := [] } x y =
          getPieceIndexForRotation
            { sidelen := n, x := 0, y := 0, rot := r, sprite := [] } y (n - 1 - x) ∧
        rotateClockwise^[4] (identityGrid n) = identityGrid n := by
  intro n hn r hr x hx y hy
  rcases hn with rfl | rfl
  · obtain ⟨h1, h2, h3⟩ := rotation_table_3 r hr x hx y hy
    exact ⟨h1, h2, h3, rotation_full_turn_3⟩
  · obtain ⟨h1, h2, h3⟩ := rotation_table_4 r hr x hx y hy
    exact ⟨h1, h2, h3, rotation_full_turn_4⟩

/-- C11: for side length 3 or 4, every rotation in `0..3` and every local cell of the bounding
box, `getPieceIndexForRotation` returns the index found in the identity index grid turned `rot`
times by 90 degrees clockwise, which is the value of the arithmetic formulas of the
commented-out old method; the index for rotation `rot + 1` at `(x, y)` is the index for
rotation `rot` at `(y, N - 1 - x)`, and four turns give the identity grid. -/
theorem getPieceIndexForRotation_rotation (t : tetromino) (x y : Nat)
    (hs : t.sidelen = 3 ∨ t.sidelen = 4) (hr : t.rot < 4) (hx : x < t.sidelen)
    (hy : y < t.sidelen) :
    ∃ k, getPieceIndexForRotation t x y = some k ∧
      ((rotateClockwise^[t.rot] (identityGrid t.sidelen))[y]?.bind fun row => row[x]?) =
        some k ∧
      (k : Int) = oldMethodIndex t.sidelen t.rot x y ∧
      getPieceIndexForRotation { t with rot := (t.rot + 1) % 4 } x y =
        getPieceIndexForRotation t y (t.sidelen - 1 - x) ∧
      rotateClockwise^[4] (identityGrid t.sidelen) = identityGrid t.sidelen := by
  obtain ⟨h1, h2, h3, h4⟩ := rotation_table t.sidelen hs t.rot hr x hx y hy
  rw [← getPieceIndexForRotation_congr t x y] at h1 h2
  cases hk : getPieceIndexForRotation t x y with
  | none => rw [hk] at h2; simp at h2
  | some k =>
    rw [hk] at h1 h2
    refine ⟨k, rfl, h1.symm, ?_, ?_, h4⟩
    · simpa using h2
    · rw [getPieceIndexForRotation_congr, getPieceIndexForRotation_congr t y]
      exact h3

theorem getPieceIndexForRotation_rotation_witness :
    ((pieceAt 0 3 4 1).sidelen = 3 ∨ (pieceAt 0 3 4 1).sidelen = 4) ∧
    getPieceIndexForRotation (pieceAt 0 3 4 1) 1 2 = some 5 ∧
    ∃ k, getPieceIndexForRotation (pieceAt 0 3 4 1) 1 2 = some k ∧
      ((rotateClockwise^[(pieceAt 0 3 4 1).rot] (identityGrid (pieceAt 0 3 4 1).sidelen))[2]?.bind
        fun row => row[1]?) = some k ∧
      (k : Int) = oldMethodIndex (pieceAt 0 3 4 1).sidelen (pieceAt 0 3 4 1).rot 1 2 ∧
      getPieceIndexForRotation
          { pieceAt 0 3 4 1 with rot := ((pieceAt 0 3 4 1).rot + 1) % 4 } 1 2 =
        getPieceIndexForRotation (pieceAt 0 3 4 1) 2 ((pieceAt 0 3 4 1).sidelen - 1 - 1) ∧
      rotateClockwise^[4] (identityGrid (pieceAt 0 3 4 1).sidelen) =
        identityGrid (pieceAt 0 3 4 1).sidelen :=
  ⟨by decide, by decide,
    getPieceIndexForRotation_rotation (pieceAt 0 3 4 1) 1 2 (by decide) (by decide) (by decide)
      (by decide)⟩

end CTetris

namespace CTetris

theorem index_range_table :
    ∀ kind ∈ [0, 1, 2, 4, 5, 6], ∀ rot, rot < 4 →
      ∀ p ∈ boxCells (pieceAt kind rot 0 0).sidelen,
        ∃ k, k < (pieceAt kind rot 0 0).sidelen * (pieceAt kind rot 0 0).sidelen ∧
          getPieceIndexForRotation (pieceAt kind rot 0 0) p.2 p.1 = some k := by
  decide

theorem index_injective_table :
    ∀ kind ∈ [0, 1, 2, 4, 5, 6], ∀ rot, rot < 4 →
      ∀ p ∈ boxCells (pieceAt kind rot 0 0).sidelen,
        ∀ q ∈ boxCells (pieceAt kind rot 0 0).sidelen,
          getPieceIndexForRotation (pieceAt kind rot 0 0) p.2 p.1 =
            getPieceIndexForRotation (pieceAt kind rot 0 0) q.2 q.1 → p = q := by
  decide

theorem index_surjective_table :
    ∀ kind ∈ [0, 1, 2, 4, 5, 6], ∀ rot, rot < 4 →
      ∀ k, k < (pieceAt kind rot 0 0).sidelen * (pieceAt kind rot 0 0).sidelen →
        ∃ x, x < (pieceAt kind rot 0 0).sidelen ∧
          ∃ y, y < (pieceAt kind rot 0 0).sidelen ∧
            getPieceIndexForRotation (pieceAt kind rot 0 0) x y = some k := by
  decide

theorem getPieceIndexForRotation_pieceAt (kind rot : Nat) (x y : Int) (lx ly : Nat) :
    getPieceIndexForRotation (pieceAt kind rot x y) lx ly =
      getPieceIndexForRotation (pieceAt kind rot 0 0) lx ly := rfl

theorem getPieceIndexForRotation_default (t : tetromino) (h3 : t.sidelen ≠ 3)
    (h4 : t.sidelen ≠ 4) (x y : Nat) : getPieceIndexForRotation t x y = some 0 := by
  unfold getPieceIndexForRotation
  split
  · rename_i h; exact absurd h h3
  · rename_i h; exact absurd h h4
  · rfl

/-- C12, as stated, fails for the 2x2 piece: the cells `(0, 0)` and `(1, 0)` of the `O` piece
both get index `0`, and no cell gets index `3`. -/
theorem index_bijection_counterexample :
    IsPiece (pieceAt 3 0 4 1) 3 ∧ (pieceAt 3 0 4 1).sidelen = 2 ∧
      getPieceIndexForRotation (pieceAt 3 0 4 1) 0 0 = some 0 ∧
      getPieceIndexForRotation (pieceAt 3 0 4 1) 1 0 = some 0 ∧
      ∀ x, x < 2 → ∀ y, y < 2 → getPieceIndexForRotation (pieceAt 3 0 4 1) x y ≠ some 3 := by
  decide

/-- C12, amended: for every piece kind of side length 3 or 4 (every kind but the 2x2 piece)
and every rotation in `0..3`, the map from the local cells `(x, y)` of the bounding box to
`getPieceIndexForRotation` is a bijection onto `0, ..., s * s - 1`; for the 2x2 piece the
map is constant `0`. -/
theorem index_bijection (t : tetromino) (kind : Nat) (ht : IsPiece t kind) :
    (kind ≠ 3 →
      (t.sidelen = 3 ∨ t.sidelen = 4) ∧
      (∀ x y, x < t.sidelen → y < t.sidelen →
        ∃ k, k < t.sidelen * t.sidelen ∧ getPieceIndexForRotation t x y = some k) ∧
      (∀ x y x' y', x < t.sidelen → y < t.sidelen → x' < t.sidelen → y' < t.sidelen →
        getPieceIndexForRotation t x y = getPieceIndexForRotation t x' y' →
          x = x' ∧ y = y') ∧
      (∀ k, k < t.sidelen * t.sidelen →
        ∃ x y, x < t.sidelen ∧ y < t.sidelen ∧ getPieceIndexForRotation t x y = some k)) ∧
    (kind = 3 → t.sidelen = 2 ∧ ∀ x y, getPieceIndexForRotation t x y = some 0) := by
  obtain ⟨hk, he⟩ := isPiece_eq t kind ht
  have hrot := ht.2.2
  have hside : ∀ k, k < 7 → k ≠ 3 →
      (pieceAt k t.rot 0 0).sidelen = 3 ∨ (pieceAt k t.rot 0 0).sidelen = 4 := by
    intro k hk7 hk3
    have : ∀ k, k < 7 → k ≠ 3 → tetrominoSideLengths.getD k 0 = 3 ∨
        tetrominoSideLengths.getD k 0 = 4 := by decide
    exact this k hk7 hk3
  have hsl : t.sidelen = (pieceAt kind t.rot 0 0).sidelen := by rw [he]; rfl
  have hidx : ∀ x y, getPieceIndexForRotation t x y =
      getPieceIndexForRotation (pieceAt kind t.rot 0 0) x y := by
    intro x y; rw [he]; rfl
  constructor
  · intro hne
    have hmem : kind ∈ [0, 1, 2, 4, 5, 6] := by
      simp only [List.mem_cons, List.mem_singleton, List.not_mem_nil, or_false]; omega
    refine ⟨by rw [hsl]; exact hside kind hk hne, ?_, ?_, ?_⟩
    · intro x y hx hy
      rw [hsl] at hx hy ⊢
      rw [hidx]
      exact index_range_table kind hmem t.rot hrot (y, x) ((mem_boxCells _ _).mpr ⟨hy, hx⟩)
    · intro x y x' y' hx hy hx' hy'
      rw [hsl] at hx hy hx' hy'
      rw [hidx, hidx]
      intro h
      have := index_injective_table kind hmem t.rot hrot (y, x)
        ((mem_boxCells _ _).mpr ⟨hy, hx⟩) (y', x') ((mem_boxCells _ _).mpr ⟨hy', hx'⟩) h
      simp only [Prod.mk.injEq] at this
      exact ⟨this.2, this.1⟩
    · intro k hkk
      rw [hsl] at hkk ⊢
      obtain ⟨x, hx, y, hy, hxy⟩ := index_surjective_table kind hmem t.rot hrot k hkk
      exact ⟨x, y, hx, hy, by rw [hidx]; exact hxy⟩
  · intro h3
    subst h3
    have hs2 : t.sidelen = 2 := by rw [hsl]; rfl
    exact ⟨hs2, fun x y => getPieceIndexForRotation_default t (by omega) (by omega) x y⟩

theorem index_bijection_witness :
    IsPiece (pieceAt 4 2 7 9) 4 ∧
    ((4 ≠ 3 →
      ((pieceAt 4 2 7 9).sidelen = 3 ∨ (pieceAt 4 2 7 9).sidelen = 4) ∧
      (∀ x y, x < (pieceAt 4 2 7 9).sidelen → y < (pieceAt 4 2 7 9).sidelen →
        ∃ k, k < (pieceAt 4 2 7 9).sidelen * (pieceAt 4 2 7 9).sidelen ∧
          getPieceIndexForRotation (pieceAt 4 2 7 9) x y = some k) ∧
      (∀ x y x' y', x < (pieceAt 4 2 7 9).sidelen → y < (pieceAt 4 2 7 9).sidelen →
        x' < (pieceAt 4 2 7 9).sidelen → y' < (pieceAt 4 2 7 9).sidelen →
        getPieceIndexForRotation (pieceAt 4 2 7 9) x y =
          getPieceIndexForRotation (pieceAt 4 2 7 9) x' y' → x = x' ∧ y = y') ∧
      (∀ k, k < (pieceAt 4 2 7 9).sidelen * (pieceAt 4 2 7 9).sidelen →
        ∃ x y, x < (pieceAt 4 2 7 9).sidelen ∧ y < (pieceAt 4 2 7 9).sidelen ∧
          getPieceIndexForRotation (pieceAt 4 2 7 9) x y = some k)) ∧
    (4 = 3 → (pieceAt 4 2 7 9).sidelen = 2 ∧
      ∀ x y, getPieceIndexForRotation (pieceAt 4 2 7 9) x y = some 0)) :=
  ⟨by decide, index_bijection (pieceAt 4 2 7 9) 4 (by decide)⟩

/-- C13, as stated, fails: for the `O` piece the cell `(1, 1)` gets index `0`, not the
unrotated index `1 * 2 + 1 = 3`. -/
theorem square_index_counterexample :
    (pieceAt 3 0 4 1).sidelen = 2 ∧
      getPieceIndexForRotation (pieceAt 3 0 4 1) 1 1 = some 0 ∧
      getPieceIndexForRotation (pieceAt 3 0 4 1) 1 1 ≠
        some (1 * (pieceAt 3 0 4 1).sidelen + 1) := by
  decide

/-- C13, amended: for a piece whose side length is not 3 or 4 (the 2x2 square piece)
`getPieceIndexForRotation` returns index `0` for every rotation and every local `(x, y)`;
as the sprite of the square piece is filled throughout, the sprite character read at index `0`
is the one at the unrotated index `y * sidelen + x`. -/
theorem square_index (t : tetromino) (h3 : t.sidelen ≠ 3) (h4 : t.sidelen ≠ 4) :
    (∀ x y, getPieceIndexForRotation t x y = some 0) ∧
    ∀ kind, IsPiece t kind → ∀ x y, x < t.sidelen → y < t.sidelen →
      t.sprite[0]? = some 'O' ∧ t.sprite[y * t.sidelen + x]? = some 'O' := by
  refine ⟨fun x y => getPieceIndexForRotation_default t h3 h4 x y, ?_⟩
  intro kind ht x y hx hy
  obtain ⟨hk, he⟩ := isPiece_eq t kind ht
  have hsl : t.sidelen = (pieceAt kind t.rot 0 0).sidelen := by rw [he]; rfl
  have hsp : t.sprite = (pieceAt kind 0 0 0).sprite := by rw [he]; rfl
  have hsl' : t.sidelen = (pieceAt kind 0 0 0).sidelen := hsl
  have hk3 : kind = 3 := by
    have hside : ∀ k, k < 7 → (pieceAt k 0 0 0).sidelen ≠ 3 →
        (pieceAt k 0 0 0).sidelen ≠ 4 → k = 3 := by decide
    exact hside kind hk (by rw [← hsl']; exact h3) (by rw [← hsl']; exact h4)
  subst hk3
  have htab : ∀ p ∈ boxCells 2,
      (pieceAt 3 0 0 0).sprite[0]? = some 'O' ∧
        (pieceAt 3 0 0 0).sprite[p.1 * 2 + p.2]? = some 'O' := by
    decide
  have hs2 : t.sidelen = 2 := hsl'
  rw [hs2] at hx hy ⊢
  rw [hsp]
  exact htab (y, x) ((mem_boxCells _ _).mpr ⟨hy, hx⟩)

theorem square_index_witness :
    (pieceAt 3 2 4 1).sidelen ≠ 3 ∧ (pieceAt 3 2 4 1).sidelen ≠ 4 ∧
    (∀ x y, getPieceIndexForRotation (pieceAt 3 2 4 1) x y = some 0) ∧
    ∀ kind, IsPiece (pieceAt 3 2 4 1) kind → ∀ x y,
      x < (pieceAt 3 2 4 1).sidelen → y < (pieceAt 3 2 4 1).sidelen →
        (pieceAt 3 2 4 1).sprite[0]? = some 'O' ∧
          (pieceAt 3 2 4 1).sprite[y * (pieceAt 3 2 4 1).sidelen + x]? = some 'O' :=
  ⟨by decide, by decide, square_index (pieceAt 3 2 4 1) (by decide) (by decide)⟩

end CTetris

namespace CTetris

/-! ## Scoring -/

/-- C15: for every progression state with level `l` and every lock that marks `n` rows with
`n` in `1..4`, the block run after the lock increases the score by 40, 100, 300 or 1200
respectively, multiplied by `l + 1` with `l` the level before this clear's level-up
(arithmetic modulo `2 ^ 32`); clearing 4 lines at level 0 adds exactly 1200; and
`totalNumLinesCleared` increases by `n`. -/
theorem scoreAndClear_score (g : Game) (n L : Int) (field' : Field)
    (hn : 1 ≤ n ∧ n ≤ 4)
    (hclear : clearLinesFromField FIELD_LENGTH g.field n L = some field') :
    ∃ g', scoreAndClear g n L = some g' ∧ g'.field = field' ∧
      (n = 1 → g'.score = (g.score + 40 * (g.level + 1)) % 2 ^ 32) ∧
      (n = 2 → g'.score = (g.score + 100 * (g.level + 1)) % 2 ^ 32) ∧
      (n = 3 → g'.score = (g.score + 300 * (g.level + 1)) % 2 ^ 32) ∧
      (n = 4 → g'.score = (g.score + 1200 * (g.level + 1)) % 2 ^ 32) ∧
      (n = 4 → g.level = 0 → g.score + 1200 < 2 ^ 32 → g'.score = g.score + 1200) ∧
      g'.totalNumLinesCleared = (g.totalNumLinesCleared + n.toNat) % 2 ^ 32 := by
  have hpos : n > 0 := by omega
  have hmod : ∀ c : Nat, (g.score + c * ((g.level + 1) % 2 ^ 32)) % 2 ^ 32 =
      (g.score + c * (g.level + 1)) % 2 ^ 32 := by
    intro c
    rw [Nat.add_mod, Nat.mul_mod, Nat.mod_mod, ← Nat.mul_mod, ← Nat.add_mod]
  unfold scoreAndClear
  simp only [hpos, if_true, hclear, Option.bind_eq_bind, Option.some_bind, Option.pure_def]
  refine ⟨_, rfl, rfl, ?_, ?_, ?_, ?_, ?_, ?_⟩
  · intro h1
    simp only [h1, if_true]
    exact hmod 40
  · intro h2
    simp only [h2, show ¬ ((2 : Int) = 1) by decide, if_false, if_true]
    exact hmod 100
  · intro h3
    simp only [h3, show ¬ ((3 : Int) = 1) by decide, show ¬ ((3 : Int) = 2) by decide,
      if_false, if_true]
    exact hmod 300
  · intro h4
    simp only [h4, show ¬ ((4 : Int) = 1) by decide, show ¬ ((4 : Int) = 2) by decide,
      show ¬ ((4 : Int) = 3) by decide, if_false, if_true]
    exact hmod 1200
  · intro h4 hl hs
    simp only [h4, show ¬ ((4 : Int) = 1) by decide, show ¬ ((4 : Int) = 2) by decide,
      show ¬ ((4 : Int) = 3) by decide, if_false, if_true, hl]
    rw [show (0 + 1) % 2 ^ 32 = 1 by decide, Nat.mul_one, Nat.mod_eq_of_lt hs]
  · simp only
    congr 1
    omega

theorem scoreAndClear_score_witness :
    ((1 : Int) ≤ 2 ∧ (2 : Int) ≤ 4) ∧
    clearLinesFromField FIELD_LENGTH sampleClearGame.field 2 16 = some sampleClearedField ∧
    (scoreAndClear sampleClearGame 2 16).map
        (fun g' => (g'.score, g'.totalNumLinesCleared)) = some (994, 100) ∧
    ∃ g', scoreAndClear sampleClearGame 2 16 = some g' ∧ g'.field = sampleClearedField ∧
      ((2 : Int) = 1 →
        g'.score = (sampleClearGame.score + 40 * (sampleClearGame.level + 1)) % 2 ^ 32) ∧
      ((2 : Int) = 2 →
        g'.score = (sampleClearGame.score + 100 * (sampleClearGame.level + 1)) % 2 ^ 32) ∧
      ((2 : Int) = 3 →
        g'.score = (sampleClearGame.score + 300 * (sampleClearGame.level + 1)) % 2 ^ 32) ∧
      ((2 : Int) = 4 →
        g'.score = (sampleClearGame.score + 1200 * (sampleClearGame.level + 1)) % 2 ^ 32) ∧
      ((2 : Int) = 4 → sampleClearGame.level = 0 → sampleClearGame.score + 1200 < 2 ^ 32 →
        g'.score = sampleClearGame.score + 1200) ∧
      g'.totalNumLinesCleared =
        (sampleClearGame.totalNumLinesCleared + (2 : Int).toNat) % 2 ^ 32 :=
  ⟨by decide, by decide!, by decide!,
    scoreAndClear_score sampleClearGame 2 16 sampleClearedField (by decide) (by decide!)⟩

end CTetris

namespace CTetris

/-! ## Input processing -/

/-- The fit test of a piece of one of the seven kinds on a row `y ≥ 0` reads inside the
field. -/
theorem pieceCanFit_isSome (field : Field) (t : tetromino) (kind : Nat)
    (hlen : field.length = FIELD_LENGTH) (ht : IsPiece t kind) (hy : 0 ≤ t.y) :
    ∃ b, pieceCanFit field t = some b := by
  let q : Nat × Nat → Bool := fun p =>
    match spriteAt t p.2 p.1 with
    | some c => decide (c = ' ' ∨ (1 ≤ t.x + p.2 ∧ t.x + p.2 < 12 ∧ t.y + p.1 < 18 ∧
        readField field (fieldIndex t p) = some ' '))
    | none => false
  refine ⟨(boxCells t.sidelen).all q, ?_⟩
  unfold pieceCanFit
  rw [allM_nested]
  apply allM_eq_some_all
  intro p hp
  obtain ⟨c, hc⟩ := spriteAt_isSome t kind ht p hp
  simp only [q, hc]
  exact pieceCanFitCell_eq field t p.1 p.2 c hc hlen hy

/-- C17: for every state and every movement input, MoveLeft / MoveRight changes only `x` (by
`-1` / `+1`) and RotateCCW / RotateCW changes only the rotation (by `-1` / `+1` modulo 4), and
the change is committed exactly when `pieceCanFit` holds for the candidate placement;
otherwise the piece is left exactly as it was.  Input processing never changes the field: a
tick whose forced descent is not attempted or succeeds returns the field it started with. -/
theorem processInput_moves (field : Field) (t : tetromino) (kind : Nat) (force : Bool)
    (hlen : field.length = FIELD_LENGTH) (ht : IsPiece t kind) (hy : 0 ≤ t.y) :
    (∃ b, pieceCanFit field { t with x := t.x - 1 } = some b ∧
      processInput field t force Key.left =
        some (if b then { t with x := t.x - 1 } else t, force)) ∧
    (∃ b, pieceCanFit field { t with x := t.x + 1 } = some b ∧
      processInput field t force Key.right =
        some (if b then { t with x := t.x + 1 } else t, force)) ∧
    (∃ b, pieceCanFit field { t with rot := (t.rot + 3) % 4 } = some b ∧
      (t.rot + 3) % 4 < 4 ∧
      processInput field t force Key.rotateCCW =
        some (if b then { t with rot := (t.rot + 3) % 4 } else t, force)) ∧
    (∃ b, pieceCanFit field { t with rot := (t.rot + 1) % 4 } = some b ∧
      (t.rot + 1) % 4 < 4 ∧
      processInput field t force Key.rotateCW =
        some (if b then { t with rot := (t.rot + 1) % 4 } else t, force)) ∧
    ∀ (g g' : Game) (key : Key) (rnd : Nat → Nat) (t1 : tetromino) (f1 : Bool),
      tick g key rnd = some g' →
      processInput g.field g.t (decide (g.numTicks ≥ g.maxTicksPerLine)) key = some (t1, f1) →
      (f1 = false ∨ pieceCanFit g.field { t1 with y := t1.y + 1 } = some true) →
      g'.field = g.field := by
  obtain ⟨hs1, hs2, hrot⟩ := ht
  have hxl : ({ t with x := t.x - 1 + 1 } : tetromino) = t := by
    cases t; simp
  have hxr : ({ t with x := t.x + 1 - 1 } : tetromino) = t := by
    cases t; simp
  have hccw : (if t.rot = 0 then 3 else t.rot - 1) = (t.rot + 3) % 4 := by
    split <;> omega
  have hcw : (if t.rot = 3 then 0 else t.rot + 1) = (t.rot + 1) % 4 := by
    split <;> omega
  have hne1 : (t.rot + 3) % 4 ≠ t.rot := by omega
  have hne2 : (t.rot + 1) % 4 ≠ t.rot := by omega
  refine ⟨?_, ?_, ?_, ?_, ?_⟩
  · obtain ⟨b, hb⟩ := pieceCanFit_isSome field { t with x := t.x - 1 } kind hlen
      ⟨hs1, hs2, hrot⟩ hy
    refine ⟨b, hb, ?_⟩
    unfold processInput
    cases b <;> simp [hb, hxl]
  · obtain ⟨b, hb⟩ := pieceCanFit_isSome field { t with x := t.x + 1 } kind hlen
      ⟨hs1, hs2, hrot⟩ hy
    refine ⟨b, hb, ?_⟩
    unfold processInput
    cases b <;> simp [hb, hxr]
  · obtain ⟨b, hb⟩ := pieceCanFit_isSome field { t with rot := (t.rot + 3) % 4 } kind hlen
      ⟨hs1, hs2, by simp only; omega⟩ hy
    refine ⟨b, hb, by omega, ?_⟩
    unfold processInput
    simp only [hccw, Option.bind_eq_bind, Option.pure_def, Option.some_bind, ne_eq, hne1,
      not_false_eq_true, if_true, hb]
    cases b <;> simp
  · obtain ⟨b, hb⟩ := pieceCanFit_isSome field { t with rot := (t.rot + 1) % 4 } kind hlen
      ⟨hs1, hs2, by simp only; omega⟩ hy
    refine ⟨b, hb, by omega, ?_⟩
    unfold processInput
    simp only [hcw, Option.bind_eq_bind, Option.pure_def, Option.some_bind, ne_eq, hne2,
      not_false_eq_true, if_true, hb]
    cases b <;> simp
  · intro g g' key rnd t1 f1 htick hpi hno
    obtain ⟨t1', force', t2, fix, nt, hpi', hfd, hcases⟩ := tick_cases g g' key rnd htick
    rw [hpi] at hpi'
    simp only [Option.some.injEq, Prod.mk.injEq] at hpi'
    obtain ⟨rfl, rfl⟩ := hpi'
    rcases hcases with ⟨_, rfl⟩ | ⟨_, _, rfl⟩ | ⟨hfix, _, _⟩
    · rfl
    · rfl
    · exfalso
      rcases forceDownward_cases _ _ _ _ _ _ _ hfd with ⟨_, _, hf, _⟩ | ⟨_, _, _, hf, _⟩ |
        ⟨hforce, hfail, _, _, _⟩
      · rw [hfix] at hf; simp at hf
      · rw [hfix] at hf; simp at hf
      · rcases hno with h | h
        · rw [hforce] at h; simp at h
        · rw [hfail] at h; simp at h

theorem processInput_moves_witness :
    stackedGame.field.length = FIELD_LENGTH ∧ IsPiece stackedGame.t 1 ∧
    (0 : Int) ≤ stackedGame.t.y ∧
    processInput stackedGame.field stackedGame.t false Key.left =
      some ({ stackedGame.t with x := 3 }, false) ∧
    processInput stackedGame.field (pieceAt 0 0 4 2) false Key.rotateCW =
      some (pieceAt 0 0 4 2, false) ∧
    ((∃ b, pieceCanFit stackedGame.field { stackedGame.t with x := stackedGame.t.x - 1 } =
        some b ∧
      processInput stackedGame.field stackedGame.t false Key.left =
        some (if b then { stackedGame.t with x := stackedGame.t.x - 1 } else stackedGame.t,
          false)) ∧
    (∃ b, pieceCanFit stackedGame.field { stackedGame.t with x := stackedGame.t.x + 1 } =
        some b ∧
      processInput stackedGame.field stackedGame.t false Key.right =
        some (if b then { stackedGame.t with x := stackedGame.t.x + 1 } else stackedGame.t,
          false)) ∧
    (∃ b, pieceCanFit stackedGame.field
        { stackedGame.t with rot := (stackedGame.t.rot + 3) % 4 } = some b ∧
      (stackedGame.t.rot + 3) % 4 < 4 ∧
      processInput stackedGame.field stackedGame.t false Key.rotateCCW =
        some (if b then { stackedGame.t with rot := (stackedGame.t.rot + 3) % 4 }
          else stackedGame.t, false)) ∧
    (∃ b, pieceCanFit stackedGame.field
        { stackedGame.t with rot := (stackedGame.t.rot + 1) % 4 } = some b ∧
      (stackedGame.t.rot + 1) % 4 < 4 ∧
      processInput stackedGame.field stackedGame.t false Key.rotateCW =
        some (if b then { stackedGame.t with rot := (stackedGame.t.rot + 1) % 4 }
          else stackedGame.t, false)) ∧
    ∀ (g g' : Game) (key : Key) (rnd : Nat → Nat) (t1 : tetromino) (f1 : Bool),
      tick g key rnd = some g' →
      processInput g.field g.t (decide (g.numTicks ≥ g.maxTicksPerLine)) key = some (t1, f1) →
      (f1 = false ∨ pieceCanFit g.field { t1 with y := t1.y + 1 } = some true) →
      g'.field = g.field) :=
  ⟨by decide!, by decide, by decide, by decide!, by decide!,
    processInput_moves stackedGame.field stackedGame.t 1 false (by decide!) (by decide)
      (by decide)⟩

end CTetris

namespace CTetris

/-! ## The shuffle is a bijection from draw sequences to orderings -/

theorem shuffleLoop_succ (rnd : Nat → Nat) (i : Nat) (bag : List Nat) (hi : i + 1 < bag.length)
    (hj : rnd (i + 1) < bag.length) :
    shuffleLoop rnd (i + 1) bag =
      shuffleLoop rnd i ((bag.set (i + 1) bag[rnd (i + 1)]).set (rnd (i + 1)) bag[i + 1]) := by
  simp only [shuffleLoop, List.getElem?_eq_getElem hi, List.getElem?_eq_getElem hj,
    Option.bind_eq_bind, Option.some_bind, List.length_set, hj, if_true]

theorem shuffleLoop_bounds (rnd : Nat → Nat) (i : Nat) (bag r : List Nat)
    (h : shuffleLoop rnd (i + 1) bag = some r) :
    i + 1 < bag.length ∧ rnd (i + 1) < bag.length := by
  by_cases hi : i + 1 < bag.length
  · by_cases hj : rnd (i + 1) < bag.length
    · exact ⟨hi, hj⟩
    · exfalso
      simp only [shuffleLoop, List.getElem?_eq_getElem hi,
        List.getElem?_eq_none (Nat.le_of_not_lt hj), Option.bind_eq_bind, Option.some_bind,
        Option.none_bind] at h
      simp at h
  · exfalso
    simp only [shuffleLoop, List.getElem?_eq_none (Nat.le_of_not_lt hi), Option.bind_eq_bind,
      Option.none_bind] at h
    simp at h

theorem shuffleLoop_congr (rnd rnd' : Nat → Nat) :
    ∀ (i : Nat) (bag : List Nat), (∀ k, 1 ≤ k → k ≤ i → rnd k = rnd' k) →
      shuffleLoop rnd i bag = shuffleLoop rnd' i bag := by
  intro i
  induction i with
  | zero => intro bag _; rfl
  | succ i ih =>
    intro bag h
    have hk := h (i + 1) (by omega) (by omega)
    have hfun : shuffleLoop rnd i = shuffleLoop rnd' i :=
      funext fun b => ih b (fun k h1 h2 => h k h1 (by omega))
    simp only [shuffleLoop, hk, hfun]

/-- The loop from index `i` down leaves the positions above `i` alone. -/
theorem shuffleLoop_above (rnd : Nat → Nat) :
    ∀ (i : Nat) (bag bag' : List Nat), (∀ k, 1 ≤ k → k ≤ i → rnd k ≤ k) →
      shuffleLoop rnd i bag = some bag' → ∀ p, i < p → bag'[p]? = bag[p]? := by
  intro i
  induction i with
  | zero =>
    intro bag bag' _ h p _
    simp only [shuffleLoop, Option.some.injEq] at h
    rw [h]
  | succ i ih =>
    intro bag bag' hr h p hp
    have hj := hr (i + 1) (by omega) (by omega)
    obtain ⟨hi, hjl⟩ := shuffleLoop_bounds rnd i bag bag' h
    rw [shuffleLoop_succ rnd i bag hi hjl] at h
    rw [ih _ _ (fun k a b => hr k a (by omega)) h p (by omega)]
    rw [List.getElem?_set, List.getElem?_set]
    rw [if_neg (by omega), if_neg (by omega)]

theorem swap_getElem?_top (bag : List Nat) (a j : Nat) (ha : a < bag.length)
    (hj : j < bag.length) :
    ((bag.set a bag[j]).set j bag[a])[a]? = some bag[j] := by
  rw [List.getElem?_set]
  by_cases h : j = a
  · subst h
    simp [ha]
  · rw [if_neg h, List.getElem?_set, if_pos rfl, if_pos ha]

/-- Draw sequences that give the same arrangement of distinct elements are equal. -/
theorem shuffleLoop_injective :
    ∀ (i : Nat) (bag r : List Nat) (rnd rnd' : Nat → Nat), bag.Nodup → i < bag.length →
      (∀ k, 1 ≤ k → k ≤ i → rnd k ≤ k) → (∀ k, 1 ≤ k → k ≤ i → rnd' k ≤ k) →
      shuffleLoop rnd i bag = some r → shuffleLoop rnd' i bag = some r →
      ∀ k, 1 ≤ k → k ≤ i → rnd k = rnd' k := by
  intro i
  induction i with
  | zero => intro _ _ _ _ _ _ _ _ _ _ k h1 h2; omega
  | succ i ih =>
    intro bag r rnd rnd' hnd hi hr hr' h h'
    have hj := hr (i + 1) (by omega) (by omega)
    have hj' := hr' (i + 1) (by omega) (by omega)
    rw [shuffleLoop_succ rnd i bag hi (by omega)] at h
    rw [shuffleLoop_succ rnd' i bag hi (by omega)] at h'
    have e1 := shuffleLoop_above rnd i _ r (fun k a b => hr k a (by omega)) h (i + 1) (by omega)
    have e2 := shuffleLoop_above rnd' i _ r (fun k a b => hr' k a (by omega)) h' (i + 1)
      (by omega)
    rw [swap_getElem?_top bag (i + 1) (rnd (i + 1)) hi (by omega)] at e1
    rw [swap_getElem?_top bag (i + 1) (rnd' (i + 1)) hi (by omega)] at e2
    have hb : rnd (i + 1) < bag.length := by omega
    have hb' : rnd' (i + 1) < bag.length := by omega
    have hval : bag[rnd (i + 1)] = bag[rnd' (i + 1)] := by
      have := e1.symm.trans e2
      simpa using this
    have hjj : rnd (i + 1) = rnd' (i + 1) := (List.Nodup.getElem_inj_iff hnd).mp hval
    simp only [← hjj] at h'
    have hnd1 : ((bag.set (i + 1) bag[rnd (i + 1)]).set (rnd (i + 1)) bag[i + 1]).Nodup :=
      (swap_perm bag (i + 1) (rnd (i + 1)) hi (by omega)).nodup_iff.mpr hnd
    have hrest := ih _ r rnd rnd' hnd1 (by simp; omega) (fun k a b => hr k a (by omega))
      (fun k a b => hr' k a (by omega)) h h'
    intro k hk1 hk2
    by_cases hk : k = i + 1
    · rw [hk]; exact hjj
    · exact hrest k hk1 (by omega)

/-- In an arrangement of distinct elements that agrees with `bag` above `i`, the element at
`i` comes from an index of `bag` not above `i`. -/
theorem perm_top_index (bag l : List Nat) (hnd : l.Nodup) (hp : l.Perm bag) (i : Nat)
    (hi : i < bag.length) (habove : ∀ p, i < p → l[p]? = bag[p]?) :
    ∃ j, j ≤ i ∧ ∃ hj : j < bag.length, l[i]? = some bag[j] := by
  have hl : l.length = bag.length := hp.length_eq
  have hil : i < l.length := by omega
  have hmem : l[i] ∈ bag := hp.subset (List.getElem_mem hil)
  obtain ⟨q, hq, e⟩ := List.getElem_of_mem hmem
  by_cases hqi : q ≤ i
  · exact ⟨q, hqi, hq, by rw [List.getElem?_eq_getElem hil, e]⟩
  · exfalso
    have hql : q < l.length := by omega
    have h1 := habove q (by omega)
    rw [List.getElem?_eq_getElem hql, List.getElem?_eq_getElem hq] at h1
    have h2 : l[q] = l[i] := by
      have := Option.some.inj h1
      rw [this, e]
    have := (List.Nodup.getElem_inj_iff hnd).mp h2
    omega

/-- Every arrangement of distinct elements that agrees with `bag` above `i` is produced by
some draw sequence respecting the contract. -/
theorem shuffleLoop_surjective :
    ∀ (i : Nat) (bag l : List Nat), bag.Nodup → i < bag.length → l.Perm bag →
      (∀ p, i < p → l[p]? = bag[p]?) →
      ∃ rnd : Nat → Nat, (∀ k, 1 ≤ k → k ≤ i → rnd k ≤ k) ∧ shuffleLoop rnd i bag = some l := by
  intro i
  induction i with
  | zero =>
    intro bag l hnd hi hp habove
    refine ⟨fun _ => 0, fun k h1 h2 => by omega, ?_⟩
    have hndl : l.Nodup := hp.nodup_iff.mpr hnd
    obtain ⟨j, hj, hjl, e⟩ := perm_top_index bag l hndl hp 0 hi habove
    have hj0 : j = 0 := by omega
    subst hj0
    have : l = bag := by
      apply List.ext_getElem?
      intro p
      by_cases hp0 : p = 0
      · subst hp0
        rw [e, List.getElem?_eq_getElem hjl]
      · exact habove p (by omega)
    rw [this]
    rfl
  | succ i ih =>
    intro bag l hnd hi hp habove
    have hndl : l.Nodup := hp.nodup_iff.mpr hnd
    obtain ⟨j, hj, hjl, e⟩ := perm_top_index bag l hndl hp (i + 1) hi habove
    have hsw := swap_perm bag (i + 1) j hi hjl
    have hnd1 : ((bag.set (i + 1) bag[j]).set j bag[i + 1]).Nodup := hsw.nodup_iff.mpr hnd
    have habove1 : ∀ p, i < p →
        l[p]? = ((bag.set (i + 1) bag[j]).set j bag[i + 1])[p]? := by
      intro p hpi
      by_cases hpe : p = i + 1
      · subst hpe
        rw [swap_getElem?_top bag (i + 1) j hi hjl, e]
      · rw [habove p (by omega), List.getElem?_set, List.getElem?_set]
        rw [if_neg (by omega), if_neg (by omega)]
    obtain ⟨rnd0, hr0, h0⟩ := ih _ l hnd1 (by simp only [List.length_set]; omega)
      (hp.trans hsw.symm) habove1
    refine ⟨fun k => if k = i + 1 then j else rnd0 k, ?_, ?_⟩
    · intro k h1 h2
      by_cases hk : k = i + 1
      · simp only [hk, if_true]; exact hj
      · simp only [hk, if_false]
        have := hr0 k h1 (by omega)
        omega
    · have hjj : (fun k => if k = i + 1 then j else rnd0 k) (i + 1) = j := by simp
      rw [shuffleLoop_succ _ i bag hi (by simpa using hjl)]
      simp only [hjj]
      rw [shuffleLoop_congr _ rnd0 i _ (fun k h1 h2 => by
        have : k ≠ i + 1 := by omega
        simp only [this, if_false])]
      exact h0

/-- C18: for a bag of 7 distinct elements, `shuffleArray` maps the draw sequences
`(j_6, ..., j_1)` with `0 ≤ j_i ≤ i` one-to-one onto the orderings of the bag: every such
sequence yields an ordering, two sequences with the same result agree at every index
`1..6`, every ordering is the result of some such sequence, and the orderings are the 5040
distinct members of `bag.permutations`. -/
theorem shuffleArray_bijection (bag : List Nat) (hlen : bag.length = 7) (hnd : bag.Nodup) :
    (∀ rnd : Nat → Nat, (∀ i, 1 ≤ i → i ≤ 6 → rnd i ≤ i) →
      ∃ l, shuffleArray rnd bag = some l ∧ l ∈ bag.permutations) ∧
    (∀ rnd rnd' : Nat → Nat, (∀ i, 1 ≤ i → i ≤ 6 → rnd i ≤ i) →
      (∀ i, 1 ≤ i → i ≤ 6 → rnd' i ≤ i) → shuffleArray rnd bag = shuffleArray rnd' bag →
      ∀ i, 1 ≤ i → i ≤ 6 → rnd i = rnd' i) ∧
    (∀ l, l ∈ bag.permutations →
      ∃ rnd : Nat → Nat, (∀ i, 1 ≤ i → i ≤ 6 → rnd i ≤ i) ∧ shuffleArray rnd bag = some l) ∧
    bag.permutations.length = 5040 ∧ bag.permutations.Nodup ∧
    7 * 6 * 5 * 4 * 3 * 2 = 5040 := by
  refine ⟨?_, ?_, ?_, ?_, List.nodup_permutations bag hnd, by decide⟩
  · intro rnd hr
    obtain ⟨l, h1, h2⟩ := shuffleLoop_perm rnd 6 bag (by omega) hr
    exact ⟨l, h1, List.mem_permutations.mpr h2⟩
  · intro rnd rnd' hr hr' h
    obtain ⟨l, h1, _⟩ := shuffleLoop_perm rnd 6 bag (by omega) hr
    have h2 : shuffleLoop rnd' 6 bag = some l := by
      have : shuffleLoop rnd 6 bag = shuffleLoop rnd' 6 bag := h
      rw [← this]; exact h1
    exact shuffleLoop_injective 6 bag l rnd rnd' hnd (by omega) hr hr' h1 h2
  · intro l hl
    exact shuffleLoop_surjective 6 bag l hnd (by omega) (List.mem_permutations.mp hl)
      (fun p hp => by
        have h1 : l.length = 7 := by rw [(List.mem_permutations.mp hl).length_eq, hlen]
        rw [List.getElem?_eq_none (by omega), List.getElem?_eq_none (by omega)])
  · rw [List.length_permutations, hlen]
    rfl

theorem shuffleArray_bijection_witness :
    ([0, 1, 2, 3, 4, 5, 6] : List Nat).length = 7 ∧ ([0, 1, 2, 3, 4, 5, 6] : List Nat).Nodup ∧
    ([0, 1, 2, 3, 4, 5, 6] : List Nat).permutations.length = 5040 :=
  ⟨by decide, by decide,
    (shuffleArray_bijection [0, 1, 2, 3, 4, 5, 6] (by decide) (by decide)).2.2.2.1⟩

end CTetris

namespace CTetris

/-! ## The collapse with content in the top row -/

end CTetris

namespace CTetris

/-! ## The field at the top of a loop iteration -/

theorem mem_interiorRow_of_read (field : Field) (y : Nat) (x : Int) (c : Char) (hx1 : 1 ≤ x)
    (hx2 : x ≤ 10) (h : readField field ((y : Int) * 12 + x) = some c) :
    c ∈ interiorRow field y := by
  rw [interiorRow_read field y x hx1 hx2] at h
  exact List.getElem?_mem h

theorem rowIsFull_of_interiorRow (f g : Field) (y y' : Nat)
    (h : interiorRow f y = interiorRow g y') :
    rowIsFull f (y : Int) = rowIsFull g (y' : Int) := by
  have hW : ((FIELD_WIDTH : Nat) : Int) = 12 := rfl
  rw [Bool.eq_iff_iff, rowIsFull_iff, rowIsFull_iff, hW]
  constructor
  · intro hf x hx1 hx2
    have := hf x hx1 hx2
    rw [interiorRow_read f y x hx1 hx2, h, ← interiorRow_read g y' x hx1 hx2] at this
    exact this
  · intro hf x hx1 hx2
    have := hf x hx1 hx2
    rw [interiorRow_read g y' x hx1 hx2, ← h, ← interiorRow_read f y x hx1 hx2] at this
    exact this

theorem rowIsFull_emptyRow (f : Field) (y : Nat) (h : interiorRow f y = emptyRow) :
    rowIsFull f (y : Int) = false := by
  have hW : ((FIELD_WIDTH : Nat) : Int) = 12 := rfl
  cases hfull : rowIsFull f (y : Int) with
  | false => rfl
  | true =>
    exfalso
    rw [rowIsFull_iff, hW] at hfull
    obtain ⟨c, hc, hne⟩ := hfull 1 (by omega) (by omega)
    rw [read_of_interiorRow_eq_replicate f y ' ' h 1 (by omega) (by omega)] at hc
    exact hne (Option.some.inj hc).symm

theorem pieceChars_ne_marker : ∀ kind, kind < 7 → pieceChars[kind]? ≠ some '=' := by
  decide

theorem sidelen_le_four (t : tetromino) (kind : Nat) (ht : IsPiece t kind) : t.sidelen ≤ 4 := by
  have hk := (isPiece_eq t kind ht).1
  have h1 := ht.1
  have : ∀ k, k < 7 → ∀ s, tetrominoSideLengths[k]? = some s → s ≤ 4 := by decide
  exact this kind hk _ h1

/-- The field after the lock-in of a fitting piece at a row `≥ 2`: no marker, the two top rows
still empty, and every full row is one of the rows line detection looks at. -/
theorem lockPiece_tidy (field field1 : Field) (t : tetromino) (kind : Nat)
    (hlen : field.length = FIELD_LENGTH) (hb : BorderIntact field) (htidy : Tidy field)
    (ht : IsPiece t kind) (hfit : pieceCanFit field t = some true) (hy : 2 ≤ t.y)
    (h : lockPiece field t = some field1) :
    field1.length = FIELD_LENGTH ∧
    (∀ y, y < 17 → '=' ∉ interiorRow field1 y) ∧
    interiorRow field1 0 = emptyRow ∧ interiorRow field1 1 = emptyRow ∧
    (∀ y : Nat, y < 17 → rowIsFull field1 (y : Int) = true → (y : Int) ∈ fullRows field1 t) := by
  have hW : ((FIELD_WIDTH : Nat) : Int) = 12 := rfl
  obtain ⟨f', ch, hl, hch, hlen1, hread⟩ := lockPiece_write field t kind hlen hb ht hfit
  rw [hl] at h
  obtain rfl := Option.some.inj h
  have hcells := fits_cells field t hb hfit
  have hrow : ∀ y : Nat, (∀ p ∈ occupiedCells t, t.y + (p.1 : Int) ≠ y) →
      ∀ x : Int, 1 ≤ x → x ≤ 10 →
        readField f' ((y : Int) * 12 + x) = readField field ((y : Int) * 12 + x) := by
    intro y hno x hx1 hx2
    rw [hread, if_neg]
    intro hmem
    rw [List.mem_map] at hmem
    obtain ⟨p, hp, he⟩ := hmem
    have := hcells p hp
    have hne := hno p hp
    unfold fieldIndex at he
    rw [hW] at he
    omega
  have hk := (isPiece_eq t kind ht).1
  have hchne : ch ≠ '=' := by
    intro he
    rw [he] at hch
    exact pieceChars_ne_marker kind hk hch
  refine ⟨hlen1, ?_, ?_, ?_, ?_⟩
  · intro y hy17 hmem
    obtain ⟨x, hx1, hx2, hr⟩ := mem_interiorRow f' y '=' hmem
    rw [hread] at hr
    split at hr
    · exact hchne (Option.some.inj hr)
    · exact htidy.marks y (by simp only [FIELD_HEIGHT]; omega)
        (mem_interiorRow_of_read field y x '=' hx1 hx2 hr)
  · rw [← htidy.top0]
    apply interiorRow_congr
    apply hrow 0
    intro p hp
    have := hcells p hp
    push_cast
    omega
  · rw [← htidy.top1]
    apply interiorRow_congr
    apply hrow 1
    intro p hp
    have := hcells p hp
    push_cast
    omega
  · intro y hy17 hfull
    by_cases hex : ∃ p ∈ occupiedCells t, t.y + (p.1 : Int) = y
    · obtain ⟨p, hp, he⟩ := hex
      have hbox := (mem_boxCells t.sidelen p).mp (occupied_of_mem t p hp).1
      unfold fullRows
      rw [mem_fullRowsFrom]
      refine ⟨by push_cast; omega, by push_cast; omega, by omega, hfull⟩
    · exfalso
      have hno : ∀ p ∈ occupiedCells t, t.y + (p.1 : Int) ≠ y := by
        intro p hp he
        exact hex ⟨p, hp, he⟩
      have hsame : rowIsFull f' (y : Int) = rowIsFull field (y : Int) := by
        apply rowIsFull_congr
        intro x hx1 hx2
        rw [hW]
        exact hrow y hno x hx1 hx2
      rw [hsame, htidy.full y (by simp only [FIELD_HEIGHT]; omega)] at hfull
      exact Bool.noConfusion hfull

end CTetris

namespace CTetris

theorem fullRows_nodup (field : Field) (t : tetromino) : (fullRows field t).Nodup := by
  unfold fullRows fullRowsFrom
  apply List.Nodup.filter
  apply List.Nodup.map
  · intro a b hab
    simp only at hab
    omega
  · exact List.nodup_range' 0 t.sidelen

theorem fullRows_length_le (field : Field) (t : tetromino) :
    (fullRows field t).length ≤ t.sidelen := by
  unfold fullRows fullRowsFrom
  refine (List.length_filter_le _ _).trans ?_
  rw [List.length_map, List.length_range']

theorem markedRow_has_marker : '=' ∈ markedRow := by decide

/-- Line detection after a lock-in at a row `≥ 2`: each row is either marked, and then it is
one of the full rows, or it is as before and not full; the count and the lowest row returned
describe the marked rows. -/
theorem checkLines_tidy (field1 field2 : Field) (t : tetromino) (n L : Int)
    (hlen : field1.length = FIELD_LENGTH) (hy : 2 ≤ t.y) (hs : t.sidelen ≤ 4)
    (hmarks : ∀ y, y < 17 → '=' ∉ interiorRow field1 y)
    (hfull : ∀ y : Nat, y < 17 → rowIsFull field1 (y : Int) = true →
      (y : Int) ∈ fullRows field1 t)
    (h : checkLines field1 t = some (field2, n, L)) :
    field2.length = FIELD_LENGTH ∧ 0 ≤ n ∧ n ≤ 4 ∧ n = ((fullRows field1 t).length : Int) ∧
    (∀ y : Nat, y < 17 →
      (interiorRow field2 y = markedRow ∧ 2 ≤ y ∧ 0 < n ∧ (y : Int) ≤ L ∧
        (y : Int) ∈ fullRows field1 t) ∨
      (interiorRow field2 y = interiorRow field1 y ∧ interiorRow field2 y ≠ markedRow ∧
        rowIsFull field1 (y : Int) = false)) ∧
    (0 < n → ∃ Ln : Nat, L = (Ln : Int) ∧ Ln ≤ 16 ∧ interiorRow field2 Ln = markedRow ∧
      n = (((interiorRows field2 (Ln + 1)).countP (fun r => r == markedRow) : Nat) : Int)) := by
  have hW : ((FIELD_WIDTH : Nat) : Int) = 12 := rfl
  obtain ⟨field', L', e1, e2, _, e4, e5, e6⟩ :=
    checkLinesLoop_spec t (by omega) t.sidelen 0 field1 0 0 hlen
  unfold checkLines at h
  rw [List.range_eq_range', e1] at h
  simp only [Option.some.injEq, Prod.mk.injEq] at h
  obtain ⟨rfl, rfl, rfl⟩ := h
  have hR : fullRowsFrom field1 t 0 t.sidelen = fullRows field1 t := rfl
  rw [hR] at e4 e5 e6
  have hn : (0 : Int) + ((fullRowsFrom field1 t 0 t.sidelen).length : Int) =
      ((fullRows field1 t).length : Int) := by rw [hR]; omega
  rw [hn]
  have hmemR : ∀ r, r ∈ fullRows field1 t → 2 ≤ r ∧ r ≤ 16 ∧ rowIsFull field1 r = true := by
    intro r hr
    have := (mem_fullRowsFrom field1 t 0 t.sidelen r).mp hr
    exact ⟨by omega, this.2.2.1, this.2.2.2⟩
  have hmax : ∀ r, r ∈ fullRows field1 t → r ≤ L' := by
    intro r hr
    exact (e4 (List.ne_nil_of_mem hr)).2 r hr
  have hrows : ∀ y : Nat, y < 17 →
      ((y : Int) ∈ fullRows field1 t → interiorRow field' y = markedRow) ∧
      ((y : Int) ∉ fullRows field1 t → interiorRow field' y = interiorRow field1 y ∧
        interiorRow field' y ≠ markedRow ∧ rowIsFull field1 (y : Int) = false) := by
    intro y hy17
    constructor
    · intro hin
      apply interiorRow_eq_replicate
      intro x hx1 hx2
      apply e5
      exact ⟨(y : Int), hin, x, hx1, hx2, by rw [hW]⟩
    · intro hnin
      have hsame : interiorRow field' y = interiorRow field1 y := by
        apply interiorRow_congr
        intro x hx1 hx2
        apply e6
        rintro ⟨r, hr, x', hx1', hx2', he⟩
        rw [hW] at he
        have : r = (y : Int) := by omega
        rw [this] at hr
        exact hnin hr
      refine ⟨hsame, ?_, ?_⟩
      · intro hm
        rw [hsame] at hm
        apply hmarks y hy17
        rw [hm]
        exact markedRow_has_marker
      · cases hf : rowIsFull field1 (y : Int) with
        | false => rfl
        | true => exact absurd (hfull y hy17 hf) hnin
  have hpos : ∀ r, r ∈ fullRows field1 t → (0 : Int) < ((fullRows field1 t).length : Int) := by
    intro r hr
    have := List.length_pos_of_mem hr
    omega
  refine ⟨e2, by omega, ?_, rfl, ?_, ?_⟩
  · have := fullRows_length_le field1 t
    omega
  · intro y hy17
    by_cases hin : (y : Int) ∈ fullRows field1 t
    · left
      have := hmemR _ hin
      exact ⟨(hrows y hy17).1 hin, by omega, hpos _ hin, hmax _ hin, hin⟩
    · right
      exact (hrows y hy17).2 hin
  · intro hnpos
    have hne : fullRows field1 t ≠ [] := by
      intro hnil
      rw [hnil] at hnpos
      simp at hnpos
    obtain ⟨hLin, hLmax⟩ := e4 hne
    have hLr := hmemR _ hLin
    obtain ⟨Ln, rfl⟩ : ∃ Ln : Nat, L' = (Ln : Int) := ⟨L'.toNat, by omega⟩
    have hLn16 : Ln ≤ 16 := by omega
    have hmk : ∀ y : Nat, y ∈ markedRows field' ↔ (y : Int) ∈ fullRows field1 t := by
      intro y
      rw [mem_markedRows]
      constructor
      · rintro ⟨hy16, hm⟩
        by_contra hnin
        exact ((hrows y (by omega)).2 hnin).2.1 hm
      · intro hin
        have := hmemR _ hin
        exact ⟨by omega, (hrows y (by omega)).1 hin⟩
    have hperm : ((markedRows field').map (fun (y : Nat) => (y : Int))).Perm
        (fullRows field1 t) := by
      rw [List.perm_ext_iff_of_nodup _ (fullRows_nodup field1 t)]
      · intro a
        rw [List.mem_map]
        constructor
        · rintro ⟨y, hy, rfl⟩
          exact (hmk y).mp hy
        · intro ha
          have := hmemR _ ha
          refine ⟨a.toNat, (hmk _).mpr ?_, ?_⟩
          · rw [Int.toNat_of_nonneg (by omega)]; exact ha
          · exact Int.toNat_of_nonneg (by omega)
      · apply List.Nodup.map
        · intro a b hab
          simp only at hab
          omega
        · unfold markedRows
          exact List.Nodup.filter _ (List.nodup_range _)
    have hcount := markedRows_length field' Ln hLn16 (fun y hy => by
      have := hLmax _ ((hmk y).mp hy)
      omega)
    refine ⟨Ln, rfl, hLn16, (hrows Ln (by omega)).1 hLin, ?_⟩
    rw [← hcount, ← hperm.length_eq, List.length_map]

end CTetris

namespace CTetris

theorem emptyRow_no_marker : '=' ∉ emptyRow := by decide

theorem interiorRows_getElem? (field : Field) (m y : Nat) (hy : y < m) :
    (interiorRows field m)[y]? = some (interiorRow field y) := by
  unfold interiorRows rowsFrom
  rw [List.getElem?_map, List.getElem?_range' _ _ hy]
  simp

/-- The collapse of a field whose marked rows lie in the rows `2..Ln` and whose other rows
are not full: it returns for every fuel from 17 on, and the result has no marker, empty rows
0 and 1, and no full row. -/
theorem clearLines_tidy (field2 : Field) (Ln : Nat) (hlen : field2.length = FIELD_LENGTH)
    (h0 : interiorRow field2 0 = emptyRow) (h1 : interiorRow field2 1 = emptyRow)
    (hL2 : 2 ≤ Ln) (hL : Ln ≤ 16) (hLm : interiorRow field2 Ln = markedRow)
    (hrows : ∀ y : Nat, y < 17 →
      (interiorRow field2 y = markedRow ∧ y ≤ Ln) ∨
      ('=' ∉ interiorRow field2 y ∧ rowIsFull field2 (y : Int) = false))
    (fuel : Nat) (hfuel : 17 ≤ fuel) :
    ∃ field3,
      clearLinesFromField fuel field2
        (((interiorRows field2 (Ln + 1)).countP (fun r => r == markedRow) : Nat) : Int)
        (Ln : Int) = some field3 ∧
      field3.length = FIELD_LENGTH ∧ Tidy field3 := by
  have hm : MarksAreRows field2 := by
    intro y hy hmem
    rcases hrows y (by simp only [FIELD_HEIGHT] at hy; omega) with ⟨h, _⟩ | ⟨h, _⟩
    · exact h
    · exact absurd hmem h
  have hle : (interiorRows field2 (Ln + 1)).countP (fun r => r == markedRow) ≤ fuel := by
    have := List.countP_le_length (fun r => r == markedRow) (l := interiorRows field2 (Ln + 1))
    unfold interiorRows at this
    rw [rowsFrom_length] at this
    unfold interiorRows
    omega
  obtain ⟨field3, e1, e2, e3, e4⟩ :=
    clearLinesLoop_spec fuel hfuel fuel field2 Ln hlen h0 hm hL hLm hle
  refine ⟨field3, e1, e2, ?_⟩
  have hsrc : ∀ y : Nat, y < 17 → interiorRow field3 y = emptyRow ∨
      ∃ y' : Nat, y' < 17 ∧ interiorRow field3 y = interiorRow field2 y' ∧
        interiorRow field2 y' ≠ markedRow := by
    intro y hy
    by_cases hyL : y ≤ Ln
    · have hrow : interiorRow field3 y ∈ interiorRows field3 (Ln + 1) := by
        unfold interiorRows
        rw [mem_rowsFrom]
        exact ⟨y, by omega, by omega, rfl⟩
      rw [e3, List.mem_append] at hrow
      rcases hrow with hr | hr
      · exact Or.inl (List.eq_of_mem_replicate hr)
      · right
        rw [List.mem_filter] at hr
        obtain ⟨hr1, hr2⟩ := hr
        unfold interiorRows at hr1
        rw [mem_rowsFrom] at hr1
        obtain ⟨y', _, hy', he⟩ := hr1
        refine ⟨y', by omega, he.symm, ?_⟩
        rw [he]
        simpa using hr2
    · right
      refine ⟨y, hy, ?_, ?_⟩
      · apply interiorRow_congr
        intro x hx1 hx2
        apply e4
        omega
      · intro hmk
        rcases hrows y hy with ⟨_, h⟩ | ⟨h, _⟩
        · omega
        · rw [hmk] at h
          exact h markedRow_has_marker
  have hunmarked : ∀ y' : Nat, y' < 17 → interiorRow field2 y' ≠ markedRow →
      '=' ∉ interiorRow field2 y' ∧ rowIsFull field2 (y' : Int) = false := by
    intro y' hy' hne
    rcases hrows y' hy' with ⟨h, _⟩ | h
    · exact absurd h hne
    · exact h
  have hsplit : interiorRows field2 (Ln + 1) =
      List.replicate 2 emptyRow ++ rowsFrom field2 2 (Ln - 1) := by
    have := interiorRows_split field2 2 (Ln - 1)
    rw [show 2 + (Ln - 1) = Ln + 1 by omega] at this
    rw [this]
    have h2 : interiorRows field2 2 = [interiorRow field2 0, interiorRow field2 1] := rfl
    rw [h2, h0, h1]
    rfl
  have htop : ∀ y : Nat, y < 2 → interiorRow field3 y = emptyRow := by
    intro y hy
    have hget := interiorRows_getElem? field3 (Ln + 1) y (by omega)
    rw [e3, hsplit, List.filter_append, filter_replicate_empty, ← List.append_assoc,
      ← List.replicate_add, List.getElem?_append_left (by rw [List.length_replicate]; omega),
      List.getElem?_replicate, if_pos (by omega)] at hget
    exact (Option.some.inj hget).symm
  refine ⟨?_, htop 0 (by omega), htop 1 (by omega), ?_⟩
  · intro y hy hmem
    rcases hsrc y (by simp only [FIELD_HEIGHT] at hy; omega) with h | ⟨y', hy', he, hne⟩
    · rw [h] at hmem
      exact emptyRow_no_marker hmem
    · rw [he] at hmem
      exact (hunmarked y' hy' hne).1 hmem
  · intro y hy
    rcases hsrc y (by simp only [FIELD_HEIGHT] at hy; omega) with h | ⟨y', hy', he, hne⟩
    · exact rowIsFull_emptyRow field3 y h
    · rw [rowIsFull_of_interiorRow field3 field2 y y' he]
      exact (hunmarked y' hy' hne).2

end CTetris

namespace CTetris

/-! ## Level advance -/

/-- The level advance of the block run after a lock that marked `n` rows. -/
theorem scoreAndClear_progress (g : Game) (n L : Int) (field' : Field)
    (hn : 1 ≤ n ∧ n ≤ 4) (hc : g.tenLineCounter ≤ 9)
    (hclear : clearLinesFromField FIELD_LENGTH g.field n L = some field') :
    ∃ g', scoreAndClear g n L = some g' ∧ g'.field = field' ∧
      (10 ≤ (g.tenLineCounter : Int) + n →
        g'.level = (g.level + 1) % 2 ^ 32 ∧
        (g'.tenLineCounter : Int) = (g.tenLineCounter : Int) + n - 10 ∧
        ((g.level + 1) % 2 ^ 32 < 8 ∧ 5 < g.maxTicksPerLine →
          (g'.maxTicksPerLine : Int) = g.maxTicksPerLine - 5) ∧
        (¬ ((g.level + 1) % 2 ^ 32 < 8 ∧ 5 < g.maxTicksPerLine) → 1 < g.maxTicksPerLine →
          (g'.maxTicksPerLine : Int) = g.maxTicksPerLine - 1) ∧
        (¬ ((g.level + 1) % 2 ^ 32 < 8 ∧ 5 < g.maxTicksPerLine) → g.maxTicksPerLine ≤ 1 →
          g'.maxTicksPerLine = g.maxTicksPerLine)) ∧
      ((g.tenLineCounter : Int) + n < 10 →
        g'.level = g.level ∧ g'.maxTicksPerLine = g.maxTicksPerLine ∧
        (g'.tenLineCounter : Int) = (g.tenLineCounter : Int) + n) ∧
      g'.tenLineCounter ≤ 9 ∧ (1 ≤ g.maxTicksPerLine → 1 ≤ g'.maxTicksPerLine) := by
  have hpos : n > 0 := by omega
  have hcnt : ((g.tenLineCounter : Int) + n).toNat % 2 ^ 32 = g.tenLineCounter + n.toNat := by
    have : ((g.tenLineCounter : Int) + n).toNat = g.tenLineCounter + n.toNat := by omega
    rw [this]
    apply Nat.mod_eq_of_lt
    have : g.tenLineCounter + n.toNat ≤ 13 := by omega
    exact Nat.lt_of_le_of_lt this (by decide)
  unfold scoreAndClear
  simp only [hpos, if_true, hclear, Option.bind_eq_bind, Option.some_bind, Option.pure_def, hcnt]
  refine ⟨_, rfl, rfl, ?_, ?_, ?_, ?_⟩
  · intro h10
    have h10' : g.tenLineCounter + n.toNat ≥ 10 := by omega
    rw [if_pos h10']
    by_cases hA : (g.level + 1) % 2 ^ 32 < 8 ∧ g.maxTicksPerLine > 5
    · rw [if_pos hA]
      dsimp only
      exact ⟨rfl, by omega, fun _ => by omega, fun h => absurd hA h, fun h => absurd hA h⟩
    · rw [if_neg hA]
      by_cases hB : g.maxTicksPerLine > 1
      · rw [if_pos hB]
        dsimp only
        exact ⟨rfl, by omega, fun h => absurd h hA, fun _ _ => by omega, fun _ h => by omega⟩
      · rw [if_neg hB]
        dsimp only
        exact ⟨rfl, by omega, fun h => absurd h hA, fun _ h => absurd h hB, fun _ _ => rfl⟩
  · intro h10
    have h10' : ¬ g.tenLineCounter + n.toNat ≥ 10 := by omega
    rw [if_neg h10']
    dsimp only
    exact ⟨rfl, rfl, by omega⟩
  · by_cases h10 : g.tenLineCounter + n.toNat ≥ 10
    · rw [if_pos h10]
      by_cases hA : (g.level + 1) % 2 ^ 32 < 8 ∧ g.maxTicksPerLine > 5
      · rw [if_pos hA]; dsimp only; omega
      · rw [if_neg hA]
        by_cases hB : g.maxTicksPerLine > 1
        · rw [if_pos hB]; dsimp only; omega
        · rw [if_neg hB]; dsimp only; omega
    · rw [if_neg h10]; dsimp only; omega
  · intro hm
    by_cases h10 : g.tenLineCounter + n.toNat ≥ 10
    · rw [if_pos h10]
      by_cases hA : (g.level + 1) % 2 ^ 32 < 8 ∧ g.maxTicksPerLine > 5
      · rw [if_pos hA]; dsimp only; omega
      · rw [if_neg hA]
        by_cases hB : g.maxTicksPerLine > 1
        · rw [if_pos hB]; dsimp only; omega
        · rw [if_neg hB]; dsimp only; omega
    · rw [if_neg h10]; dsimp only; omega

end CTetris

namespace CTetris

/-! ## The tidy field is an invariant of the game loop -/

/-- The piece that the lock path of an iteration locks: it is the current piece, it fits, and
its row is at least 2. -/
theorem lock_path_piece (g : Game) (key : Key) (hinv : Inv g) (t1 t2 : tetromino)
    (force : Bool) (nt : Int)
    (hpi : processInput g.field g.t (decide (g.numTicks ≥ g.maxTicksPerLine)) key =
      some (t1, force))
    (hfd : forceDownward g.field t1 force g.numTicks = some (t2, true, nt))
    (hy : ¬ t2.y ≤ 1) :
    IsPiece t2 g.currentPieceNum ∧ pieceCanFit g.field t2 = some true ∧ 2 ≤ t2.y := by
  obtain ⟨hp1, hy1, hsame⟩ := processInput_spec _ _ _ _ _ _ _ hinv.piece hpi
  have hfit1 : pieceCanFit g.field t1 = some true ∨ (t1.x = 4 ∧ t1.y = 1 ∧ t1.rot = 0) := by
    rcases hsame with rfl | hf
    · exact hinv.fits
    · exact Or.inl hf
  have ht21 : t2 = t1 := by
    rcases forceDownward_cases _ _ _ _ _ _ _ hfd with ⟨_, _, hf, _⟩ | ⟨_, _, _, hf, _⟩ |
      ⟨_, _, ht, _, _⟩
    · exact Bool.noConfusion hf
    · exact Bool.noConfusion hf
    · exact ht
  subst ht21
  refine ⟨hp1, ?_, by omega⟩
  rcases hfit1 with hf | ⟨_, h1, _⟩
  · exact hf
  · omega

/-- Lock-in and line detection from a tidy field: every full row is found and marked; without
a full row the field stays tidy; with one, the collapse returns for every fuel from 17 on and
leaves a tidy field. -/
theorem lock_path_fields (field field1 field2 : Field) (t : tetromino) (kind : Nat) (n L : Int)
    (hlen : field.length = FIELD_LENGTH) (hb : BorderIntact field) (htidy : Tidy field)
    (ht : IsPiece t kind) (hfit : pieceCanFit field t = some true) (hy : 2 ≤ t.y)
    (hlock : lockPiece field t = some field1)
    (hcheck : checkLines field1 t = some (field2, n, L)) :
    field2.length = FIELD_LENGTH ∧ 0 ≤ n ∧ n ≤ 4 ∧
    (interiorRow field2 0 = emptyRow ∧ interiorRow field2 1 = emptyRow) ∧
    (∀ y : Nat, y < 17 → rowIsFull field1 (y : Int) = true →
      (y : Int) ∈ fullRows field1 t ∧ interiorRow field2 y = markedRow) ∧
    (¬ 0 < n → Tidy field2) ∧
    (0 < n → ∀ fuel, 17 ≤ fuel →
      ∃ field3, clearLinesFromField fuel field2 n L = some field3 ∧
        field3.length = FIELD_LENGTH ∧ Tidy field3) := by
  obtain ⟨hlen1, hmarks1, h10, h11, hfull1⟩ :=
    lockPiece_tidy field field1 t kind hlen hb htidy ht hfit hy hlock
  obtain ⟨hlen2, hn0, hn4, _, hrows, hpos⟩ :=
    checkLines_tidy field1 field2 t n L hlen1 hy (sidelen_le_four t kind ht) hmarks1 hfull1
      hcheck
  have hkeep : ∀ y : Nat, y < 17 → interiorRow field2 y ≠ markedRow →
      interiorRow field2 y = interiorRow field1 y ∧ rowIsFull field2 (y : Int) = false := by
    intro y hy17 hne
    rcases hrows y hy17 with ⟨h, _⟩ | ⟨h1, _, h3⟩
    · exact absurd h hne
    · exact ⟨h1, by rw [rowIsFull_of_interiorRow field2 field1 y y h1]; exact h3⟩
  have htop : ∀ y : Nat, y < 2 → interiorRow field2 y = interiorRow field1 y := by
    intro y hy2
    rcases hrows y (by omega) with ⟨_, h, _⟩ | ⟨h, _⟩
    · omega
    · exact h
  refine ⟨hlen2, hn0, hn4, ⟨by rw [htop 0 (by omega)]; exact h10,
    by rw [htop 1 (by omega)]; exact h11⟩, ?_, ?_, ?_⟩
  · intro y hy17 hf
    rcases hrows y hy17 with ⟨h1, _, _, _, h5⟩ | ⟨_, _, h3⟩
    · exact ⟨h5, h1⟩
    · rw [h3] at hf
      exact Bool.noConfusion hf
  · intro hn
    have hall : ∀ y : Nat, y < 17 →
        interiorRow field2 y = interiorRow field1 y ∧ rowIsFull field2 (y : Int) = false := by
      intro y hy17
      rcases hrows y hy17 with ⟨_, _, h, _⟩ | ⟨h1, h2, _⟩
      · exact absurd h hn
      · exact hkeep y hy17 h2
    refine ⟨?_, ?_, ?_, ?_⟩
    · intro y hy17 hmem
      have hy17' : y < 17 := by simp only [FIELD_HEIGHT] at hy17; omega
      rw [(hall y hy17').1] at hmem
      exact hmarks1 y hy17' hmem
    · rw [(hall 0 (by omega)).1]; exact h10
    · rw [(hall 1 (by omega)).1]; exact h11
    · intro y hy17
      exact (hall y (by simp only [FIELD_HEIGHT] at hy17; omega)).2
  · intro hn fuel hfuel
    obtain ⟨Ln, rfl, hLn, hLm, hcount⟩ := hpos hn
    have hL2 : 2 ≤ Ln := by
      rcases hrows Ln (by omega) with ⟨_, h, _⟩ | ⟨_, h, _⟩
      · exact h
      · exact absurd hLm h
    have := clearLines_tidy field2 Ln hlen2 (by rw [htop 0 (by omega)]; exact h10)
      (by rw [htop 1 (by omega)]; exact h11) hL2 hLn hLm (fun y hy17 => by
        rcases hrows y hy17 with ⟨h1, _, _, h4, _⟩ | ⟨h1, h2, _⟩
        · exact Or.inl ⟨h1, by omega⟩
        · right
          obtain ⟨e1, e2⟩ := hkeep y hy17 h2
          refine ⟨?_, e2⟩
          rw [e1]
          exact hmarks1 y hy17) fuel hfuel
    rw [← hcount] at this
    exact this

theorem initField_tidy : Tidy initField :=
  ⟨by decide!, by decide!, by decide!, by decide!⟩

theorem initGame_fields (rnd : Nat → Nat) (g : Game) (h : initGame rnd = some g) :
    g.field = initField ∧ g.tenLineCounter = 0 ∧ g.maxTicksPerLine = 48 := by
  unfold initGame at h
  simp only [Option.bind_eq_bind, Option.pure_def] at h
  cases hs : shuffleArray rnd [0, 1, 2, 3, 4, 5, 6] with
  | none => simp [hs] at h
  | some bag =>
    simp only [hs, Option.some_bind] at h
    cases h1 : bag[0]? with
    | none => simp [h1] at h
    | some num =>
      simp only [h1, Option.some_bind] at h
      cases h2 : spawnPiece num with
      | none => simp [h2] at h
      | some t =>
        simp only [h2, Option.some_bind, Option.some.injEq] at h
        subst h
        exact ⟨rfl, rfl, rfl⟩

/-- One iteration of the game loop keeps the field tidy, the ten-line counter below 10 and
the gravity period positive. -/
theorem tick_tidy (g g' : Game) (key : Key) (rnd : Nat → Nat) (hinv : Inv g)
    (htidy : Tidy g.field) (hc : g.tenLineCounter ≤ 9) (hm : 1 ≤ g.maxTicksPerLine)
    (h : tick g key rnd = some g') :
    Tidy g'.field ∧ g'.tenLineCounter ≤ 9 ∧ 1 ≤ g'.maxTicksPerLine := by
  obtain ⟨t1, force, t2, fix, nt, hpi, hfd, hcases⟩ := tick_cases g g' key rnd h
  rcases hcases with ⟨_, rfl⟩ | ⟨_, _, rfl⟩ |
    ⟨hfix, hy2, field1, field2, n, L, bag, idx, num, tnew, gmid, hlock, hcheck, hnext, hsc, rfl⟩
  · exact ⟨htidy, hc, hm⟩
  · exact ⟨htidy, hc, hm⟩
  · subst hfix
    obtain ⟨hp2, hfit2, hrow2⟩ := lock_path_piece g key hinv t1 t2 force nt hpi hfd hy2
    obtain ⟨hlen2, hn0, hn4, _, _, hzero, hpos⟩ :=
      lock_path_fields g.field field1 field2 t2 _ n L hinv.length hinv.border htidy hp2 hfit2
        hrow2 hlock hcheck
    by_cases hn : 0 < n
    · obtain ⟨field3, hclear, _, htidy3⟩ := hpos hn FIELD_LENGTH (by decide)
      obtain ⟨g'', hsc', hf, _, _, hc', hm'⟩ :=
        scoreAndClear_progress { g with
            t := tnew, numTicks := nt, field := field2, pieceBag := bag,
            currentBagIndex := idx, currentPieceNum := num } n L field3
          ⟨by omega, hn4⟩ hc hclear
      rw [hsc'] at hsc
      obtain rfl := Option.some.inj hsc
      exact ⟨by simp only [hf]; exact htidy3, hc', hm' hm⟩
    · rcases scoreAndClear_cases _ _ _ _ hsc with ⟨_, rfl⟩ | ⟨hn', _⟩
      · exact ⟨hzero hn, hc, hm⟩
      · exact absurd hn' hn

/-- Every reachable state has a tidy field, a ten-line counter below 10 and a positive
gravity period. -/
theorem reachable_tidy (g : Game) (h : Reachable g) :
    Tidy g.field ∧ g.tenLineCounter ≤ 9 ∧ 1 ≤ g.maxTicksPerLine := by
  induction h with
  | init rnd g h =>
    obtain ⟨e1, e2, e3⟩ := initGame_fields rnd g h
    rw [e1, e2, e3]
    exact ⟨initField_tidy, by omega, by omega⟩
  | step g g' key rnd hr _ ht ih =>
    exact tick_tidy g g' key rnd (reachable_inv g hr) ih.1 ih.2.1 ih.2.2 ht

end CTetris

namespace CTetris

/-! ## Level advance, markers and full rows, and the collapse in reachable states -/

theorem lineGame_reachable : Reachable lineGame :=
  run_reachable lineInputs { startGame with pieceBag := [0, 5, 6, 3, 4, 1, 2] } lineGame
    (Reachable.init rndLine _ (by decide!)) (by decide!)

theorem no_marker_of_rows (field : Field) (hlen : field.length = FIELD_LENGTH)
    (hb : BorderIntact field) (hm : ∀ y, y < FIELD_HEIGHT - 1 → '=' ∉ interiorRow field y) :
    '=' ∉ field := by
  intro hmem
  obtain ⟨i, hi⟩ := List.mem_iff_getElem?.mp hmem
  have hi216 : i < 216 := by
    have := (List.getElem?_eq_some_iff.mp hi).1
    rw [hlen] at this
    simpa [FIELD_LENGTH, FIELD_WIDTH, FIELD_HEIGHT] using this
  obtain ⟨x, y, hx, hy, rfl⟩ : ∃ x y : Nat, x < 12 ∧ y < 18 ∧ i = y * 12 + x :=
    ⟨i % 12, i / 12, by omega, by omega, by omega⟩
  by_cases hbd : x = 0 ∨ x = 11 ∨ y = 17
  · have := hb x (by simp only [FIELD_WIDTH]; omega) y (by simp only [FIELD_HEIGHT]; omega)
      (by simp only [FIELD_WIDTH, FIELD_HEIGHT]; omega)
    simp only [FIELD_WIDTH] at this
    rw [this] at hi
    simp at hi
  · have hrd : readField field ((y : Int) * 12 + (x : Int)) = some '=' := by
      have : (y : Int) * 12 + (x : Int) = ((y * 12 + x : Nat) : Int) := by push_cast; ring
      rw [this, readField_natCast]; exact hi
    exact hm y (by simp only [FIELD_HEIGHT]; omega)
      (mem_interiorRow_of_read field y x '=' (by omega) (by omega) hrd)

/-- C19: in every reachable state the field contains no clear-marker and no interior row of
the rows `0..16` has all ten interior cells non-empty; on the lock path of an iteration every
row that is full after the lock-in is one of the rows line detection scans and is marked by
it; and after the iteration the field again has no marker and no full row. -/
theorem no_marker_no_full_row (g : Game) (h : Reachable g) :
    '=' ∉ g.field ∧
    (∀ y : Nat, y < 17 → rowIsFull g.field (y : Int) = false) ∧
    (∀ (key : Key) (t1 t2 : tetromino) (force : Bool) (nt : Int) (field1 field2 : Field)
        (n L : Int),
      processInput g.field g.t (decide (g.numTicks ≥ g.maxTicksPerLine)) key =
        some (t1, force) →
      forceDownward g.field t1 force g.numTicks = some (t2, true, nt) → ¬ t2.y ≤ 1 →
      lockPiece g.field t2 = some field1 → checkLines field1 t2 = some (field2, n, L) →
      ∀ y : Nat, y < 17 → rowIsFull field1 (y : Int) = true →
        (y : Int) ∈ fullRows field1 t2 ∧ interiorRow field2 y = markedRow) ∧
    ∀ (key : Key) (rnd : Nat → Nat) (g' : Game), tick g key rnd = some g' →
      '=' ∉ g'.field ∧ ∀ y : Nat, y < 17 → rowIsFull g'.field (y : Int) = false := by
  have hinv := reachable_inv g h
  obtain ⟨htidy, hc, hm⟩ := reachable_tidy g h
  refine ⟨no_marker_of_rows g.field hinv.length hinv.border htidy.marks,
    fun y hy => htidy.full y (by simp only [FIELD_HEIGHT]; omega), ?_, ?_⟩
  · intro key t1 t2 force nt field1 field2 n L hpi hfd hy2 hlock hcheck
    obtain ⟨hp2, hfit2, hrow2⟩ := lock_path_piece g key hinv t1 t2 force nt hpi hfd hy2
    exact (lock_path_fields g.field field1 field2 t2 _ n L hinv.length hinv.border htidy hp2
      hfit2 hrow2 hlock hcheck).2.2.2.2.1
  · intro key rnd g' ht
    have hinv' := tick_inv g g' key rnd hinv ht
    obtain ⟨htidy', _, _⟩ := tick_tidy g g' key rnd hinv htidy hc hm ht
    exact ⟨no_marker_of_rows g'.field hinv'.length hinv'.border htidy'.marks,
      fun y hy => htidy'.full y (by simp only [FIELD_HEIGHT]; omega)⟩

theorem no_marker_no_full_row_witness :
    Reachable lineGame ∧
    processInput lineGame.field lineGame.t
      (decide (lineGame.numTicks ≥ lineGame.maxTicksPerLine)) Key.down =
        some (pieceAt 6 0 8 15, true) ∧
    forceDownward lineGame.field (pieceAt 6 0 8 15) true lineGame.numTicks =
      some (pieceAt 6 0 8 15, true, 0) ∧
    lockPiece lineGame.field (pieceAt 6 0 8 15) = some lineLockedField ∧
    checkLines lineLockedField (pieceAt 6 0 8 15) = some (lineMarkedField, 1, 16) ∧
    rowIsFull lineLockedField ((16 : Nat) : Int) = true ∧
    (((16 : Nat) : Int) ∈ fullRows lineLockedField (pieceAt 6 0 8 15) ∧
      interiorRow lineMarkedField 16 = markedRow) ∧
    '=' ∉ lineGame.field :=
  ⟨lineGame_reachable, by decide!, by decide!, by decide!, by decide!, by decide!,
    (no_marker_no_full_row lineGame lineGame_reachable).2.2.1 Key.down (pieceAt 6 0 8 15)
      (pieceAt 6 0 8 15) true 0 lineLockedField lineMarkedField 1 16 (by decide!) (by decide!)
      (by decide) (by decide!) (by decide!) 16 (by decide) (by decide!),
    (no_marker_no_full_row lineGame lineGame_reachable).1⟩

/-- C20: in every reachable state the interior rows 0 and 1 of the field are empty; a lock
happens only at a row `≥ 2`; and whenever an iteration from a reachable state reaches the call
of `clearLinesFromField` (the lock path marked at least one row), the field passed to it has
216 cells and empty interior rows 0 and 1, and the call returns a field for every bound of 17
or more on its loops, among them the bound the game model uses: both upward scans stop, and
every read and write is inside the array, since the model fails on an index outside
`[0, 216)`. -/
theorem clearLines_terminates (g : Game) (h : Reachable g) :
    interiorRow g.field 0 = emptyRow ∧ interiorRow g.field 1 = emptyRow ∧
    ∀ (key : Key) (t1 t2 : tetromino) (force : Bool) (nt : Int) (field1 field2 : Field)
        (n L : Int),
      processInput g.field g.t (decide (g.numTicks ≥ g.maxTicksPerLine)) key =
        some (t1, force) →
      forceDownward g.field t1 force g.numTicks = some (t2, true, nt) → ¬ t2.y ≤ 1 →
      lockPiece g.field t2 = some field1 → checkLines field1 t2 = some (field2, n, L) →
      0 < n →
      2 ≤ t2.y ∧ field2.length = 216 ∧
      interiorRow field2 0 = emptyRow ∧ interiorRow field2 1 = emptyRow ∧
      (∀ fuel, 17 ≤ fuel → ∃ field3, clearLinesFromField fuel field2 n L = some field3 ∧
        field3.length = 216) ∧
      ∃ field3, clearLinesFromField FIELD_LENGTH field2 n L = some field3 ∧
        field3.length = 216 := by
  have hinv := reachable_inv g h
  obtain ⟨htidy, _, _⟩ := reachable_tidy g h
  refine ⟨htidy.top0, htidy.top1, ?_⟩
  intro key t1 t2 force nt field1 field2 n L hpi hfd hy2 hlock hcheck hn
  obtain ⟨hp2, hfit2, hrow2⟩ := lock_path_piece g key hinv t1 t2 force nt hpi hfd hy2
  obtain ⟨hlen2, _, _, htop, _, _, hpos⟩ :=
    lock_path_fields g.field field1 field2 t2 _ n L hinv.length hinv.border htidy hp2
      hfit2 hrow2 hlock hcheck
  refine ⟨hrow2, hlen2, htop.1, htop.2, ?_, ?_⟩
  · intro fuel hfuel
    obtain ⟨field3, e1, e2, _⟩ := hpos hn fuel hfuel
    exact ⟨field3, e1, e2⟩
  · obtain ⟨field3, e1, e2, _⟩ := hpos hn FIELD_LENGTH (by decide)
    exact ⟨field3, e1, e2⟩

theorem clearLines_terminates_witness :
    Reachable lineGame ∧
    tick lineGame Key.down rndIdentity ≠ none ∧
    clearLinesFromField 17 lineMarkedField 1 16 ≠ none ∧
    (2 ≤ (pieceAt 6 0 8 15).y ∧ lineMarkedField.length = 216 ∧
      interiorRow lineMarkedField 0 = emptyRow ∧ interiorRow lineMarkedField 1 = emptyRow ∧
      (∀ fuel, 17 ≤ fuel → ∃ field3,
        clearLinesFromField fuel lineMarkedField 1 16 = some field3 ∧ field3.length = 216) ∧
      ∃ field3, clearLinesFromField FIELD_LENGTH lineMarkedField 1 16 = some field3 ∧
        field3.length = 216) :=
  ⟨lineGame_reachable, by decide!, by decide!,
    (clearLines_terminates lineGame lineGame_reachable).2.2 Key.down (pieceAt 6 0 8 15)
      (pieceAt 6 0 8 15) true 0 lineLockedField lineMarkedField 1 16 (by decide!) (by decide!)
      (by decide) (by decide!) (by decide!) (by decide)⟩

end CTetris
